import Mathlib

/-!
# Verification of the Chu-Liu-Edmonds minimum spanning arborescence solver

This file gives a shallow embedding of `chuLiuEdmonds` from `src/edmonds.cc`
and proves properties of it.  The C++ function is

```
int chuLiuEdmonds(int n, int root, vector<Edge>& edges)
```

an iterative loop of four phases: minimum-incoming-edge selection, cycle
detection over the selected edges, weight accumulation, and contraction of the
detected cycles into super-vertices.  The embedding models the `vector<Edge>`
as a `List Edge`, the integer arrays `inEdge`, `cycle`, `visited`, `id` as
functions out of `Nat` (with `Option` standing for the `-1` sentinel stored in
`inEdge` and `cycle`), and the inner `while` walks as fuelled recursions; the
fuel `n+1` is proved sufficient below.  The `while (true)` loop itself is
fuelled by `n`, which suffices because every contraction strictly decreases
the vertex count.  Since the C++ function both returns an `int` and mutates
the caller's vector, the embedding returns the pair of the result and the
final contents of `edges`; `Option` models fuel exhaustion (proved
unreachable on inputs satisfying the preconditions).
-/

set_option maxHeartbeats 1000000

namespace Edmonds

/-- The edge record of `src/edmonds.cc` (`struct Edge { int from, to, weight; }`);
`from` is a Lean keyword, so the field is called `src`. -/
structure Edge where
  src : Nat
  dst : Nat
  weight : Int
deriving DecidableEq, Repr

/-- Reading `edges[j]`; out-of-range reads (which never occur on inputs
satisfying the preconditions) give a default edge. -/
def getEdge (edges : List Edge) (j : Nat) : Edge :=
  edges.getD j ⟨0, 0, 0⟩

/-- One step of the selection loop (lines 43-48): skip self-loops, and record
the index of the current edge as the chosen incoming edge of its destination
when it is the first candidate or strictly cheaper than the recorded one. -/
def selUpd (edges : List Edge) (acc : Nat → Option Nat) (i : Nat) (e : Edge) :
    Nat → Option Nat :=
  if e.src = e.dst then acc
  else
    match acc e.dst with
    | none => Function.update acc e.dst (some i)
    | some j =>
      if e.weight < (getEdge edges j).weight then Function.update acc e.dst (some i)
      else acc

/-- The `inEdge` array after the selection loop: for each vertex, the index of
its minimum-weight non-self-loop incoming edge (first-seen wins ties), or
`none` (the C++ `-1`) if it has none. -/
def computeInEdge (edges : List Edge) : Nat → Option Nat :=
  edges.enum.foldl (fun acc p => selUpd edges acc p.1 p.2) fun _ => none

/-- The dereference `edges[inEdge[v]].weight`. -/
def selWeight (edges : List Edge) (inE : Nat → Option Nat) (v : Nat) : Int :=
  (getEdge edges ((inE v).getD 0)).weight

/-- The dereference `edges[inEdge[v]].from`: the source of the selected
incoming edge of `v`, i.e. the step of the selected-edge chains walked by the
cycle-detection, cycle-marking and relabeling loops. -/
def selSrc (edges : List Edge) (inE : Nat → Option Nat) (v : Nat) : Nat :=
  (getEdge edges ((inE v).getD 0)).src

/-- The check of lines 50-52: some non-root vertex has no selected incoming
edge (the `return -1` trigger). -/
def noInEdge (n root : Nat) (inE : Nat → Option Nat) : Bool :=
  (List.range n).any fun i => i != root && (inE i).isNone

/-- The walk of lines 62-69: follow selected-edge sources from `u`, marking
vertices `1`, until reaching a settled vertex (`visited = 2`, no cycle) or a
vertex already marked `1` (a new cycle, with the walk stopped on the repeated
vertex).  Returns the updated `visited`, the stop vertex and the `hasCycle`
flag. -/
def findCycle (p : Nat → Nat) : Nat → (Nat → Nat) → Nat → ((Nat → Nat) × Nat × Bool)
  | 0, visited, u => (visited, u, false)
  | fuel + 1, visited, u =>
    if visited u = 2 then (visited, u, false)
    else if visited u = 1 then (visited, u, true)
    else findCycle p fuel (Function.update visited u 1) (p u)

/-- The `do`-`while` of lines 73-77: assign the cycle id `cid` around the
cycle through `u`, starting at `v = u`. -/
def markCycle (p : Nat → Nat) (cid : Nat) (u : Nat) :
    Nat → (Nat → Option Nat) → Nat → (Nat → Option Nat)
  | 0, cyc, _ => cyc
  | fuel + 1, cyc, v =>
    let cyc2 := Function.update cyc v (some cid)
    if p v = u then cyc2 else markCycle p cid u fuel cyc2 (p v)

/-- The walk of lines 79-83: re-walk the chain from `u`, settling every vertex
(`visited := 2`) until reaching an already settled one. -/
def settleWalk (p : Nat → Nat) : Nat → (Nat → Nat) → Nat → (Nat → Nat)
  | 0, visited, _ => visited
  | fuel + 1, visited, u =>
    if visited u = 2 then visited
    else settleWalk p fuel (Function.update visited u 2) (p u)

/-- The state of the cycle-detection phase: the `visited` and `cycle` arrays
and the `cycleCount` counter. -/
structure DetectState where
  visited : Nat → Nat
  cyc : Nat → Option Nat
  cycleCount : Nat

/-- The body of the outer cycle-detection loop (lines 58-85) for one start
vertex `i`. -/
def detectStep (p : Nat → Nat) (fuel : Nat) (st : DetectState) (i : Nat) : DetectState :=
  if st.visited i = 0 then
    let r := findCycle p fuel st.visited i
    let st2 : DetectState :=
      if r.2.2 then
        { visited := r.1, cyc := markCycle p st.cycleCount r.2.1 fuel st.cyc r.2.1,
          cycleCount := st.cycleCount + 1 }
      else
        { visited := r.1, cyc := st.cyc, cycleCount := st.cycleCount }
    { st2 with visited := settleWalk p fuel st2.visited i }
  else st

/-- The whole cycle-detection phase (lines 54-85): fresh `cycle`/`visited`
arrays, the root pre-settled, then the outer loop over all vertices. -/
def runDetect (p : Nat → Nat) (n root : Nat) : DetectState :=
  (List.range n).foldl (detectStep p (n + 1))
    { visited := Function.update (fun _ => 0) root 2, cyc := fun _ => none, cycleCount := 0 }

/-- The accumulation loop of lines 87-91: add the weights of the selected
incoming edges of all non-root vertices. -/
def iterWeight (n root : Nat) (edges : List Edge) (inE : Nat → Option Nat) : Int :=
  (List.range n).foldl
    (fun acc i => if i ≠ root ∧ (inE i).isSome then acc + selWeight edges inE i else acc) 0

/-- The `while` of lines 105-108: assign the new index `num` around the cycle
through `i`, starting from `current = p i`, stopping when the walk returns
to `i`. -/
def markId (p : Nat → Nat) (num : Nat) (i : Nat) :
    Nat → (Nat → Nat) → Nat → (Nat → Nat)
  | 0, idf, _ => idf
  | fuel + 1, idf, current =>
    if current = i then idf
    else markId p num i fuel (Function.update idf current num) (p current)

/-- The body of the relabeling loop (lines 100-113) for one vertex `i`: a
cycle vertex not yet numbered numbers its whole cycle with a fresh index, an
already numbered cycle vertex is skipped, and a non-cycle vertex gets its own
fresh index. -/
def buildIdStep (p : Nat → Nat) (fuel : Nat) (cyc : Nat → Option Nat)
    (st : (Nat → Nat) × Nat) (i : Nat) : (Nat → Nat) × Nat :=
  match cyc i with
  | some _ =>
    if st.1 i = 0 then
      let num := st.2 + 1
      (markId p num i fuel (Function.update st.1 i num) (p i), num)
    else st
  | none => (Function.update st.1 i (st.2 + 1), st.2 + 1)

/-- The relabeling loop (lines 98-113): the `id` array (1-based, `0` meaning
unassigned) and the new vertex count `numNodes`. -/
def buildId (p : Nat → Nat) (n : Nat) (cyc : Nat → Option Nat) : (Nat → Nat) × Nat :=
  (List.range n).foldl (buildIdStep p (n + 1) cyc) (fun _ => 0, 0)

/-- The contraction loop of lines 115-124: every edge whose endpoints get
distinct new indices is emitted with weight discounted by the selected
incoming-edge weight of its destination; edges inside one class are
dropped. -/
def contractEdges (edges : List Edge) (inE : Nat → Option Nat) (idf : Nat → Nat) :
    List Edge :=
  edges.filterMap fun e =>
    if idf e.src - 1 ≠ idf e.dst - 1 then
      some ⟨idf e.src - 1, idf e.dst - 1, e.weight - selWeight edges inE e.dst⟩
    else none

/-- The result of the C++ function: the `-1` "no arborescence" return of
line 51, or the accumulated weight returned at line 94. -/
inductive MsaResult where
  | noArb : MsaResult
  | weight : Int → MsaResult
deriving DecidableEq, Repr

/-- The actual C++ `int` return value: `-1` for `noArb`. -/
def MsaResult.toInt : MsaResult → Int
  | noArb => -1
  | weight w => w

/-- The `while (true)` loop of lines 38-128, fuelled: one iteration runs
selection, the no-incoming-edge check, cycle detection, accumulation, the
`cycleCount == 0` return, and otherwise contraction, after which `edges`,
`n` and `root` are replaced.  The second component of the returned pair is
the final contents of the caller's `edges` vector (which the C++ function
mutates through its reference parameter at line 125). -/
def chuLoop : Nat → Nat → Nat → List Edge → Int → Option (MsaResult × List Edge)
  | 0, _, _, _, _ => none
  | fuel + 1, n, root, edges, acc =>
    let inE := computeInEdge edges
    if noInEdge n root inE then some (MsaResult.noArb, edges)
    else
      let p := selSrc edges inE
      let st := runDetect p n root
      let acc2 := acc + iterWeight n root edges inE
      if st.cycleCount = 0 then some (MsaResult.weight acc2, edges)
      else
        let bi := buildId p n st.cyc
        chuLoop fuel bi.2 (bi.1 root - 1) (contractEdges edges inE bi.1) acc2

/-- `chuLiuEdmonds n root edges`: the value returned by the C++ function
(fuel `n` suffices, as proved below). -/
def chuLiuEdmonds (n root : Nat) (edges : List Edge) : Option MsaResult :=
  (chuLoop n n root edges 0).map Prod.fst

/-- The contents of the caller-owned `edges` vector after the call returns. -/
def finalEdges (n root : Nat) (edges : List Edge) : Option (List Edge) :=
  (chuLoop n n root edges 0).map Prod.snd

/-! ## The specification side: preconditions, reachability, arborescences -/

/-- The preconditions of the contract: at least one vertex, the root in
range, and all edge endpoints in range. -/
def Pre (n root : Nat) (edges : List Edge) : Prop :=
  1 ≤ n ∧ root < n ∧ ∀ e ∈ edges, e.src < n ∧ e.dst < n

/-- `edgeRel edges u v`: some edge of the list goes from `u` to `v`. -/
def edgeRel (edges : List Edge) (u v : Nat) : Prop :=
  ∃ e ∈ edges, e.src = u ∧ e.dst = v

/-- Reachability by a directed path. -/
def Reaches (edges : List Edge) (u v : Nat) : Prop :=
  Relation.ReflTransGen (edgeRel edges) u v

/-- Every vertex is reachable from the root. -/
def AllReach (n root : Nat) (edges : List Edge) : Prop :=
  ∀ v < n, Reaches edges root v

/-- The graph has no directed cycle. -/
def Acyclic (edges : List Edge) : Prop :=
  ∀ v, ¬ Relation.TransGen (edgeRel edges) v v

/-- The parent of `v` under a choice `c` of incoming-edge indices. -/
def arbParent (edges : List Edge) (c : Nat → Nat) (v : Nat) : Nat :=
  (getEdge edges (c v)).src

/-- Modelled from the spec: `c` chooses, for every non-root vertex, an
incoming edge, and following the chosen edges backwards from any vertex
reaches the root — a spanning arborescence rooted at `root`, given by one
incoming edge index per non-root vertex. -/
def IsArb (n root : Nat) (edges : List Edge) (c : Nat → Nat) : Prop :=
  (∀ v, v < n → v ≠ root → c v < edges.length ∧ (getEdge edges (c v)).dst = v) ∧
  ∀ v, v < n → ∃ k, (arbParent edges c)^[k] v = root

/-- The total weight of the arborescence `c`. -/
def arbWeight (n root : Nat) (edges : List Edge) (c : Nat → Nat) : Int :=
  ∑ v in (Finset.range n).filter (fun v => v ≠ root), (getEdge edges (c v)).weight

/-- `w` is the minimum total weight over all spanning arborescences rooted at
`root`. -/
def MinArbW (n root : Nat) (edges : List Edge) (w : Int) : Prop :=
  (∃ c, IsArb n root edges c ∧ arbWeight n root edges c = w) ∧
  ∀ c, IsArb n root edges c → w ≤ arbWeight n root edges c


/-- The per-iteration parent function `u ↦ edges[inEdge[u]].from` (line 68). -/
def iterP (edges : List Edge) : Nat → Nat :=
  selSrc edges (computeInEdge edges)

/-- The `cycle` array after the detection loop of one iteration (lines 54-85). -/
def iterCyc (n root : Nat) (edges : List Edge) : Nat → Option Nat :=
  (runDetect (iterP edges) n root).cyc

/-- The `id` array and `numNodes` of one contraction (lines 98-113). -/
def iterBi (n root : Nat) (edges : List Edge) : (Nat → Nat) × Nat :=
  buildId (iterP edges) n (iterCyc n root edges)

/-! ## Characterization of the selection phase -/

/-- `j` is a valid index of a non-self-loop edge into `v`. -/
def GoodIdx (edges : List Edge) (v j : Nat) : Prop :=
  j < edges.length ∧ (getEdge edges j).dst = v ∧ (getEdge edges j).src ≠ v

theorem selUpd_self (edges : List Edge) (acc : Nat → Option Nat) (i : Nat) {e : Edge}
    (hs : e.src = e.dst) : selUpd edges acc i e = acc := by
  unfold selUpd; rw [if_pos hs]

theorem selUpd_none (edges : List Edge) {acc : Nat → Option Nat} (i : Nat) {e : Edge}
    (hs : e.src ≠ e.dst) (h : acc e.dst = none) :
    selUpd edges acc i e = Function.update acc e.dst (some i) := by
  unfold selUpd; rw [if_neg hs, h]

theorem selUpd_lt (edges : List Edge) {acc : Nat → Option Nat} (i : Nat) {e : Edge} {j : Nat}
    (hs : e.src ≠ e.dst) (h : acc e.dst = some j)
    (hlt : e.weight < (getEdge edges j).weight) :
    selUpd edges acc i e = Function.update acc e.dst (some i) := by
  unfold selUpd; rw [if_neg hs, h]; dsimp only; rw [if_pos hlt]

theorem selUpd_ge (edges : List Edge) {acc : Nat → Option Nat} (i : Nat) {e : Edge} {j : Nat}
    (hs : e.src ≠ e.dst) (h : acc e.dst = some j)
    (hge : ¬ e.weight < (getEdge edges j).weight) :
    selUpd edges acc i e = acc := by
  unfold selUpd; rw [if_neg hs, h]; dsimp only; rw [if_neg hge]

theorem selUpd_apply (edges : List Edge) (acc : Nat → Option Nat) (i : Nat) (e : Edge)
    (v : Nat) : selUpd edges acc i e v = acc v ∨
      (selUpd edges acc i e v = some i ∧ v = e.dst ∧ e.src ≠ e.dst) := by
  by_cases hs : e.src = e.dst
  · rw [selUpd_self edges acc i hs]; exact Or.inl rfl
  · cases h : acc e.dst with
    | none =>
      rw [selUpd_none edges i hs h, Function.update_apply]
      by_cases hv : v = e.dst
      · exact Or.inr ⟨by rw [if_pos hv], hv, hs⟩
      · exact Or.inl (by rw [if_neg hv])
    | some j =>
      by_cases hlt : e.weight < (getEdge edges j).weight
      · rw [selUpd_lt edges i hs h hlt, Function.update_apply]
        by_cases hv : v = e.dst
        · exact Or.inr ⟨by rw [if_pos hv], hv, hs⟩
        · exact Or.inl (by rw [if_neg hv])
      · rw [selUpd_ge edges i hs h hlt]
        exact Or.inl rfl

theorem foldl_sel_good (edges : List Edge) (l : List (Nat × Edge))
    (acc : Nat → Option Nat)
    (hl : ∀ q ∈ l, q.1 < edges.length ∧ getEdge edges q.1 = q.2)
    (hacc : ∀ v j, acc v = some j → GoodIdx edges v j) :
    ∀ v j, (l.foldl (fun a q => selUpd edges a q.1 q.2) acc) v = some j →
      GoodIdx edges v j := by
  induction l generalizing acc with
  | nil => exact hacc
  | cons q rest ih =>
    intro v j h
    refine ih (selUpd edges acc q.1 q.2) (fun r hr => hl r (List.mem_cons_of_mem q hr))
      ?_ v j h
    intro w k hw
    rcases selUpd_apply edges acc q.1 q.2 w with heq | ⟨heq, hdst, hns⟩
    · exact hacc w k (heq ▸ hw)
    · obtain ⟨hlt, hget⟩ := hl q (List.mem_cons_self q rest)
      rw [heq] at hw
      cases hw
      subst hdst
      unfold GoodIdx
      exact ⟨hlt, by rw [hget], by rw [hget]; exact hns⟩

theorem foldl_sel_none (edges : List Edge) (l : List (Nat × Edge))
    (acc : Nat → Option Nat) (v : Nat)
    (h : (l.foldl (fun a q => selUpd edges a q.1 q.2) acc) v = none) :
    acc v = none ∧ ∀ q ∈ l, q.2.dst = v → q.2.src = q.2.dst := by
  induction l generalizing acc with
  | nil => exact ⟨h, by simp⟩
  | cons q rest ih =>
    obtain ⟨hacc, hrest⟩ := ih (selUpd edges acc q.1 q.2) h
    have hq : q.2.dst = v → q.2.src = q.2.dst := by
      intro hdst
      by_contra hns
      -- slot v gets some value in selUpd, contradicting hacc
      cases hv : acc q.2.dst with
      | none =>
        rw [selUpd_none edges q.1 hns hv, hdst, Function.update_same] at hacc
        cases hacc
      | some j =>
        by_cases hlt : q.2.weight < (getEdge edges j).weight
        · rw [selUpd_lt edges q.1 hns hv hlt, hdst, Function.update_same] at hacc
          cases hacc
        · rw [selUpd_ge edges q.1 hns hv hlt, ← hdst, hv] at hacc
          cases hacc
    refine ⟨?_, fun r hr => ?_⟩
    · rcases selUpd_apply edges acc q.1 q.2 v with heq | ⟨heq, _, _⟩
      · rw [← heq]; exact hacc
      · rw [heq] at hacc; cases hacc
    · rcases List.mem_cons.1 hr with rfl | hr'
      · exact hq
      · exact hrest r hr'

theorem foldl_sel_min (edges : List Edge) (l : List (Nat × Edge))
    (acc : Nat → Option Nat) (v j : Nat)
    (hl : ∀ q ∈ l, getEdge edges q.1 = q.2)
    (hres : (l.foldl (fun a q => selUpd edges a q.1 q.2) acc) v = some j) :
    (∀ j0, acc v = some j0 → (getEdge edges j).weight ≤ (getEdge edges j0).weight) ∧
    ∀ q ∈ l, q.2.dst = v → q.2.src ≠ q.2.dst →
      (getEdge edges j).weight ≤ q.2.weight := by
  induction l generalizing acc with
  | nil =>
    refine ⟨fun j0 h0 => ?_, by simp⟩
    rw [List.foldl_nil] at hres
    rw [hres] at h0; cases h0; exact le_refl _
  | cons q rest ih =>
    obtain ⟨hstored, hrest⟩ := ih (selUpd edges acc q.1 q.2)
      (fun r hr => hl r (List.mem_cons_of_mem q hr)) hres
    have hgetq : getEdge edges q.1 = q.2 := hl q (List.mem_cons_self q rest)
    have hq : q.2.dst = v → q.2.src ≠ q.2.dst → (getEdge edges j).weight ≤ q.2.weight := by
      intro hdst hns
      cases hv : acc q.2.dst with
      | none =>
        have := hstored q.1
          (by rw [selUpd_none edges q.1 hns hv, ← hdst, hdst, Function.update_same])
        rw [hgetq] at this; exact this
      | some j0 =>
        by_cases hlt : q.2.weight < (getEdge edges j0).weight
        · have := hstored q.1
            (by rw [selUpd_lt edges q.1 hns hv hlt, ← hdst, hdst, Function.update_same])
          rw [hgetq] at this; exact this
        · have := hstored j0 (by rw [selUpd_ge edges q.1 hns hv hlt, ← hdst, hv])
          exact le_trans this (not_lt.1 hlt)
    refine ⟨fun j0 h0 => ?_, fun r hr => ?_⟩
    · by_cases hns : q.2.src = q.2.dst
      · exact hstored j0 (by rw [selUpd_self edges acc q.1 hns, h0])
      · by_cases hdst : v = q.2.dst
        · subst hdst
          by_cases hlt : q.2.weight < (getEdge edges j0).weight
          · exact le_trans (hq rfl hns) (le_of_lt hlt)
          · exact hstored j0 (by rw [selUpd_ge edges q.1 hns h0 hlt, h0])
        · refine hstored j0 ?_
          rcases selUpd_apply edges acc q.1 q.2 v with heq | ⟨_, hdst2, _⟩
          · rw [heq, h0]
          · exact absurd hdst2 hdst
    · rcases List.mem_cons.1 hr with rfl | hr'
      · exact hq
      · exact hrest r hr'

theorem enum_valid (edges : List Edge) :
    ∀ q ∈ edges.enum, q.1 < edges.length ∧ getEdge edges q.1 = q.2 := by
  intro q hq
  have h := List.mem_enum_iff_get?.1 hq
  obtain ⟨hlt, hget⟩ := List.get?_eq_some.1 h
  refine ⟨hlt, ?_⟩
  rw [getEdge, List.getD_eq_getElem _ _ hlt, ← hget]
  rfl

theorem mem_enum_of_mem (edges : List Edge) (e : Edge) (he : e ∈ edges) :
    ∃ i, (i, e) ∈ edges.enum := by
  obtain ⟨i, hi⟩ := List.mem_iff_get?.1 he
  exact ⟨i, List.mem_enum_iff_get?.2 hi⟩

theorem computeInEdge_some (edges : List Edge) (v j : Nat)
    (h : computeInEdge edges v = some j) :
    GoodIdx edges v j ∧
      ∀ e ∈ edges, e.dst = v → e.src ≠ e.dst → (getEdge edges j).weight ≤ e.weight := by
  constructor
  · exact foldl_sel_good edges edges.enum _ (enum_valid edges) (by simp) v j h
  · intro e he hdst hns
    obtain ⟨i, hi⟩ := mem_enum_of_mem edges e he
    exact (foldl_sel_min edges edges.enum _ v j
        (fun q hq => (enum_valid edges q hq).2) h).2 (i, e) hi hdst hns

theorem computeInEdge_none (edges : List Edge) (v : Nat)
    (h : computeInEdge edges v = none) :
    ∀ e ∈ edges, e.dst = v → e.src = e.dst := by
  intro e he hdst
  obtain ⟨i, hi⟩ := mem_enum_of_mem edges e he
  exact (foldl_sel_none edges edges.enum _ v h).2 (i, e) hi hdst

theorem computeInEdge_isSome (edges : List Edge) {v : Nat} {e : Edge}
    (he : e ∈ edges) (hdst : e.dst = v) (hns : e.src ≠ e.dst) :
    (computeInEdge edges v).isSome := by
  cases h : computeInEdge edges v with
  | none => exact absurd (computeInEdge_none edges v h e he (by rw [hdst])) hns
  | some j => rfl

theorem selWeight_eq (edges : List Edge) (inE : Nat → Option Nat) {v j : Nat}
    (h : inE v = some j) : selWeight edges inE v = (getEdge edges j).weight := by
  rw [selWeight, h]; rfl

theorem selSrc_eq (edges : List Edge) (inE : Nat → Option Nat) {v j : Nat}
    (h : inE v = some j) : selSrc edges inE v = (getEdge edges j).src := by
  rw [selSrc, h]; rfl

theorem getEdge_mem (edges : List Edge) {j : Nat} (h : j < edges.length) :
    getEdge edges j ∈ edges := by
  rw [getEdge, List.getD_eq_getElem _ _ h]
  exact List.getElem_mem _

/-! ## Unfolding the main loop one iteration at a time -/

theorem chuLoop_one_step (fuel n root : Nat) (edges : List Edge) (acc : Int) :
    chuLoop (fuel + 1) n root edges acc =
      if noInEdge n root (computeInEdge edges) then some (MsaResult.noArb, edges)
      else
        let inE := computeInEdge edges
        let p := selSrc edges inE
        let st := runDetect p n root
        let acc2 := acc + iterWeight n root edges inE
        if st.cycleCount = 0 then some (MsaResult.weight acc2, edges)
        else
          let bi := buildId p n st.cyc
          chuLoop fuel bi.2 (bi.1 root - 1) (contractEdges edges inE bi.1) acc2 := rfl

/-! ## Claim C9: a single-vertex graph always yields weight 0 -/

theorem computeInEdge_eq_none_of_single (edges : List Edge)
    (h : ∀ e ∈ edges, e.src < 1 ∧ e.dst < 1) (v : Nat) :
    computeInEdge edges v = none := by
  cases hc : computeInEdge edges v with
  | none => rfl
  | some j =>
    obtain ⟨⟨hj, hdst, hns⟩, _⟩ := computeInEdge_some edges v j hc
    have hm := h _ (getEdge_mem edges hj)
    omega

theorem runDetect_single (p : Nat → Nat) : (runDetect p 1 0).cycleCount = 0 := by
  rw [runDetect]
  have : List.range 1 = [0] := rfl
  rw [this]
  simp [detectStep, Function.update_same]

/-- Claim C9: with a single vertex (so root `0` and only self-loop edges),
the solver returns weight `0` whatever the edge list is. -/
theorem claim_C9 (edges : List Edge) (h : ∀ e ∈ edges, e.src < 1 ∧ e.dst < 1) :
    chuLiuEdmonds 1 0 edges = some (MsaResult.weight 0) := by
  have hnone := computeInEdge_eq_none_of_single edges h
  have hchk : noInEdge 1 0 (computeInEdge edges) = false := by
    simp [noInEdge]
  have hiw : iterWeight 1 0 edges (computeInEdge edges) = 0 := by
    simp [iterWeight, hnone]
  rw [chuLiuEdmonds, chuLoop_one_step, hchk]
  simp only [if_false, Bool.false_eq_true, runDetect_single, if_true, hiw]
  norm_num

/-- Witness for C9 at a concrete input. -/
theorem claim_C9_witness :
    (∀ e ∈ [Edge.mk 0 0 5, Edge.mk 0 0 (-3)], e.src < 1 ∧ e.dst < 1) ∧
      chuLiuEdmonds 1 0 [Edge.mk 0 0 5, Edge.mk 0 0 (-3)] = some (MsaResult.weight 0) :=
  ⟨by decide, claim_C9 [Edge.mk 0 0 5, Edge.mk 0 0 (-3)] (by decide)⟩

/-! ## Claim C3: the caller's edge list is mutated by contraction -/

/-- Counterexample to C3: on the cycle input of test case 2, the caller's
`edges` vector does not hold its original contents after the call (the
contraction at line 125 overwrote it), although the input satisfies the
preconditions. -/
theorem claim_C3_counterexample :
    Pre 3 0 [Edge.mk 0 1 10, Edge.mk 1 2 20, Edge.mk 2 1 5] ∧
      finalEdges 3 0 [Edge.mk 0 1 10, Edge.mk 1 2 20, Edge.mk 2 1 5] ≠
        some [Edge.mk 0 1 10, Edge.mk 1 2 20, Edge.mk 2 1 5] := by
  constructor
  · refine ⟨by omega, by omega, ?_⟩
    decide
  · decide

/-- Amended C3: the caller's edge list is unchanged exactly in the
no-contraction runs — whenever the call returns during its first loop
iteration (immediate `NO_ARBORESCENCE`, or no cycle detected), the list the
caller passed is untouched. -/
theorem claim_C3_amended (n root : Nat) (edges : List Edge) (h1 : 1 ≤ n)
    (h : noInEdge n root (computeInEdge edges) = true ∨
      (runDetect (selSrc edges (computeInEdge edges)) n root).cycleCount = 0) :
    finalEdges n root edges = some edges := by
  obtain ⟨m, rfl⟩ : ∃ m, n = m + 1 := ⟨n - 1, by omega⟩
  rw [finalEdges, chuLoop_one_step]
  by_cases hc : noInEdge (m + 1) root (computeInEdge edges)
  · rw [if_pos hc]; rfl
  · rw [if_neg (by simp [hc])]
    rcases h with h | h
    · exact absurd h (by simp [hc])
    · simp only [h, if_true]
      rfl

/-- Witness for the amended C3. -/
theorem claim_C3_amended_witness :
    finalEdges 3 0 [Edge.mk 0 1 10, Edge.mk 0 2 5] =
      some [Edge.mk 0 1 10, Edge.mk 0 2 5] :=
  claim_C3_amended 3 0 [Edge.mk 0 1 10, Edge.mk 0 2 5] (by omega) (by right; decide)

/-! ## Claim C4: the -1 sentinel is not out-of-band -/

/-- Counterexample to C4: the graph `n = 2`, `root = 0`, single edge
`(0,1,-1)` has a spanning arborescence, and the successful run returns
total weight `-1` — the very `int` value line 51 uses to signal that no
arborescence exists. -/
theorem claim_C4_counterexample :
    Pre 2 0 [Edge.mk 0 1 (-1)] ∧
      IsArb 2 0 [Edge.mk 0 1 (-1)] (fun _ => 0) ∧
      chuLiuEdmonds 2 0 [Edge.mk 0 1 (-1)] = some (MsaResult.weight (-1)) ∧
      (MsaResult.weight (-1)).toInt = MsaResult.noArb.toInt := by
  refine ⟨⟨by omega, by omega, by decide⟩, ⟨by decide, ?_⟩, by decide, rfl⟩
  intro v hv
  match v, hv with
  | 0, _ => exact ⟨0, rfl⟩
  | 1, _ => exact ⟨1, rfl⟩

theorem mem_contractEdges {edges : List Edge} {inE : Nat → Option Nat}
    {idf : Nat → Nat} {e' : Edge} :
    e' ∈ contractEdges edges inE idf ↔
      ∃ e ∈ edges, idf e.src - 1 ≠ idf e.dst - 1 ∧
        e' = ⟨idf e.src - 1, idf e.dst - 1, e.weight - selWeight edges inE e.dst⟩ := by
  rw [contractEdges, List.mem_filterMap]
  constructor
  · rintro ⟨e, he, hsome⟩
    by_cases hne : idf e.src - 1 ≠ idf e.dst - 1
    · rw [if_pos hne] at hsome
      exact ⟨e, he, hne, (Option.some_inj.1 hsome).symm⟩
    · rw [if_neg hne] at hsome
      cases hsome
  · rintro ⟨e, he, hne, rfl⟩
    exact ⟨e, he, by rw [if_pos hne]⟩

/-- Every edge kept by a contraction has non-negative reduced weight: the
discount is the minimum weight over the incoming edges of its destination. -/
theorem contractEdges_nonneg (edges : List Edge) (idf : Nat → Nat) :
    ∀ e' ∈ contractEdges edges (computeInEdge edges) idf, 0 ≤ e'.weight := by
  intro e' he'
  obtain ⟨e, he, hne, rfl⟩ := mem_contractEdges.1 he'
  have hsd : e.src ≠ e.dst := fun hc => hne (by rw [hc])
  have hsome := computeInEdge_isSome edges he rfl hsd
  obtain ⟨j, hj⟩ := Option.isSome_iff_exists.1 hsome
  have hmin := (computeInEdge_some edges e.dst j hj).2 e he rfl hsd
  rw [selWeight_eq edges _ hj]
  simp only []
  omega

theorem iterWeight_nonneg (n root : Nat) (edges : List Edge)
    (hw : ∀ e ∈ edges, 0 ≤ e.weight) :
    0 ≤ iterWeight n root edges (computeInEdge edges) := by
  rw [iterWeight]
  have key : ∀ (l : List Nat) (acc : Int), 0 ≤ acc →
      0 ≤ l.foldl (fun acc i =>
        if i ≠ root ∧ ((computeInEdge edges) i).isSome then
          acc + selWeight edges (computeInEdge edges) i
        else acc) acc := by
    intro l
    induction l with
    | nil => intro acc h; exact h
    | cons a t ih =>
      intro acc h
      apply ih
      dsimp only
      split
      · rename_i hcond
        obtain ⟨j, hj⟩ := Option.isSome_iff_exists.1 hcond.2
        rw [selWeight_eq edges _ hj]
        have hg := (computeInEdge_some edges a j hj).1.1
        have := hw _ (getEdge_mem edges hg)
        omega
      · exact h
  exact key _ 0 le_rfl

theorem chuLoop_weight_nonneg (fuel : Nat) : ∀ (n root : Nat) (edges : List Edge)
    (acc : Int), (∀ e ∈ edges, 0 ≤ e.weight) → 0 ≤ acc →
    ∀ (w : Int) (l : List Edge),
      chuLoop fuel n root edges acc = some (MsaResult.weight w, l) → 0 ≤ w := by
  induction fuel with
  | zero => intro n root edges acc _ _ w l h; cases h
  | succ fuel ih =>
    intro n root edges acc hw hacc w l h
    rw [chuLoop_one_step] at h
    by_cases hc : noInEdge n root (computeInEdge edges)
    · rw [if_pos hc] at h; cases h
    · rw [if_neg hc] at h
      simp only [] at h
      by_cases hcyc : (runDetect (selSrc edges (computeInEdge edges)) n root).cycleCount = 0
      · rw [if_pos hcyc] at h
        have hiw := iterWeight_nonneg n root edges hw
        cases h
        omega
      · rw [if_neg hcyc] at h
        exact ih _ _ _ _ (contractEdges_nonneg edges _) (by
          have := iterWeight_nonneg n root edges hw; omega) w l h

/-- Amended C4: the sentinel `-1` is out-of-band only on class of inputs
whose successful totals cannot be negative.  When all edge weights are
non-negative, a successful total weight is non-negative, hence the returned
`int` differs from the `-1` failure value; with negative weights the
sentinel can coincide with a legitimate total (see the counterexample). -/
theorem claim_C4_amended (n root : Nat) (edges : List Edge)
    (hw : ∀ e ∈ edges, 0 ≤ e.weight) (w : Int)
    (h : chuLiuEdmonds n root edges = some (MsaResult.weight w)) :
    0 ≤ w ∧ (MsaResult.weight w).toInt ≠ MsaResult.noArb.toInt := by
  rw [chuLiuEdmonds] at h
  cases hr : chuLoop n n root edges 0 with
  | none => rw [hr] at h; cases h
  | some q =>
    obtain ⟨res, lst⟩ := q
    rw [hr] at h
    simp only [Option.map_some', Option.some_inj] at h
    cases res with
    | noArb => simp at h
    | weight w' =>
      simp only [MsaResult.weight.injEq] at h
      subst h
      have h0 : 0 ≤ w' := chuLoop_weight_nonneg n n root edges 0 hw le_rfl w' lst hr
      refine ⟨h0, ?_⟩
      simp only [MsaResult.toInt]
      omega

/-- Witness for the amended C4. -/
theorem claim_C4_amended_witness :
    0 ≤ (5 : Int) ∧ (MsaResult.weight 5).toInt ≠ MsaResult.noArb.toInt :=
  claim_C4_amended 2 0 [Edge.mk 0 1 5] (by decide) 5 (by decide)

/-! ## Orbits of the selected-parent function -/

/-- `v` lies on a cycle of the parent function `p` that avoids `root` —
semantically, `v` is on a cycle of selected edges not through the root. -/
def OnCyc (p : Nat → Nat) (root v : Nat) : Prop :=
  ∃ k, 0 < k ∧ p^[k] v = v ∧ ∀ i < k, p^[i] v ≠ root

theorem OnCyc.ne_root {p : Nat → Nat} {root v : Nat} (h : OnCyc p root v) : v ≠ root := by
  obtain ⟨k, hk, -, havoid⟩ := h
  have := havoid 0 hk
  simpa using this

theorem iterate_mul_period {p : Nat → Nat} {T v : Nat} (h : p^[T] v = v) (q : Nat) :
    p^[T * q] v = v := by
  induction q with
  | zero => simp
  | succ q ih => rw [Nat.mul_succ, Function.iterate_add_apply, h, ih]

theorem iterate_mod_period {p : Nat → Nat} {T v : Nat} (h : p^[T] v = v) (m : Nat) :
    p^[m] v = p^[m % T] v := by
  conv_lhs => rw [← Nat.mod_add_div m T]
  rw [Function.iterate_add_apply, iterate_mul_period h]

theorem OnCyc.avoid_all {p : Nat → Nat} {root v : Nat} (h : OnCyc p root v) (m : Nat) :
    p^[m] v ≠ root := by
  obtain ⟨k, hk, hper, havoid⟩ := h
  rw [iterate_mod_period hper m]
  exact havoid _ (Nat.mod_lt _ hk)

theorem OnCyc.step {p : Nat → Nat} {root v : Nat} (h : OnCyc p root v) :
    OnCyc p root (p v) := by
  obtain ⟨k, hk, hper, havoid⟩ := h
  refine ⟨k, hk, ?_, ?_⟩
  · rw [← Function.iterate_succ_apply, Function.iterate_succ_apply', hper]
  · intro i hi
    rw [← Function.iterate_succ_apply]
    have h2 : p^[i + 1] v ≠ root := by
      rcases Nat.lt_or_ge (i + 1) k with h3 | h3
      · exact havoid _ h3
      · have : i + 1 = k := by omega
        rw [this, hper]
        exact fun hc => havoid 0 hk (by simpa using hc)
    exact h2

theorem OnCyc.iterate {p : Nat → Nat} {root v : Nat} (h : OnCyc p root v) (m : Nat) :
    OnCyc p root (p^[m] v) := by
  induction m with
  | zero => exact h
  | succ m ih => rw [Function.iterate_succ_apply']; exact ih.step

/-- Any iterate image of an orbit vertex is again reached from it: orbit
membership is symmetric. -/
theorem OnCyc.symm_reach {p : Nat → Nat} {root v w : Nat} (h : OnCyc p root v)
    {m : Nat} (hw : p^[m] v = w) : ∃ m', p^[m'] w = v := by
  obtain ⟨k, hk, hper, -⟩ := h
  have hm : p^[m % k] v = w := by rw [← iterate_mod_period hper m, hw]
  refine ⟨k - m % k, ?_⟩
  rw [← hm, ← Function.iterate_add_apply]
  have : k - m % k + m % k = k := by
    have := Nat.mod_lt m hk
    omega
  rw [this, hper]

/-! ## Specification of the fuelled walks -/

theorem findCycle_spec_settled (p : Nat → Nat) :
    ∀ (K : Nat) (vis : Nat → Nat) (i fuel : Nat), K < fuel →
    (∀ l, l < K → vis (p^[l] i) = 0) →
    (∀ l1, l1 < K → ∀ l2, l2 < K → l1 ≠ l2 → p^[l1] i ≠ p^[l2] i) →
    vis (p^[K] i) = 2 →
    (findCycle p fuel vis i).2.1 = p^[K] i ∧ (findCycle p fuel vis i).2.2 = false ∧
    (∀ l, l < K → (findCycle p fuel vis i).1 (p^[l] i) = 1) ∧
    ∀ x, (∀ l, l < K → p^[l] i ≠ x) → (findCycle p fuel vis i).1 x = vis x := by
  intro K
  induction K with
  | zero =>
    intro vis i fuel hfuel h0 hdist hstop
    obtain ⟨f, rfl⟩ : ∃ f, fuel = f + 1 := ⟨fuel - 1, by omega⟩
    simp only [Function.iterate_zero_apply] at hstop
    rw [findCycle, if_pos hstop]
    exact ⟨by simp, rfl, by simp, fun x _ => rfl⟩
  | succ K ih =>
    intro vis i fuel hfuel h0 hdist hstop
    obtain ⟨f, rfl⟩ : ∃ f, fuel = f + 1 := ⟨fuel - 1, by omega⟩
    have hvi : vis i = 0 := by simpa using h0 0 (by omega)
    rw [findCycle, if_neg (by omega), if_neg (by omega)]
    have hKi : p^[K + 1] i ≠ i := by
      intro hc
      have := h0 0 (by omega)
      simp only [Function.iterate_zero_apply] at this
      rw [hc] at hstop
      omega
    have ih' := ih (Function.update vis i 1) (p i) f (by omega)
      (fun l hl => ?_) (fun l1 h1 l2 h2 hne => ?_) ?_
    rotate_left
    · -- prefix of the shifted chain is fresh
      rw [← Function.iterate_succ_apply]
      have hne : p^[l + 1] i ≠ i := by
        have h00 := hdist (l + 1) (by omega) 0 (by omega) (by omega)
        simpa using h00
      rw [Function.update_noteq hne]
      exact h0 (l + 1) (by omega)
    · rw [← Function.iterate_succ_apply, ← Function.iterate_succ_apply]
      exact hdist (l1 + 1) (by omega) (l2 + 1) (by omega) (by omega)
    · rw [← Function.iterate_succ_apply]
      rw [Function.update_noteq hKi]
      exact hstop
    obtain ⟨hstop', hflag, hmark, hkeep⟩ := ih'
    refine ⟨?_, hflag, ?_, ?_⟩
    · rw [hstop', ← Function.iterate_succ_apply]
    · intro l hl
      rcases Nat.eq_zero_or_pos l with rfl | hlpos
      · simp only [Function.iterate_zero_apply]
        rw [hkeep i fun l2 hl2 => ?_]
        · rw [Function.update_same]
        · rw [← Function.iterate_succ_apply]
          have := hdist (l2 + 1) (by omega) 0 (by omega) (by omega)
          simpa using this
      · obtain ⟨l', rfl⟩ : ∃ l', l = l' + 1 := ⟨l - 1, by omega⟩
        rw [Function.iterate_succ_apply]
        exact hmark l' (by omega)
    · intro x hx
      rw [hkeep x fun l hl => ?_, Function.update_noteq ?_]
      · have h1 := hx 0 (by omega)
        simp only [Function.iterate_zero_apply] at h1
        exact h1.symm
      · rw [← Function.iterate_succ_apply]
        exact hx (l + 1) (by omega)

theorem findCycle_spec_cycle (p : Nat → Nat) :
    ∀ (K : Nat) (vis : Nat → Nat) (i fuel : Nat), K < fuel →
    (∀ l, l < K → vis (p^[l] i) = 0) →
    (∀ l1, l1 < K → ∀ l2, l2 < K → l1 ≠ l2 → p^[l1] i ≠ p^[l2] i) →
    (vis (p^[K] i) = 1 ∨ ∃ j, j < K ∧ p^[K] i = p^[j] i) →
    (findCycle p fuel vis i).2.1 = p^[K] i ∧ (findCycle p fuel vis i).2.2 = true ∧
    (∀ l, l < K → (findCycle p fuel vis i).1 (p^[l] i) = 1) ∧
    ∀ x, (∀ l, l < K → p^[l] i ≠ x) → (findCycle p fuel vis i).1 x = vis x := by
  intro K
  induction K with
  | zero =>
    intro vis i fuel hfuel h0 hdist hev
    obtain ⟨f, rfl⟩ : ∃ f, fuel = f + 1 := ⟨fuel - 1, by omega⟩
    have h1 : vis i = 1 := by
      rcases hev with h | ⟨j, hj, -⟩
      · simpa using h
      · omega
    rw [findCycle, if_neg (by omega), if_pos h1]
    exact ⟨by simp, rfl, by simp, fun x _ => rfl⟩
  | succ K ih =>
    intro vis i fuel hfuel h0 hdist hev
    obtain ⟨f, rfl⟩ : ∃ f, fuel = f + 1 := ⟨fuel - 1, by omega⟩
    have hvi : vis i = 0 := by simpa using h0 0 (by omega)
    rw [findCycle, if_neg (by omega), if_neg (by omega)]
    have ih' := ih (Function.update vis i 1) (p i) f (by omega)
      (fun l hl => ?_) (fun l1 h1 l2 h2 hne => ?_) ?_
    rotate_left
    · rw [← Function.iterate_succ_apply]
      have hne : p^[l + 1] i ≠ i := by
        have h00 := hdist (l + 1) (by omega) 0 (by omega) (by omega)
        simpa using h00
      rw [Function.update_noteq hne]
      exact h0 (l + 1) (by omega)
    · rw [← Function.iterate_succ_apply, ← Function.iterate_succ_apply]
      exact hdist (l1 + 1) (by omega) (l2 + 1) (by omega) (by omega)
    · -- the event transfers to the shifted chain
      rw [← Function.iterate_succ_apply]
      rcases hev with h | ⟨j, hj, hrep⟩
      · left
        by_cases hc : p^[K + 1] i = i
        · rw [hc, Function.update_same]
        · rw [Function.update_noteq hc]; exact h
      · rcases Nat.eq_zero_or_pos j with rfl | hjpos
        · left
          simp only [Function.iterate_zero_apply] at hrep
          rw [hrep, Function.update_same]
        · right
          obtain ⟨j', rfl⟩ : ∃ j', j = j' + 1 := ⟨j - 1, by omega⟩
          exact ⟨j', by omega, by rw [Function.iterate_succ_apply] at hrep ⊢; exact hrep⟩
    obtain ⟨hstop', hflag, hmark, hkeep⟩ := ih'
    refine ⟨?_, hflag, ?_, ?_⟩
    · rw [hstop', ← Function.iterate_succ_apply]
    · intro l hl
      rcases Nat.eq_zero_or_pos l with rfl | hlpos
      · simp only [Function.iterate_zero_apply]
        rw [hkeep i fun l2 hl2 => ?_]
        · rw [Function.update_same]
        · rw [← Function.iterate_succ_apply]
          have := hdist (l2 + 1) (by omega) 0 (by omega) (by omega)
          simpa using this
      · obtain ⟨l', rfl⟩ : ∃ l', l = l' + 1 := ⟨l - 1, by omega⟩
        rw [Function.iterate_succ_apply]
        exact hmark l' (by omega)
    · intro x hx
      rw [hkeep x fun l hl => ?_, Function.update_noteq ?_]
      · have h1 := hx 0 (by omega)
        simp only [Function.iterate_zero_apply] at h1
        exact h1.symm
      · rw [← Function.iterate_succ_apply]
        exact hx (l + 1) (by omega)

theorem settleWalk_spec (p : Nat → Nat) :
    ∀ (K : Nat) (vis : Nat → Nat) (i fuel : Nat), K < fuel →
    (∀ l, l < K → vis (p^[l] i) ≠ 2) →
    (∀ l1, l1 < K → ∀ l2, l2 < K → l1 ≠ l2 → p^[l1] i ≠ p^[l2] i) →
    (vis (p^[K] i) = 2 ∨ ∃ j, j < K ∧ p^[K] i = p^[j] i) →
    (∀ l, l < K → settleWalk p fuel vis i (p^[l] i) = 2) ∧
    ∀ x, (∀ l, l < K → p^[l] i ≠ x) → settleWalk p fuel vis i x = vis x := by
  intro K
  induction K with
  | zero =>
    intro vis i fuel hfuel h0 hdist hev
    obtain ⟨f, rfl⟩ : ∃ f, fuel = f + 1 := ⟨fuel - 1, by omega⟩
    have h2 : vis i = 2 := by
      rcases hev with h | ⟨j, hj, -⟩
      · simpa using h
      · omega
    rw [settleWalk, if_pos h2]
    exact ⟨by simp, fun x _ => rfl⟩
  | succ K ih =>
    intro vis i fuel hfuel h0 hdist hev
    obtain ⟨f, rfl⟩ : ∃ f, fuel = f + 1 := ⟨fuel - 1, by omega⟩
    have hvi : vis i ≠ 2 := by simpa using h0 0 (by omega)
    rw [settleWalk, if_neg hvi]
    have ih' := ih (Function.update vis i 2) (p i) f (by omega)
      (fun l hl => ?_) (fun l1 h1 l2 h2 hne => ?_) ?_
    rotate_left
    · rw [← Function.iterate_succ_apply]
      have hne : p^[l + 1] i ≠ i := by
        have h00 := hdist (l + 1) (by omega) 0 (by omega) (by omega)
        simpa using h00
      rw [Function.update_noteq hne]
      exact h0 (l + 1) (by omega)
    · rw [← Function.iterate_succ_apply, ← Function.iterate_succ_apply]
      exact hdist (l1 + 1) (by omega) (l2 + 1) (by omega) (by omega)
    · rw [← Function.iterate_succ_apply]
      rcases hev with h | ⟨j, hj, hrep⟩
      · left
        have hc : p^[K + 1] i ≠ i := fun hc => hvi (by rw [← hc]; exact h)
        rw [Function.update_noteq hc]; exact h
      · rcases Nat.eq_zero_or_pos j with rfl | hjpos
        · left
          simp only [Function.iterate_zero_apply] at hrep
          rw [hrep, Function.update_same]
        · right
          obtain ⟨j', rfl⟩ : ∃ j', j = j' + 1 := ⟨j - 1, by omega⟩
          exact ⟨j', by omega, by rw [Function.iterate_succ_apply] at hrep ⊢; exact hrep⟩
    obtain ⟨hmark, hkeep⟩ := ih'
    refine ⟨?_, ?_⟩
    · intro l hl
      rcases Nat.eq_zero_or_pos l with rfl | hlpos
      · simp only [Function.iterate_zero_apply]
        rw [hkeep i fun l2 hl2 => ?_]
        · rw [Function.update_same]
        · rw [← Function.iterate_succ_apply]
          have := hdist (l2 + 1) (by omega) 0 (by omega) (by omega)
          simpa using this
      · obtain ⟨l', rfl⟩ : ∃ l', l = l' + 1 := ⟨l - 1, by omega⟩
        rw [Function.iterate_succ_apply]
        exact hmark l' (by omega)
    · intro x hx
      rw [hkeep x fun l hl => ?_, Function.update_noteq ?_]
      · have h1 := hx 0 (by omega)
        simp only [Function.iterate_zero_apply] at h1
        exact h1.symm
      · rw [← Function.iterate_succ_apply]
        exact hx (l + 1) (by omega)
theorem markCycle_succ_stop (p : Nat → Nat) (cid u f : Nat) (cyc : Nat → Option Nat)
    (v : Nat) (h : p v = u) :
    markCycle p cid u (f + 1) cyc v = Function.update cyc v (some cid) := by
  rw [markCycle]
  simp [h]

theorem markCycle_succ_go (p : Nat → Nat) (cid u f : Nat) (cyc : Nat → Option Nat)
    (v : Nat) (h : p v ≠ u) :
    markCycle p cid u (f + 1) cyc v =
      markCycle p cid u f (Function.update cyc v (some cid)) (p v) := by
  rw [markCycle]
  simp [h]

theorem markCycle_go (p : Nat → Nat) (cid u T : Nat) (hcyc : p^[T] u = u)
    (hdist : ∀ l1, l1 < T → ∀ l2, l2 < T → l1 ≠ l2 → p^[l1] u ≠ p^[l2] u) :
    ∀ (r : Nat) (cyc : Nat → Option Nat) (m fuel : Nat), 1 ≤ r → m + r = T → r ≤ fuel →
    (∀ l, m ≤ l → l < T → markCycle p cid u fuel cyc (p^[m] u) (p^[l] u) = some cid) ∧
    ∀ x, (∀ l, m ≤ l → l < T → p^[l] u ≠ x) →
      markCycle p cid u fuel cyc (p^[m] u) x = cyc x := by
  intro r
  induction r with
  | zero => intro cyc m fuel hr; omega
  | succ r ih =>
    intro cyc m fuel hr hmr hfuel
    obtain ⟨f, rfl⟩ : ∃ f, fuel = f + 1 := ⟨fuel - 1, by omega⟩
    rcases Nat.eq_zero_or_pos r with rfl | hrpos
    · have hm : m + 1 = T := by omega
      have hstep : p (p^[m] u) = u := by
        have h2 : p^[m + 1] u = u := by rw [hm, hcyc]
        rwa [Function.iterate_succ_apply'] at h2
      rw [markCycle_succ_stop p cid u f cyc _ hstep]
      constructor
      · intro l hml hlT
        have heq : l = m := by omega
        rw [heq, Function.update_same]
      · intro x hx
        rw [Function.update_noteq]
        exact (hx m (by omega) (by omega)).symm
    · have hm1T : m + 1 < T := by omega
      have hmT : m < T := by omega
      have hstep : p (p^[m] u) = p^[m + 1] u := (Function.iterate_succ_apply' p m u).symm
      have hne : p (p^[m] u) ≠ u := by
        rw [hstep]
        have := hdist (m + 1) hm1T 0 (by omega) (by omega)
        simpa using this
      rw [markCycle_succ_go p cid u f cyc _ hne, hstep]
      have ih' := ih (Function.update cyc (p^[m] u) (some cid)) (m + 1) f
        (by omega) (by omega) (by omega)
      obtain ⟨hmark, hkeep⟩ := ih'
      constructor
      · intro l hml hlT
        rcases Nat.eq_or_lt_of_le hml with heq | hlt
        · rw [← heq]
          rw [hkeep (p^[m] u) fun l2 h2 h2T => hdist l2 h2T m hmT (by omega)]
          rw [Function.update_same]
        · exact hmark l (by omega) hlT
      · intro x hx
        rw [hkeep x fun l hl hlT => hx l (by omega) hlT]
        rw [Function.update_noteq]
        exact (hx m (by omega) (by omega)).symm

theorem markCycle_spec (p : Nat → Nat) (cid u T fuel : Nat) (cyc : Nat → Option Nat)
    (hT : 0 < T) (hcyc : p^[T] u = u)
    (hdist : ∀ l1, l1 < T → ∀ l2, l2 < T → l1 ≠ l2 → p^[l1] u ≠ p^[l2] u)
    (hfuel : T ≤ fuel) :
    (∀ l, l < T → markCycle p cid u fuel cyc u (p^[l] u) = some cid) ∧
    ∀ x, (∀ l, l < T → p^[l] u ≠ x) → markCycle p cid u fuel cyc u x = cyc x := by
  have h := markCycle_go p cid u T hcyc hdist T cyc 0 fuel (by omega) (by omega) hfuel
  simpa using h

theorem markId_succ_stop (p : Nat → Nat) (num i f : Nat) (idf : Nat → Nat) :
    markId p num i (f + 1) idf i = idf := by
  rw [markId]
  simp

theorem markId_succ_go (p : Nat → Nat) (num i f : Nat) (idf : Nat → Nat)
    (current : Nat) (h : current ≠ i) :
    markId p num i (f + 1) idf current =
      markId p num i f (Function.update idf current num) (p current) := by
  rw [markId]
  simp [h]

theorem markId_go (p : Nat → Nat) (num i T : Nat) (hcyc : p^[T] i = i)
    (hdist : ∀ l1, l1 < T → ∀ l2, l2 < T → l1 ≠ l2 → p^[l1] i ≠ p^[l2] i) :
    ∀ (r : Nat) (idf : Nat → Nat) (m fuel : Nat), 1 ≤ m → m + r = T → r < fuel →
    (∀ l, m ≤ l → l < T → markId p num i fuel idf (p^[m] i) (p^[l] i) = num) ∧
    ∀ x, (∀ l, m ≤ l → l < T → p^[l] i ≠ x) →
      markId p num i fuel idf (p^[m] i) x = idf x := by
  intro r
  induction r with
  | zero =>
    intro idf m fuel hm hmr hfuel
    obtain ⟨f, rfl⟩ : ∃ f, fuel = f + 1 := ⟨fuel - 1, by omega⟩
    have hm' : m = T := by omega
    subst hm'
    rw [hcyc, markId_succ_stop]
    exact ⟨fun l h1 h2 => by omega, fun x _ => rfl⟩
  | succ r ih =>
    intro idf m fuel hm hmr hfuel
    obtain ⟨f, rfl⟩ : ∃ f, fuel = f + 1 := ⟨fuel - 1, by omega⟩
    have hmT : m < T := by omega
    have hne : p^[m] i ≠ i := by
      have := hdist m hmT 0 (by omega) (by omega)
      simpa using this
    rw [markId_succ_go p num i f idf _ hne]
    rw [show p (p^[m] i) = p^[m + 1] i from (Function.iterate_succ_apply' p m i).symm]
    have ih' := ih (Function.update idf (p^[m] i) num) (m + 1) f
      (by omega) (by omega) (by omega)
    obtain ⟨hmark, hkeep⟩ := ih'
    constructor
    · intro l hml hlT
      rcases Nat.eq_or_lt_of_le hml with heq | hlt
      · rw [← heq]
        rw [hkeep (p^[m] i) fun l2 h2 h2T => hdist l2 h2T m hmT (by omega)]
        rw [Function.update_same]
      · exact hmark l (by omega) hlT
    · intro x hx
      rw [hkeep x fun l hl hlT => hx l (by omega) hlT]
      rw [Function.update_noteq]
      exact (hx m (by omega) (by omega)).symm

theorem markId_spec (p : Nat → Nat) (num i T fuel : Nat) (idf : Nat → Nat)
    (hT : 0 < T) (hcyc : p^[T] i = i)
    (hdist : ∀ l1, l1 < T → ∀ l2, l2 < T → l1 ≠ l2 → p^[l1] i ≠ p^[l2] i)
    (hfuel : T ≤ fuel) :
    (∀ l, 1 ≤ l → l < T → markId p num i fuel idf (p i) (p^[l] i) = num) ∧
    ∀ x, (∀ l, 1 ≤ l → l < T → p^[l] i ≠ x) → markId p num i fuel idf (p i) x = idf x := by
  have h := markId_go p num i T hcyc hdist (T - 1) idf 1 fuel (by omega) (by omega)
    (by omega)
  simpa using h

/-! ## The first event on a chain, and the detection invariant -/

/-- The walk from `i` stops at step `k`: either the vertex there is already
visited, or it repeats an earlier vertex of this walk. -/
def WalkEvent (p : Nat → Nat) (vis : Nat → Nat) (i k : Nat) : Prop :=
  vis (p^[k] i) ≠ 0 ∨ ∃ j, j < k ∧ p^[k] i = p^[j] i

theorem exists_min_of_exists {P : Nat → Prop} (h : ∃ n, P n) :
    ∃ n, P n ∧ ∀ m, m < n → ¬ P m := by
  classical
  exact ⟨Nat.find h, Nat.find_spec h, fun m hm => Nat.find_min h hm⟩

theorem walkEvent_exists (p : Nat → Nat) (vis : Nat → Nat) (n root i : Nat)
    (hg : ∀ u, u < n → u ≠ root → p u < n)
    (hroot : vis root = 2) (hi : i < n) :
    ∃ k, k ≤ n ∧ WalkEvent p vis i k := by
  by_contra hc
  push_neg at hc
  have hzero : ∀ k, k ≤ n → vis (p^[k] i) = 0 := by
    intro k hk
    have := hc k hk
    rw [WalkEvent] at this
    push_neg at this
    exact this.1
  have hlt : ∀ k, k ≤ n → p^[k] i < n := by
    intro k
    induction k with
    | zero => intro _; simpa using hi
    | succ k ih =>
      intro hk
      rw [Function.iterate_succ_apply']
      refine hg _ (ih (by omega)) fun hc2 => ?_
      have := hzero k (by omega)
      rw [hc2, hroot] at this
      omega
  have hdist : ∀ k, k ≤ n → ∀ j, j < k → p^[k] i ≠ p^[j] i := by
    intro k hk j hjk
    have := hc k hk
    rw [WalkEvent] at this
    push_neg at this
    exact this.2 j hjk
  have hmaps : ∀ k ∈ Finset.range (n + 1), p^[k] i ∈ Finset.range n := by
    intro k hk
    rw [Finset.mem_range] at hk ⊢
    exact hlt k (by omega)
  obtain ⟨x, hx, y, hy, hxy, heq⟩ :=
    Finset.exists_ne_map_eq_of_card_lt_of_maps_to
      (by simp : (Finset.range n).card < (Finset.range (n + 1)).card) hmaps
  rw [Finset.mem_range] at hx hy
  rcases Nat.lt_or_ge x y with h | h
  · exact hdist y (by omega) x h heq.symm
  · have hyx : y < x := by omega
    exact hdist x (by omega) y hyx heq

theorem chain_first_event (p : Nat → Nat) (vis : Nat → Nat) (n root i : Nat)
    (hg : ∀ u, u < n → u ≠ root → p u < n)
    (hroot : vis root = 2) (hvis02 : ∀ v, vis v = 0 ∨ vis v = 2)
    (hi : i < n) (hvi : vis i = 0) :
    ∃ K, K ≤ n ∧ 0 < K ∧
      (∀ l, l < K → vis (p^[l] i) = 0) ∧
      (∀ l, l < K → p^[l] i < n) ∧
      (∀ l1, l1 < K → ∀ l2, l2 < K → l1 ≠ l2 → p^[l1] i ≠ p^[l2] i) ∧
      (vis (p^[K] i) = 2 ∨ vis (p^[K] i) = 0 ∧ ∃ j, j < K ∧ p^[K] i = p^[j] i) := by
  obtain ⟨k0, hk0n, hk0⟩ := walkEvent_exists p vis n root i hg hroot hi
  obtain ⟨K, hK, hKmin⟩ := exists_min_of_exists ⟨k0, hk0⟩
  have hKn : K ≤ n := by
    by_contra hc
    exact hKmin k0 (by omega) hk0
  have hpre : ∀ l, l < K → vis (p^[l] i) = 0 ∧ ∀ j, j < l → p^[l] i ≠ p^[j] i := by
    intro l hl
    have := hKmin l hl
    rw [WalkEvent] at this
    push_neg at this
    exact this
  have hKpos : 0 < K := by
    rcases Nat.eq_zero_or_pos K with rfl | h
    · rcases hK with h | ⟨j, hj, -⟩
      · simp only [Function.iterate_zero_apply] at h
        exact absurd hvi h
      · omega
    · exact h
  have hpreLt : ∀ l, l < K → p^[l] i < n := by
    intro l
    induction l with
    | zero => intro _; simpa using hi
    | succ l ih =>
      intro hl
      rw [Function.iterate_succ_apply']
      refine hg _ (ih (by omega)) fun hc2 => ?_
      have := (hpre l (by omega)).1
      rw [hc2, hroot] at this
      omega
  refine ⟨K, hKn, hKpos, fun l hl => (hpre l hl).1, hpreLt, ?_, ?_⟩
  · intro l1 h1 l2 h2 hne
    rcases Nat.lt_or_ge l1 l2 with h | h
    · exact ((hpre l2 h2).2 l1 h).symm
    · exact (hpre l1 h1).2 l2 (by omega)
  · rcases hK with h | ⟨j, hj, hrep⟩
    · rcases hvis02 (p^[K] i) with h0 | h2
      · exact absurd h0 h
      · exact Or.inl h2
    · rcases hvis02 (p^[K] i) with h0 | h2
      · exact Or.inr ⟨h0, j, hj, hrep⟩
      · exact Or.inl h2

/-- The invariant maintained over the states of the cycle-detection loop:
the root is settled, `visited` holds only 0/2 between iterations, the settled
set is closed under the parent map away from the root, and the `cycle` array
marks exactly the settled vertices lying on parent-cycles avoiding the root,
one distinct id per cycle. -/
structure DetectInv (p : Nat → Nat) (n root : Nat) (st : DetectState) : Prop where
  root2 : st.visited root = 2
  vis02 : ∀ v, st.visited v = 0 ∨ st.visited v = 2
  closed : ∀ v, v ≠ root → st.visited v = 2 → st.visited (p v) = 2
  cycLt : ∀ v, (st.cyc v).isSome → v < n
  cycSome : ∀ v c, st.cyc v = some c →
    OnCyc p root v ∧ st.visited v = 2 ∧ c < st.cycleCount
  cycAll : ∀ v, st.visited v = 2 → OnCyc p root v → (st.cyc v).isSome
  sameId : ∀ u v cu cv, st.cyc u = some cu → st.cyc v = some cv →
    (cu = cv ↔ ∃ m, p^[m] u = v)
  cntPos : ∀ c, c < st.cycleCount → ∃ v, st.cyc v = some c

theorem settled_iterate {p : Nat → Nat} {n root : Nat} {st : DetectState}
    (inv : DetectInv p n root st) {v : Nat}
    (h2 : st.visited v = 2) (hcyc : OnCyc p root v) (m : Nat) :
    st.visited (p^[m] v) = 2 := by
  induction m with
  | zero => simpa using h2
  | succ m ih =>
    rw [Function.iterate_succ_apply']
    exact inv.closed _ (hcyc.avoid_all m) ih

theorem detectStep_skip (p : Nat → Nat) (fuel : Nat) (st : DetectState) (i : Nat)
    (h0 : st.visited i ≠ 0) : detectStep p fuel st i = st := by
  rw [detectStep, if_neg h0]

theorem detectStep_noCycle (p : Nat → Nat) (fuel : Nat) (st : DetectState) (i : Nat)
    (h0 : st.visited i = 0)
    (hflag : (findCycle p fuel st.visited i).2.2 = false) :
    detectStep p fuel st i =
      { visited := settleWalk p fuel (findCycle p fuel st.visited i).1 i,
        cyc := st.cyc, cycleCount := st.cycleCount } := by
  rw [detectStep, if_pos h0]
  simp only [hflag, Bool.false_eq_true, if_false]

theorem detectStep_cycle (p : Nat → Nat) (fuel : Nat) (st : DetectState) (i : Nat)
    (h0 : st.visited i = 0)
    (hflag : (findCycle p fuel st.visited i).2.2 = true) :
    detectStep p fuel st i =
      { visited := settleWalk p fuel (findCycle p fuel st.visited i).1 i,
        cyc := markCycle p st.cycleCount (findCycle p fuel st.visited i).2.1 fuel
          st.cyc (findCycle p fuel st.visited i).2.1,
        cycleCount := st.cycleCount + 1 } := by
  rw [detectStep, if_pos h0]
  simp only [hflag, if_true]

theorem detectStep_inv (p : Nat → Nat) (n root : Nat)
    (hg : ∀ u, u < n → u ≠ root → p u < n)
    (st : DetectState) (i : Nat) (hinv : DetectInv p n root st) (hi : i < n) :
    DetectInv p n root (detectStep p (n + 1) st i) ∧
    (detectStep p (n + 1) st i).visited i = 2 ∧
    (∀ v, st.visited v = 2 → (detectStep p (n + 1) st i).visited v = 2) ∧
    st.cycleCount ≤ (detectStep p (n + 1) st i).cycleCount ∧
    (∀ v c, st.cyc v = some c → (detectStep p (n + 1) st i).cyc v = some c) := by
  by_cases h0 : st.visited i = 0
  case neg =>
    rw [detectStep_skip p (n + 1) st i h0]
    have hi2 : st.visited i = 2 := by
      rcases hinv.vis02 i with h | h
      · exact absurd h h0
      · exact h
    exact ⟨hinv, hi2, fun v h => h, le_rfl, fun v c h => h⟩
  case pos =>
    obtain ⟨K, hKn, hKpos, hpre0, hpreLt, hdist, hev⟩ :=
      chain_first_event p st.visited n root i hg hinv.root2 hinv.vis02 hi h0
    have hprefix_ne : ∀ x, st.visited x = 2 → ∀ l, l < K → p^[l] i ≠ x := by
      intro x hx l hl heq
      have h1 := hpre0 l hl
      rw [heq, hx] at h1
      omega
    rcases hev with hev2 | ⟨hev0, j, hj, hrep⟩
    · -- settled stop: no new cycle
      obtain ⟨hstop, hflag, hmark1, hkeep1⟩ :=
        findCycle_spec_settled p K st.visited i (n + 1) (by omega) hpre0 hdist hev2
      rw [detectStep_noCycle p (n + 1) st i h0 hflag]
      set vis1 := (findCycle p (n + 1) st.visited i).1 with hvis1
      obtain ⟨hs2, hskeep⟩ := settleWalk_spec p K vis1 i (n + 1) (by omega)
        (fun l hl => by rw [hmark1 l hl]; omega) hdist
        (Or.inl (by rw [hkeep1 _ (hprefix_ne _ hev2)]; exact hev2))
      have hvis2_of : ∀ x, (∀ l, l < K → p^[l] i ≠ x) →
          settleWalk p (n + 1) vis1 i x = st.visited x := by
        intro x hx
        rw [hskeep x hx, hkeep1 x hx]
      have hmono : ∀ x, st.visited x = 2 → settleWalk p (n + 1) vis1 i x = 2 := by
        intro x hx
        rw [hvis2_of x (hprefix_ne x hx), hx]
      have hnew2 : ∀ x, settleWalk p (n + 1) vis1 i x = 2 →
          st.visited x = 2 ∨ ∃ l, l < K ∧ p^[l] i = x := by
        intro x hx
        by_cases hmem : ∃ l, l < K ∧ p^[l] i = x
        · exact Or.inr hmem
        · push_neg at hmem
          left
          rw [← hvis2_of x fun l hl => hmem l hl, hx]
      have hnot : ∀ l, l < K → ¬ OnCyc p root (p^[l] i) := by
        intro l hl hcyc
        have hK1 : p^[K - l] (p^[l] i) = p^[K] i := by
          rw [← Function.iterate_add_apply]
          congr 1
          omega
        have hcycK : OnCyc p root (p^[K] i) := by
          rw [← hK1]
          exact hcyc.iterate _
        obtain ⟨m', hm'⟩ := hcyc.symm_reach hK1
        have hA := settled_iterate hinv hev2 hcycK m'
        rw [hm'] at hA
        have hB := hpre0 l hl
        omega
      refine ⟨⟨?_, ?_, ?_, hinv.cycLt, ?_, ?_, hinv.sameId, hinv.cntPos⟩,
        ?_, hmono, le_rfl, fun v c h => h⟩
      · exact hmono root hinv.root2
      · intro v
        dsimp only
        by_cases hmem : ∃ l, l < K ∧ p^[l] i = v
        · obtain ⟨l, hl, heq⟩ := hmem
          right
          rw [← heq]
          exact hs2 l hl
        · push_neg at hmem
          rw [hvis2_of v fun l hl => hmem l hl]
          exact hinv.vis02 v
      · intro v hvroot hv2
        dsimp only at hv2 ⊢
        rcases hnew2 v hv2 with hold | ⟨l, hl, heq⟩
        · exact hmono _ (hinv.closed v hvroot hold)
        · rw [← heq, show p (p^[l] i) = p^[l + 1] i from
            (Function.iterate_succ_apply' p l i).symm]
          rcases Nat.lt_or_ge (l + 1) K with hK' | hK'
          · exact hs2 (l + 1) hK'
          · have hle1 : l + 1 = K := by omega
            rw [hle1]
            exact hmono _ hev2
      · intro v c hc
        obtain ⟨ha, hb, hcnt⟩ := hinv.cycSome v c hc
        exact ⟨ha, hmono v hb, hcnt⟩
      · intro v hv2 hcyc
        rcases hnew2 v hv2 with hold | ⟨l, hl, heq⟩
        · exact hinv.cycAll v hold hcyc
        · rw [← heq] at hcyc
          exact absurd hcyc (hnot l hl)
      · have := hs2 0 hKpos
        simpa using this
    · -- a new cycle was found through u = p^[K] i = p^[j] i
      obtain ⟨hstop, hflag, hmark1, hkeep1⟩ :=
        findCycle_spec_cycle p K st.visited i (n + 1) (by omega) hpre0 hdist
          (Or.inr ⟨j, hj, hrep⟩)
      rw [detectStep_cycle p (n + 1) st i h0 hflag]
      rw [hstop, hrep]
      set vis1 := (findCycle p (n + 1) st.visited i).1 with hvis1
      set u := p^[j] i with hu
      set T := K - j with hT'
      have hT : 0 < T := by omega
      have hper : p^[T] u = u := by
        rw [hu, ← Function.iterate_add_apply]
        have he : T + j = K := by omega
        rw [he, hrep]
      have horbdist : ∀ t1, t1 < T → ∀ t2, t2 < T → t1 ≠ t2 → p^[t1] u ≠ p^[t2] u := by
        intro t1 h1 t2 h2 hne
        rw [hu, ← Function.iterate_add_apply, ← Function.iterate_add_apply]
        exact hdist (t1 + j) (by omega) (t2 + j) (by omega) (by omega)
      have horbcyc : OnCyc p root u := by
        refine ⟨T, hT, hper, fun t ht => ?_⟩
        rw [hu, ← Function.iterate_add_apply]
        intro hc
        have h1 := hpre0 (t + j) (by omega)
        rw [hc, hinv.root2] at h1
        omega
      obtain ⟨hcmark, hckeep⟩ :=
        markCycle_spec p st.cycleCount u T (n + 1) st.cyc hT hper horbdist (by omega)
      have horbpre : ∀ t, t < T → ∃ l, l < K ∧ p^[l] i = p^[t] u := by
        intro t ht
        exact ⟨t + j, by omega, by rw [hu, ← Function.iterate_add_apply]⟩
      have horb0 : ∀ t, t < T → st.visited (p^[t] u) = 0 := by
        intro t ht
        obtain ⟨l, hl, heq⟩ := horbpre t ht
        rw [← heq]
        exact hpre0 l hl
      have hmarked_not_orb : ∀ x, (st.cyc x).isSome → ∀ t, t < T → p^[t] u ≠ x := by
        intro x hx t ht heq
        obtain ⟨c, hc⟩ := Option.isSome_iff_exists.1 hx
        have hs := (hinv.cycSome x c hc).2.1
        have h1 := horb0 t ht
        rw [heq, hs] at h1
        omega
      have hcyc'_cases : ∀ x c,
          markCycle p st.cycleCount u (n + 1) st.cyc u x = some c →
          (st.cyc x = some c ∧ ∀ t, t < T → p^[t] u ≠ x) ∨
            (c = st.cycleCount ∧ ∃ t, t < T ∧ p^[t] u = x) := by
        intro x c hx
        by_cases hmem : ∃ t, t < T ∧ p^[t] u = x
        · right
          obtain ⟨t, ht, heq⟩ := hmem
          rw [← heq, hcmark t ht] at hx
          exact ⟨(Option.some_inj.1 hx).symm, t, ht, heq⟩
        · push_neg at hmem
          left
          exact ⟨by rw [← hckeep x hmem]; exact hx, hmem⟩
      have horb_closed : ∀ t m, t < T → ∃ t', t' < T ∧ p^[t'] u = p^[m] (p^[t] u) := by
        intro t m ht
        refine ⟨(m + t) % T, Nat.mod_lt _ hT, ?_⟩
        rw [← iterate_mod_period hper (m + t), Function.iterate_add_apply]
      have horb_mutual : ∀ t1 t2, t1 < T → t2 < T →
          ∃ m, p^[m] (p^[t1] u) = p^[t2] u := by
        intro t1 t2 h1 h2
        obtain ⟨m', hm'⟩ := horbcyc.symm_reach (rfl : p^[t1] u = p^[t1] u)
        exact ⟨t2 + m', by rw [Function.iterate_add_apply, hm']⟩
      obtain ⟨hs2, hskeep⟩ := settleWalk_spec p K vis1 i (n + 1) (by omega)
        (fun l hl => by rw [hmark1 l hl]; omega) hdist (Or.inr ⟨j, hj, hrep⟩)
      have hvis2_of : ∀ x, (∀ l, l < K → p^[l] i ≠ x) →
          settleWalk p (n + 1) vis1 i x = st.visited x := by
        intro x hx
        rw [hskeep x hx, hkeep1 x hx]
      have hmono : ∀ x, st.visited x = 2 → settleWalk p (n + 1) vis1 i x = 2 := by
        intro x hx
        rw [hvis2_of x (hprefix_ne x hx), hx]
      have hnew2 : ∀ x, settleWalk p (n + 1) vis1 i x = 2 →
          st.visited x = 2 ∨ ∃ l, l < K ∧ p^[l] i = x := by
        intro x hx
        by_cases hmem : ∃ l, l < K ∧ p^[l] i = x
        · exact Or.inr hmem
        · push_neg at hmem
          left
          rw [← hvis2_of x fun l hl => hmem l hl, hx]
      have hpre_cyc_orb : ∀ l, l < K → OnCyc p root (p^[l] i) →
          ∃ t, t < T ∧ p^[t] u = p^[l] i := by
        intro l hl hcyc
        have hK1 : p^[K - l] (p^[l] i) = p^[K] i := by
          rw [← Function.iterate_add_apply]
          congr 1
          omega
        obtain ⟨m', hm'⟩ := hcyc.symm_reach hK1
        rw [hrep] at hm'
        obtain ⟨t, ht, heq⟩ := horb_closed 0 m' hT
        refine ⟨t, ht, ?_⟩
        rw [heq]
        simp only [Function.iterate_zero_apply]
        exact hm'
      have hkeep_marked : ∀ v c, st.cyc v = some c →
          markCycle p st.cycleCount u (n + 1) st.cyc u v = some c := by
        intro v c hc
        rw [hckeep v (hmarked_not_orb v (by rw [hc]; rfl))]
        exact hc
      refine ⟨⟨?_, ?_, ?_, ?_, ?_, ?_, ?_, ?_⟩, ?_, hmono, by dsimp only; omega,
        hkeep_marked⟩
      · exact hmono root hinv.root2
      · intro v
        dsimp only
        by_cases hmem : ∃ l, l < K ∧ p^[l] i = v
        · obtain ⟨l, hl, heq⟩ := hmem
          right
          rw [← heq]
          exact hs2 l hl
        · push_neg at hmem
          rw [hvis2_of v fun l hl => hmem l hl]
          exact hinv.vis02 v
      · intro v hvroot hv2
        dsimp only at hv2 ⊢
        rcases hnew2 v hv2 with hold | ⟨l, hl, heq⟩
        · exact hmono _ (hinv.closed v hvroot hold)
        · rw [← heq, show p (p^[l] i) = p^[l + 1] i from
            (Function.iterate_succ_apply' p l i).symm]
          rcases Nat.lt_or_ge (l + 1) K with hK' | hK'
          · exact hs2 (l + 1) hK'
          · have hle : l + 1 = K := by omega
            rw [hle, hrep]
            exact hs2 j hj
      · intro v hv
        obtain ⟨c, hc⟩ := Option.isSome_iff_exists.1 hv
        rcases hcyc'_cases v c hc with ⟨hold, -⟩ | ⟨-, t, ht, heq⟩
        · exact hinv.cycLt v (by rw [hold]; rfl)
        · obtain ⟨l, hl, heql⟩ := horbpre t ht
          rw [← heq, ← heql]
          exact hpreLt l hl
      · intro v c hc
        dsimp only at hc ⊢
        rcases hcyc'_cases v c hc with ⟨hold, -⟩ | ⟨hcnt, t, ht, heq⟩
        · obtain ⟨ha, hb, hcnt⟩ := hinv.cycSome v c hold
          exact ⟨ha, hmono v hb, by omega⟩
        · refine ⟨?_, ?_, by omega⟩
          · rw [← heq]
            exact horbcyc.iterate t
          · obtain ⟨l, hl, heql⟩ := horbpre t ht
            rw [← heq, ← heql]
            exact hs2 l hl
      · intro v hv2 hcyc
        dsimp only at hv2 ⊢
        rcases hnew2 v hv2 with hold | ⟨l, hl, heq⟩
        · have hsome := hinv.cycAll v hold hcyc
          obtain ⟨c, hc⟩ := Option.isSome_iff_exists.1 hsome
          rw [hkeep_marked v c hc]
          rfl
        · rw [← heq] at hcyc
          obtain ⟨t, ht, hteq⟩ := hpre_cyc_orb l hl hcyc
          rw [← heq, ← hteq, hcmark t ht]
          rfl
      · intro a b ca cb hca hcb
        rcases hcyc'_cases a ca hca with ⟨ha_old, ha_not⟩ | ⟨hca_cnt, ta, hta, haeq⟩ <;>
          rcases hcyc'_cases b cb hcb with ⟨hb_old, hb_not⟩ | ⟨hcb_cnt, tb, htb, hbeq⟩
        · exact hinv.sameId a b ca cb ha_old hb_old
        · -- a previously marked, b on the new cycle
          have hca_lt : ca < st.cycleCount := (hinv.cycSome a ca ha_old).2.2
          refine iff_of_false (by omega) ?_
          rintro ⟨m, hm⟩
          have ha_cyc : OnCyc p root a := (hinv.cycSome a ca ha_old).1
          have ha_2 : st.visited a = 2 := (hinv.cycSome a ca ha_old).2.1
          have := settled_iterate hinv ha_2 ha_cyc m
          rw [hm, ← hbeq] at this
          have h1 := horb0 tb htb
          omega
        · -- a on the new cycle, b previously marked
          have hcb_lt : cb < st.cycleCount := (hinv.cycSome b cb hb_old).2.2
          refine iff_of_false (by omega) ?_
          rintro ⟨m, hm⟩
          rw [← haeq] at hm
          obtain ⟨t', ht', heq'⟩ := horb_closed ta m hta
          rw [hm] at heq'
          exact hb_not t' ht' heq'
        · -- both on the new cycle
          refine iff_of_true (by omega) ?_
          rw [← haeq, ← hbeq]
          exact horb_mutual ta tb hta htb
      · intro c hc
        dsimp only at hc
        rcases Nat.lt_or_ge c st.cycleCount with h | h
        · obtain ⟨v, hv⟩ := hinv.cntPos c h
          exact ⟨v, hkeep_marked v c hv⟩
        · have hcc : c = st.cycleCount := by omega
          refine ⟨u, ?_⟩
          dsimp only
          have := hcmark 0 hT
          simp only [Function.iterate_zero_apply] at this
          rw [this, hcc]
      · have := hs2 0 hKpos
        simpa using this

theorem detectInit_inv (p : Nat → Nat) (n root : Nat) :
    DetectInv p n root
      { visited := Function.update (fun _ => 0) root 2, cyc := fun _ => none,
        cycleCount := 0 } := by
  refine ⟨?_, ?_, ?_, ?_, ?_, ?_, ?_, ?_⟩
  · exact Function.update_same root 2 fun _ => 0
  · intro v
    dsimp only
    rw [Function.update_apply]
    split
    · right; rfl
    · left; rfl
  · intro v hv h2
    dsimp only at h2 ⊢
    rw [Function.update_noteq hv] at h2
    cases h2
  · intro v hv
    simp at hv
  · intro v c hc
    cases hc
  · intro v h2 hcyc
    dsimp only at h2
    rw [Function.update_apply] at h2
    split at h2
    · rename_i heq
      exact absurd heq (hcyc.ne_root)
    · cases h2
  · intro u v cu cv hcu
    cases hcu
  · intro c hc
    dsimp only at hc
    omega

theorem foldl_detect (p : Nat → Nat) (n root : Nat)
    (hg : ∀ u, u < n → u ≠ root → p u < n) (l : List Nat)
    (hl : ∀ x ∈ l, x < n) :
    ∀ st : DetectState, DetectInv p n root st →
    DetectInv p n root (l.foldl (detectStep p (n + 1)) st) ∧
    (∀ v, st.visited v = 2 → (l.foldl (detectStep p (n + 1)) st).visited v = 2) ∧
    (∀ x ∈ l, (l.foldl (detectStep p (n + 1)) st).visited x = 2) ∧
    st.cycleCount ≤ (l.foldl (detectStep p (n + 1)) st).cycleCount ∧
    (∀ v c, st.cyc v = some c → (l.foldl (detectStep p (n + 1)) st).cyc v = some c) := by
  induction l with
  | nil =>
    intro st hst
    exact ⟨hst, fun v h => h, by simp, le_rfl, fun v c h => h⟩
  | cons a t ih =>
    intro st hst
    have ha : a < n := hl a (List.mem_cons_self a t)
    obtain ⟨hinv1, hset1, hmono1, hcnt1, hcyc1⟩ :=
      detectStep_inv p n root hg st a hst ha
    obtain ⟨hinv2, hmono2, hall2, hcnt2, hcyc2⟩ :=
      ih (fun x hx => hl x (List.mem_cons_of_mem a hx)) (detectStep p (n + 1) st a) hinv1
    rw [List.foldl_cons]
    refine ⟨hinv2, ?_, ?_, ?_, ?_⟩
    · intro v hv
      exact hmono2 v (hmono1 v hv)
    · intro x hx
      rcases List.mem_cons.1 hx with rfl | hx'
      · exact hmono2 x hset1
      · exact hall2 x hx'
    · omega
    · intro v c hc
      exact hcyc2 v c (hcyc1 v c hc)

theorem runDetect_inv (p : Nat → Nat) (n root : Nat)
    (hg : ∀ u, u < n → u ≠ root → p u < n) :
    DetectInv p n root (runDetect p n root) ∧
    ∀ v, v < n → (runDetect p n root).visited v = 2 := by
  have h := foldl_detect p n root hg (List.range n) (by simp) _
    (detectInit_inv p n root)
  rw [runDetect]
  exact ⟨h.1, fun v hv => h.2.2.1 v (List.mem_range.2 hv)⟩

theorem runDetect_cnt_zero_iff (p : Nat → Nat) (n root : Nat)
    (hg : ∀ u, u < n → u ≠ root → p u < n) :
    (runDetect p n root).cycleCount = 0 ↔ ∀ v, v < n → ¬ OnCyc p root v := by
  obtain ⟨hinv, hall⟩ := runDetect_inv p n root hg
  constructor
  · intro h0 v hv hcyc
    have hsome := hinv.cycAll v (hall v hv) hcyc
    obtain ⟨c, hc⟩ := Option.isSome_iff_exists.1 hsome
    have := (hinv.cycSome v c hc).2.2
    omega
  · intro h
    by_contra hne
    obtain ⟨v, hv⟩ := hinv.cntPos 0 (by omega)
    have hlt := hinv.cycLt v (by rw [hv]; rfl)
    exact h v hlt (hinv.cycSome v 0 hv).1

theorem runDetect_cyc_iff (p : Nat → Nat) (n root : Nat)
    (hg : ∀ u, u < n → u ≠ root → p u < n) (v : Nat) :
    ((runDetect p n root).cyc v).isSome ↔ v < n ∧ OnCyc p root v := by
  obtain ⟨hinv, hall⟩ := runDetect_inv p n root hg
  constructor
  · intro h
    obtain ⟨c, hc⟩ := Option.isSome_iff_exists.1 h
    exact ⟨hinv.cycLt v h, (hinv.cycSome v c hc).1⟩
  · rintro ⟨hv, hcyc⟩
    exact hinv.cycAll v (hall v hv) hcyc

theorem chain_dichotomy (p : Nat → Nat) (n root v : Nat)
    (hg : ∀ u, u < n → u ≠ root → p u < n) (hv : v < n) :
    (∃ k, p^[k] v = root) ∨ ∃ m, OnCyc p root (p^[m] v) ∧ p^[m] v < n := by
  by_cases hr : ∃ k, k ≤ n ∧ p^[k] v = root
  · obtain ⟨k, -, hk⟩ := hr
    exact Or.inl ⟨k, hk⟩
  · push_neg at hr
    have hlt : ∀ k, k ≤ n → p^[k] v < n := by
      intro k
      induction k with
      | zero => intro _; simpa using hv
      | succ k ih =>
        intro hk
        rw [Function.iterate_succ_apply']
        exact hg _ (ih (by omega)) (hr k (by omega))
    by_cases hrep : ∃ k, k ≤ n ∧ ∃ j, j < k ∧ p^[k] v = p^[j] v
    · obtain ⟨k, hkn, j, hjk, hkj⟩ := hrep
      refine Or.inr ⟨j, ⟨k - j, by omega, ?_, fun t ht => ?_⟩, hlt j (by omega)⟩
      · rw [← Function.iterate_add_apply]
        have he : k - j + j = k := by omega
        rw [he, hkj]
      · rw [← Function.iterate_add_apply]
        exact hr (t + j) (by omega)
    · push_neg at hrep
      exfalso
      have hmaps : ∀ k ∈ Finset.range (n + 1), p^[k] v ∈ Finset.range n := by
        intro k hk
        rw [Finset.mem_range] at hk ⊢
        exact hlt k (by omega)
      obtain ⟨x, hx, y, hy, hxy, heq⟩ :=
        Finset.exists_ne_map_eq_of_card_lt_of_maps_to
          (by simp : (Finset.range n).card < (Finset.range (n + 1)).card) hmaps
      rw [Finset.mem_range] at hx hy
      rcases Nat.lt_or_ge x y with h | h
      · exact hrep y (by omega) x h heq.symm
      · exact hrep x (by omega) y (by omega) heq

/-! ## Characterization of the relabeling loop -/

theorem OnCyc.minimal {p : Nat → Nat} {root v : Nat} (h : OnCyc p root v) :
    ∃ T, 0 < T ∧ p^[T] v = v ∧ (∀ t, t < T → p^[t] v ≠ root) ∧
      ∀ t1, t1 < T → ∀ t2, t2 < T → t1 ≠ t2 → p^[t1] v ≠ p^[t2] v := by
  obtain ⟨k, hk, hper, havoid⟩ := h
  obtain ⟨T, ⟨hT0, hTper⟩, hTmin⟩ :=
    exists_min_of_exists (⟨k, hk, hper⟩ : ∃ t, 0 < t ∧ p^[t] v = v)
  have hTk : T ≤ k := by
    by_contra hc
    exact hTmin k (by omega) ⟨hk, hper⟩
  refine ⟨T, hT0, hTper, fun t ht => havoid t (by omega), ?_⟩
  intro t1 h1 t2 h2 hne heq
  -- a repeat inside the minimal period gives a shorter period
  rcases Nat.lt_or_ge t1 t2 with hlt | hge
  · have hshort : p^[T - (t2 - t1)] v = v := by
      have h3 : p^[T - t2] (p^[t2] v) = v := by
        rw [← Function.iterate_add_apply]
        have he : T - t2 + t2 = T := by omega
        rw [he, hTper]
      rw [← heq, ← Function.iterate_add_apply] at h3
      have he : T - t2 + t1 = T - (t2 - t1) := by omega
      rw [he] at h3
      exact h3
    exact hTmin (T - (t2 - t1)) (by omega) ⟨by omega, hshort⟩
  · have hlt2 : t2 < t1 := by omega
    have hshort : p^[T - (t1 - t2)] v = v := by
      have h3 : p^[T - t1] (p^[t1] v) = v := by
        rw [← Function.iterate_add_apply]
        have he : T - t1 + t1 = T := by omega
        rw [he, hTper]
      rw [heq, ← Function.iterate_add_apply] at h3
      have he : T - t1 + t2 = T - (t1 - t2) := by omega
      rw [he] at h3
      exact h3
    exact hTmin (T - (t1 - t2)) (by omega) ⟨by omega, hshort⟩

theorem markOrbit (p : Nat → Nat) (num i T f : Nat) (idf : Nat → Nat)
    (hT : 0 < T) (hper : p^[T] i = i)
    (hdist : ∀ t1, t1 < T → ∀ t2, t2 < T → t1 ≠ t2 → p^[t1] i ≠ p^[t2] i)
    (hf : T ≤ f) :
    (∀ t, t < T →
      markId p num i f (Function.update idf i num) (p i) (p^[t] i) = num) ∧
    ∀ x, (∀ t, t < T → p^[t] i ≠ x) →
      markId p num i f (Function.update idf i num) (p i) x = idf x := by
  obtain ⟨hmark, hkeep⟩ :=
    markId_spec p num i T f (Function.update idf i num) hT hper hdist hf
  constructor
  · intro t ht
    rcases Nat.eq_zero_or_pos t with rfl | htpos
    · simp only [Function.iterate_zero_apply]
      rw [hkeep i fun l hl hlT => by
        have := hdist l hlT 0 (by omega) (by omega)
        simpa using this]
      rw [Function.update_same]
    · exact hmark t htpos ht
  · intro x hx
    rw [hkeep x fun l hl hlT => hx l hlT, Function.update_noteq]
    have := hx 0 hT
    simp only [Function.iterate_zero_apply] at this
    exact fun hc => this hc.symm

theorem buildIdStep_none (p : Nat → Nat) (f : Nat) (cyc : Nat → Option Nat)
    (st : (Nat → Nat) × Nat) (i : Nat) (h : cyc i = none) :
    buildIdStep p f cyc st i = (Function.update st.1 i (st.2 + 1), st.2 + 1) := by
  rw [buildIdStep, h]

theorem buildIdStep_skip (p : Nat → Nat) (f : Nat) (cyc : Nat → Option Nat)
    (st : (Nat → Nat) × Nat) (i c : Nat) (h : cyc i = some c) (h0 : st.1 i ≠ 0) :
    buildIdStep p f cyc st i = st := by
  rw [buildIdStep, h]
  simp only [if_neg h0]

theorem buildIdStep_new (p : Nat → Nat) (f : Nat) (cyc : Nat → Option Nat)
    (st : (Nat → Nat) × Nat) (i c : Nat) (h : cyc i = some c) (h0 : st.1 i = 0) :
    buildIdStep p f cyc st i =
      (markId p (st.2 + 1) i f (Function.update st.1 i (st.2 + 1)) (p i), st.2 + 1) := by
  rw [buildIdStep, h]
  simp [h0]

/-- The vertices already relabeled after the loop has handled start indices
`< i`: non-cycle vertices below `i`, and every member of a cycle that has a
member below `i`. -/
def Covered (p : Nat → Nat) (cyc : Nat → Option Nat) (i v : Nat) : Prop :=
  (cyc v = none ∧ v < i) ∨
    ((cyc v).isSome ∧ ∃ u, u < i ∧ (cyc u).isSome ∧ ∃ m, p^[m] u = v)

/-- The invariant of the relabeling loop. -/
structure BuildInv (p : Nat → Nat) (cyc : Nat → Option Nat) (i : Nat)
    (st : (Nat → Nat) × Nat) : Prop where
  assigned_iff : ∀ v, st.1 v ≠ 0 ↔ Covered p cyc i v
  ids_iff : ∀ u v, st.1 u ≠ 0 → st.1 v ≠ 0 →
    (st.1 u = st.1 v ↔ (u = v ∨ ((cyc u).isSome ∧ ∃ m, p^[m] u = v)))
  bounds : ∀ v, st.1 v ≠ 0 → st.1 v ≤ st.2
  surj : ∀ m, 1 ≤ m → m ≤ st.2 → ∃ v, st.1 v = m

theorem buildId_loop (p : Nat → Nat) (root n : Nat) (cyc : Nat → Option Nat)
    (Hlt : ∀ v, (cyc v).isSome → v < n)
    (Hcyc : ∀ v, (cyc v).isSome → OnCyc p root v)
    (Horb : ∀ u m, (cyc u).isSome → (cyc (p^[m] u)).isSome) :
    ∀ i, i ≤ n →
      BuildInv p cyc i ((List.range i).foldl (buildIdStep p (n + 1) cyc) (fun _ => 0, 0)) := by
  intro i
  induction i with
  | zero =>
    intro _
    rw [List.range_zero, List.foldl_nil]
    refine ⟨?_, ?_, ?_, ?_⟩
    · intro v
      simp [Covered]
    · intro u v hu
      simp at hu
    · intro v hv
      simp at hv
    · intro m h1 h2
      simp only [] at h2
      omega
  | succ i ih =>
    intro hi
    have inv := ih (by omega)
    rw [List.range_succ, List.foldl_append, List.foldl_cons, List.foldl_nil]
    set st := (List.range i).foldl (buildIdStep p (n + 1) cyc) (fun _ => 0, 0) with hst
    cases hci : cyc i with
    | none =>
      rw [buildIdStep_none p (n + 1) cyc st i hci]
      have hi0 : st.1 i = 0 := by
        by_contra hc
        rcases (inv.assigned_iff i).1 hc with ⟨hn, hlt⟩ | ⟨hsome, -⟩
        · omega
        · rw [hci] at hsome
          cases hsome
      refine ⟨?_, ?_, ?_, ?_⟩
      · intro v
        dsimp only
        rw [Function.update_apply]
        split
        · rename_i heq
          subst heq
          constructor
          · intro _
            exact Or.inl ⟨hci, by omega⟩
          · intro _
            omega
        · rename_i hne
          rw [inv.assigned_iff v]
          constructor
          · rintro (⟨ha, hb⟩ | ⟨ha, u, hu, hb, m, hm⟩)
            · exact Or.inl ⟨ha, by omega⟩
            · exact Or.inr ⟨ha, u, by omega, hb, m, hm⟩
          · rintro (⟨ha, hb⟩ | ⟨ha, u, hu, hb, m, hm⟩)
            · exact Or.inl ⟨ha, by omega⟩
            · refine Or.inr ⟨ha, u, ?_, hb, m, hm⟩
              rcases Nat.lt_or_ge u i with h | h
              · exact h
              · have : u = i := by omega
                subst this
                rw [hci] at hb
                cases hb
      · intro u v hu hv
        dsimp only at hu hv ⊢
        simp only [Function.update_apply] at hu hv ⊢
        by_cases hui : u = i <;> by_cases hvi : v = i
        · subst hui
          subst hvi
          simp
        · subst hui
          rw [if_pos rfl] at hu ⊢
          rw [if_neg hvi] at hv ⊢
          refine iff_of_false ?_ ?_
          · have := inv.bounds v hv
            omega
          · rintro (heq | ⟨hsome, -⟩)
            · exact hvi heq.symm
            · rw [hci] at hsome
              cases hsome
        · subst hvi
          rw [if_neg hui] at hu ⊢
          rw [if_pos rfl] at hv ⊢
          refine iff_of_false ?_ ?_
          · have := inv.bounds u hu
            omega
          · rintro (heq | ⟨hsome, m, hm⟩)
            · exact hui heq
            · have := Horb u m hsome
              rw [hm, hci] at this
              cases this
        · rw [if_neg hui] at hu ⊢
          rw [if_neg hvi] at hv ⊢
          exact inv.ids_iff u v hu hv
      · intro v hv
        dsimp only at hv ⊢
        simp only [Function.update_apply] at hv ⊢
        by_cases hvi : v = i
        · rw [if_pos hvi]
        · rw [if_neg hvi] at hv ⊢
          have := inv.bounds v hv
          omega
      · intro m h1 h2
        dsimp only at h2 ⊢
        rcases Nat.eq_or_lt_of_le h2 with heq | hlt
        · exact ⟨i, by rw [Function.update_same, heq]⟩
        · obtain ⟨v, hv⟩ := inv.surj m h1 (by omega)
          refine ⟨v, ?_⟩
          rw [Function.update_noteq, hv]
          intro hc
          subst hc
          rw [hi0] at hv
          omega
    | some c =>
      have hciSome : (cyc i).isSome := by rw [hci]; rfl
      by_cases h0 : st.1 i = 0
      · -- a fresh cycle: number the whole orbit of i
        rw [buildIdStep_new p (n + 1) cyc st i c hci h0]
        obtain ⟨T, hT0, hper, -, hdistT⟩ := (Hcyc i hciSome).minimal
        have hTn : T ≤ n + 1 := by
          -- the orbit is contained in [0, n), and its T members are distinct
          by_contra hc
          push_neg at hc
          have hmaps : ∀ t ∈ Finset.range (n + 1), p^[t] i ∈ Finset.range n := by
            intro t ht
            rw [Finset.mem_range] at ht ⊢
            exact Hlt _ (Horb i t hciSome)
          obtain ⟨x, hx, y, hy, hxy, heq⟩ :=
            Finset.exists_ne_map_eq_of_card_lt_of_maps_to
              (by simp : (Finset.range n).card < (Finset.range (n + 1)).card) hmaps
          rw [Finset.mem_range] at hx hy
          exact hdistT x (by omega) y (by omega) hxy heq
        obtain ⟨hmark, hkeep⟩ :=
          markOrbit p (st.2 + 1) i T (n + 1) st.1 hT0 hper hdistT hTn
        have horbmem : ∀ x, (∃ m, p^[m] i = x) → ∃ t, t < T ∧ p^[t] i = x := by
          rintro x ⟨m, hm⟩
          exact ⟨m % T, Nat.mod_lt _ hT0, by rw [← iterate_mod_period hper m, hm]⟩
        have hback : ∀ t, ∃ s, p^[s] (p^[t] i) = i := by
          intro t
          exact (Hcyc i hciSome).symm_reach (rfl : p^[t] i = p^[t] i)
        have horb0 : ∀ t, t < T → st.1 (p^[t] i) = 0 := by
          intro t ht
          by_contra hc
          rcases (inv.assigned_iff _).1 hc with ⟨hnone, -⟩ | ⟨-, u, hu, husome, m, hm⟩
          · have := Horb i t hciSome
            rw [hnone] at this
            cases this
          · obtain ⟨s, hs⟩ := hback t
            have hui : p^[s + m] u = i := by
              rw [Function.iterate_add_apply, hm, hs]
            have : st.1 i ≠ 0 := by
              rw [inv.assigned_iff i]
              exact Or.inr ⟨hciSome, u, hu, husome, s + m, hui⟩
            exact this h0
        refine ⟨?_, ?_, ?_, ?_⟩
        · intro v
          dsimp only
          by_cases hv : ∃ t, t < T ∧ p^[t] i = v
          · obtain ⟨t, ht, heq⟩ := hv
            rw [← heq, hmark t ht]
            constructor
            · intro _
              exact Or.inr ⟨Horb i t hciSome, i, by omega, hciSome, t, rfl⟩
            · intro _
              omega
          · push_neg at hv
            rw [hkeep v fun t ht => hv t ht]
            rw [inv.assigned_iff v]
            have hvi : v ≠ i := by
              intro hc
              exact hv 0 hT0 (by simpa using hc.symm)
            constructor
            · rintro (⟨ha, hb⟩ | ⟨ha, u, hu, hb, m, hm⟩)
              · exact Or.inl ⟨ha, by omega⟩
              · exact Or.inr ⟨ha, u, by omega, hb, m, hm⟩
            · rintro (⟨ha, hb⟩ | ⟨ha, u, hu, hb, m, hm⟩)
              · exact Or.inl ⟨ha, by omega⟩
              · refine Or.inr ⟨ha, u, ?_, hb, m, hm⟩
                rcases Nat.lt_or_ge u i with h | h
                · exact h
                · have : u = i := by omega
                  subst this
                  exact absurd (horbmem v ⟨m, hm⟩) (by push_neg; exact hv)
        · intro u v hu hv
          dsimp only at hu hv ⊢
          by_cases huo : ∃ t, t < T ∧ p^[t] i = u <;>
            by_cases hvo : ∃ t, t < T ∧ p^[t] i = v
          · obtain ⟨t1, ht1, heq1⟩ := huo
            obtain ⟨t2, ht2, heq2⟩ := hvo
            rw [← heq1, ← heq2, hmark t1 ht1, hmark t2 ht2]
            refine iff_of_true rfl (Or.inr ⟨Horb i t1 hciSome, ?_⟩)
            obtain ⟨s, hs⟩ := hback t1
            exact ⟨t2 + s, by rw [Function.iterate_add_apply, hs]⟩
          · push_neg at hvo
            obtain ⟨t1, ht1, heq1⟩ := huo
            rw [← heq1, hmark t1 ht1]
            rw [hkeep v hvo] at hv
            rw [hkeep v hvo]
            refine iff_of_false ?_ ?_
            · have := inv.bounds v hv
              omega
            · rintro (heq | ⟨hsome, m, hm⟩)
              · exact hvo t1 ht1 heq
              · have hvmem : ∃ t, t < T ∧ p^[t] i = v := by
                  refine horbmem v ⟨m + t1, ?_⟩
                  rw [Function.iterate_add_apply]
                  exact hm
                obtain ⟨t, ht, hteq⟩ := hvmem
                exact hvo t ht hteq
          · -- u not on the new cycle, v on it
            push_neg at huo
            obtain ⟨t2, ht2, heq2⟩ := hvo
            rw [hkeep u huo] at hu
            rw [hkeep u huo, ← heq2, hmark t2 ht2]
            refine iff_of_false ?_ ?_
            · have := inv.bounds u hu
              omega
            · rintro (heq | ⟨hsome, m, hm⟩)
              · exact huo t2 ht2 heq.symm
              · obtain ⟨s, hs⟩ := (Hcyc u hsome).symm_reach hm
                have humem : ∃ t, t < T ∧ p^[t] i = u := by
                  refine horbmem u ⟨s + t2, ?_⟩
                  rw [Function.iterate_add_apply]
                  exact hs
                obtain ⟨t, ht, hteq⟩ := humem
                exact huo t ht hteq
          · push_neg at huo hvo
            rw [hkeep u huo] at hu
            rw [hkeep v hvo] at hv
            rw [hkeep u huo, hkeep v hvo]
            exact inv.ids_iff u v hu hv
        · intro v hv
          dsimp only at hv ⊢
          by_cases hvo : ∃ t, t < T ∧ p^[t] i = v
          · obtain ⟨t, ht, heq⟩ := hvo
            rw [← heq, hmark t ht]
          · push_neg at hvo
            rw [hkeep v hvo] at hv ⊢
            have := inv.bounds v hv
            omega
        · intro m h1 h2
          dsimp only at h2 ⊢
          rcases Nat.eq_or_lt_of_le h2 with heq | hlt
          · refine ⟨i, ?_⟩
            have h3 := hmark 0 hT0
            simp only [Function.iterate_zero_apply] at h3
            rw [h3, heq]
          · obtain ⟨v, hv⟩ := inv.surj m h1 (by omega)
            refine ⟨v, ?_⟩
            have hvo : ∀ t, t < T → p^[t] i ≠ v := by
              intro t ht hc
              have := horb0 t ht
              rw [hc, hv] at this
              omega
            rw [hkeep v hvo, hv]
      · -- the cycle of i was already numbered: nothing changes
        rw [buildIdStep_skip p (n + 1) cyc st i c hci h0]
        have hcov : ∀ v, Covered p cyc (i + 1) v ↔ Covered p cyc i v := by
          intro v
          constructor
          · rintro (⟨ha, hb⟩ | ⟨ha, u, hu, hb, m, hm⟩)
            · left
              refine ⟨ha, ?_⟩
              rcases Nat.lt_or_ge v i with h | h
              · exact h
              · have hvi : v = i := by omega
                rw [hvi, hci] at ha
                cases ha
            · rcases Nat.lt_or_ge u i with h | h
              · exact Or.inr ⟨ha, u, h, hb, m, hm⟩
              · have hui : u = i := by omega
                rw [hui] at hm
                rcases (inv.assigned_iff i).1 h0 with ⟨hnone, -⟩ | ⟨-, u', hu', hb', m', hm'⟩
                · rw [hci] at hnone
                  cases hnone
                · refine Or.inr ⟨ha, u', hu', hb', m + m', ?_⟩
                  rw [Function.iterate_add_apply, hm', hm]
          · rintro (⟨ha, hb⟩ | ⟨ha, u, hu, hb, m, hm⟩)
            · exact Or.inl ⟨ha, by omega⟩
            · exact Or.inr ⟨ha, u, by omega, hb, m, hm⟩
        exact ⟨fun v => (inv.assigned_iff v).trans (hcov v).symm, inv.ids_iff,
          inv.bounds, inv.surj⟩

theorem buildId_spec (p : Nat → Nat) (root n : Nat) (cyc : Nat → Option Nat)
    (Hlt : ∀ v, (cyc v).isSome → v < n)
    (Hcyc : ∀ v, (cyc v).isSome → OnCyc p root v)
    (Horb : ∀ u m, (cyc u).isSome → (cyc (p^[m] u)).isSome) :
    (∀ v, (buildId p n cyc).1 v ≠ 0 ↔ v < n) ∧
    (∀ u v, u < n → v < n → ((buildId p n cyc).1 u = (buildId p n cyc).1 v ↔
      (u = v ∨ ((cyc u).isSome ∧ ∃ m, p^[m] u = v)))) ∧
    (∀ v, v < n → (buildId p n cyc).1 v ≤ (buildId p n cyc).2) ∧
    (∀ m, 1 ≤ m → m ≤ (buildId p n cyc).2 → ∃ v, v < n ∧ (buildId p n cyc).1 v = m) := by
  have inv := buildId_loop p root n cyc Hlt Hcyc Horb n le_rfl
  rw [buildId]
  have hcov : ∀ v, Covered p cyc n v ↔ v < n := by
    intro v
    constructor
    · rintro (⟨-, h⟩ | ⟨hsome, -⟩)
      · exact h
      · exact Hlt v hsome
    · intro hv
      cases hcv : cyc v with
      | none => exact Or.inl ⟨hcv, hv⟩
      | some c =>
        refine Or.inr ⟨by rw [hcv]; rfl, v, hv, by rw [hcv]; rfl, 0, by simp⟩
  have hassigned : ∀ v, ((List.range n).foldl (buildIdStep p (n + 1) cyc)
      (fun _ => 0, 0)).1 v ≠ 0 ↔ v < n := by
    intro v
    exact (inv.assigned_iff v).trans (hcov v)
  refine ⟨hassigned, ?_, ?_, ?_⟩
  · intro u v hu hv
    exact inv.ids_iff u v ((hassigned u).2 hu) ((hassigned v).2 hv)
  · intro v hv
    exact inv.bounds v ((hassigned v).2 hv)
  · intro m h1 h2
    obtain ⟨v, hv⟩ := inv.surj m h1 h2
    refine ⟨v, ?_, hv⟩
    exact (hassigned v).1 (by rw [hv]; omega)

theorem buildId_card (p : Nat → Nat) (root n : Nat) (cyc : Nat → Option Nat)
    (Hlt : ∀ v, (cyc v).isSome → v < n)
    (Hcyc : ∀ v, (cyc v).isSome → OnCyc p root v)
    (Horb : ∀ u m, (cyc u).isSome → (cyc (p^[m] u)).isSome)
    (Hpne : ∀ v, (cyc v).isSome → p v ≠ v) :
    (1 ≤ n → 1 ≤ (buildId p n cyc).2) ∧ (buildId p n cyc).2 ≤ n ∧
    ((∃ v, (cyc v).isSome) → (buildId p n cyc).2 < n) := by
  obtain ⟨hassigned, hids, hbounds, hsurj⟩ := buildId_spec p root n cyc Hlt Hcyc Horb
  have himg : (Finset.range n).image (buildId p n cyc).1 =
      Finset.Icc 1 (buildId p n cyc).2 := by
    apply Finset.Subset.antisymm
    · intro m hm
      obtain ⟨v, hv, rfl⟩ := Finset.mem_image.1 hm
      rw [Finset.mem_range] at hv
      rw [Finset.mem_Icc]
      have h1 := (hassigned v).2 hv
      have h2 := hbounds v hv
      omega
    · intro m hm
      rw [Finset.mem_Icc] at hm
      obtain ⟨v, hv, heq⟩ := hsurj m hm.1 hm.2
      exact Finset.mem_image.2 ⟨v, Finset.mem_range.2 hv, heq⟩
  have hcard : (buildId p n cyc).2 =
      ((Finset.range n).image (buildId p n cyc).1).card := by
    rw [himg, Nat.card_Icc]
    omega
  refine ⟨?_, ?_, ?_⟩
  · intro hn
    have h1 := (hassigned 0).2 (by omega)
    have h2 := hbounds 0 (by omega)
    omega
  · rw [hcard]
    calc ((Finset.range n).image (buildId p n cyc).1).card
        ≤ (Finset.range n).card := Finset.card_image_le
      _ = n := Finset.card_range n
  · rintro ⟨v, hv⟩
    have hvn : v < n := Hlt v hv
    have hpv : (cyc (p v)).isSome := by
      have := Horb v 1 hv
      simpa using this
    have hpvn : p v < n := Hlt _ hpv
    have hne : p v ≠ v := Hpne v hv
    have hsame : (buildId p n cyc).1 (p v) = (buildId p n cyc).1 v := by
      rw [hids (p v) v hpvn hvn]
      refine Or.inr ⟨hpv, ?_⟩
      obtain ⟨m', hm'⟩ := (Hcyc v hv).symm_reach (by simp : p^[1] v = p v)
      exact ⟨m', hm'⟩
    -- the image misses nothing when v is erased, so it has fewer than n elements
    have hsub : (Finset.range n).image (buildId p n cyc).1 =
        ((Finset.range n).erase (p v)).image (buildId p n cyc).1 := by
      apply Finset.Subset.antisymm
      · intro m hm
        obtain ⟨x, hx, rfl⟩ := Finset.mem_image.1 hm
        by_cases hxv : x = p v
        · subst hxv
          refine Finset.mem_image.2 ⟨v, ?_, hsame.symm⟩
          exact Finset.mem_erase.2 ⟨fun hc => hne hc.symm, Finset.mem_range.2 hvn⟩
        · exact Finset.mem_image.2 ⟨x, Finset.mem_erase.2 ⟨hxv, hx⟩, rfl⟩
      · intro m hm
        obtain ⟨x, hx, rfl⟩ := Finset.mem_image.1 hm
        exact Finset.mem_image.2 ⟨x, Finset.mem_erase.1 hx |>.2, rfl⟩
    rw [hcard, hsub]
    calc (((Finset.range n).erase (p v)).image (buildId p n cyc).1).card
        ≤ ((Finset.range n).erase (p v)).card := Finset.card_image_le
      _ = n - 1 := by rw [Finset.card_erase_of_mem (Finset.mem_range.2 hpvn),
            Finset.card_range]
      _ < n := by omega

theorem runDetect_cyc_facts (p : Nat → Nat) (n root : Nat)
    (hg : ∀ u, u < n → u ≠ root → p u < n) :
    (∀ v, ((runDetect p n root).cyc v).isSome → v < n) ∧
    (∀ v, ((runDetect p n root).cyc v).isSome → OnCyc p root v) ∧
    (∀ u m, ((runDetect p n root).cyc u).isSome →
      ((runDetect p n root).cyc (p^[m] u)).isSome) ∧
    (∀ v, v < n → OnCyc p root v → ((runDetect p n root).cyc v).isSome) := by
  obtain ⟨hinv, hall⟩ := runDetect_inv p n root hg
  refine ⟨hinv.cycLt, ?_, ?_, ?_⟩
  · intro v hv
    obtain ⟨c, hc⟩ := Option.isSome_iff_exists.1 hv
    exact (hinv.cycSome v c hc).1
  · intro u m hu
    obtain ⟨c, hc⟩ := Option.isSome_iff_exists.1 hu
    obtain ⟨hcyc, h2, -⟩ := hinv.cycSome u c hc
    exact hinv.cycAll _ (settled_iterate hinv h2 hcyc m) (hcyc.iterate m)
  · intro v hv hcyc
    exact hinv.cycAll v (hall v hv) hcyc

/-! ## One iteration of the main loop: selection facts and contraction -/

theorem noInEdge_false_iff (n root : Nat) (inE : Nat → Option Nat) :
    noInEdge n root inE = false ↔
      ∀ i, i < n → i ≠ root → (inE i).isSome := by
  rw [noInEdge]
  constructor
  · intro h i hi hne
    have := List.any_eq_false.1 h i (List.mem_range.2 hi)
    simp only [Bool.and_eq_true, bne_iff_ne, not_and] at this
    cases hs : (inE i).isNone
    · cases hx : inE i with
      | none => rw [hx] at hs; cases hs
      | some j => rfl
    · exact absurd hs (by simpa [hne] using this)
  · intro h
    rw [List.any_eq_false]
    intro i hi
    rw [List.mem_range] at hi
    simp only [Bool.and_eq_true, bne_iff_ne, not_and]
    intro hne
    have := h i hi hne
    rw [Option.isNone_iff_eq_none]
    intro hc
    rw [hc] at this
    cases this

theorem iter_facts (n root : Nat) (edges : List Edge) (hpre : Pre n root edges)
    (hchk : noInEdge n root (computeInEdge edges) = false) :
    (∀ v, v < n → v ≠ root → ∃ j, computeInEdge edges v = some j ∧ j < edges.length ∧
      (getEdge edges j).dst = v ∧ (getEdge edges j).src ≠ v) ∧
    (∀ u, u < n → u ≠ root → selSrc edges (computeInEdge edges) u < n) ∧
    ∀ u, u < n → u ≠ root → edgeRel edges (selSrc edges (computeInEdge edges) u) u := by
  obtain ⟨hn, hroot, hedge⟩ := hpre
  have hsome := (noInEdge_false_iff n root (computeInEdge edges)).1 hchk
  have key : ∀ v, v < n → v ≠ root → ∃ j, computeInEdge edges v = some j ∧
      j < edges.length ∧ (getEdge edges j).dst = v ∧ (getEdge edges j).src ≠ v := by
    intro v hv hne
    obtain ⟨j, hj⟩ := Option.isSome_iff_exists.1 (hsome v hv hne)
    obtain ⟨⟨h1, h2, h3⟩, -⟩ := computeInEdge_some edges v j hj
    exact ⟨j, hj, h1, h2, h3⟩
  refine ⟨key, ?_, ?_⟩
  · intro u hu hne
    obtain ⟨j, hj, hlen, -, -⟩ := key u hu hne
    rw [selSrc_eq edges _ hj]
    exact (hedge _ (getEdge_mem edges hlen)).1
  · intro u hu hne
    obtain ⟨j, hj, hlen, hdst, -⟩ := key u hu hne
    rw [selSrc_eq edges _ hj]
    exact ⟨getEdge edges j, getEdge_mem edges hlen, rfl, hdst⟩

theorem iter_hg (n root : Nat) (edges : List Edge) (hpre : Pre n root edges)
    (hchk : noInEdge n root (computeInEdge edges) = false) :
    ∀ u, u < n → u ≠ root → selSrc edges (computeInEdge edges) u < n :=
  (iter_facts n root edges hpre hchk).2.1

theorem iter_hpne (n root : Nat) (edges : List Edge) (hpre : Pre n root edges)
    (hchk : noInEdge n root (computeInEdge edges) = false) :
    ∀ v, (((runDetect (selSrc edges (computeInEdge edges)) n root).cyc v).isSome →
      selSrc edges (computeInEdge edges) v ≠ v) := by
  intro v hv
  obtain ⟨hLt, hCyc, -, -⟩ :=
    runDetect_cyc_facts (selSrc edges (computeInEdge edges)) n root
      (iter_hg n root edges hpre hchk)
  have hvn := hLt v hv
  have hvr := (hCyc v hv).ne_root
  obtain ⟨j, hj, -, hdst, hsrc⟩ := (iter_facts n root edges hpre hchk).1 v hvn hvr
  rw [selSrc_eq edges _ hj]
  rw [← hdst] at hsrc ⊢
  exact hsrc

theorem contract_pre (n root : Nat) (edges : List Edge) (hpre : Pre n root edges)
    (hchk : noInEdge n root (computeInEdge edges) = false)
    (hcyc : (runDetect (selSrc edges (computeInEdge edges)) n root).cycleCount ≠ 0) :
    Pre (buildId (selSrc edges (computeInEdge edges)) n
        (runDetect (selSrc edges (computeInEdge edges)) n root).cyc).2
      ((buildId (selSrc edges (computeInEdge edges)) n
        (runDetect (selSrc edges (computeInEdge edges)) n root).cyc).1 root - 1)
      (contractEdges edges (computeInEdge edges)
        (buildId (selSrc edges (computeInEdge edges)) n
          (runDetect (selSrc edges (computeInEdge edges)) n root).cyc).1) ∧
    (buildId (selSrc edges (computeInEdge edges)) n
        (runDetect (selSrc edges (computeInEdge edges)) n root).cyc).2 < n := by
  set p := selSrc edges (computeInEdge edges) with hp
  set cyc := (runDetect p n root).cyc with hcycdef
  have hg := iter_hg n root edges hpre hchk
  obtain ⟨hLt, hCyc, hOrb, -⟩ := runDetect_cyc_facts p n root hg
  have hPne := iter_hpne n root edges hpre hchk
  obtain ⟨hsize1, hsize2, hsize3⟩ := buildId_card p root n cyc hLt hCyc hOrb hPne
  obtain ⟨hassigned, -, hbounds, -⟩ := buildId_spec p root n cyc hLt hCyc hOrb
  obtain ⟨hn, hroot, hedge⟩ := hpre
  obtain ⟨hinv, -⟩ := runDetect_inv p n root hg
  have hwit : ∃ v, (cyc v).isSome := by
    obtain ⟨v, hv⟩ := hinv.cntPos 0 (by omega)
    exact ⟨v, by rw [hcycdef, hv]; rfl⟩
  have hlt : (buildId p n cyc).2 < n := hsize3 hwit
  refine ⟨⟨hsize1 hn, ?_, ?_⟩, hlt⟩
  · have h1 := (hassigned root).2 hroot
    have h2 := hbounds root hroot
    omega
  · intro e he
    obtain ⟨e0, he0, hne, rfl⟩ := mem_contractEdges.1 he
    obtain ⟨hs, hd⟩ := hedge e0 he0
    have hb1 := (hassigned e0.src).2 hs
    have hb2 := hbounds e0.src hs
    have hb3 := (hassigned e0.dst).2 hd
    have hb4 := hbounds e0.dst hd
    constructor
    · simp only []
      omega
    · simp only []
      omega

theorem chuLoop_total (fuel : Nat) : ∀ (n root : Nat) (edges : List Edge) (acc : Int),
    Pre n root edges → n ≤ fuel → (chuLoop fuel n root edges acc).isSome := by
  induction fuel with
  | zero =>
    intro n root edges acc hpre hn
    obtain ⟨h1, -, -⟩ := hpre
    omega
  | succ fuel ih =>
    intro n root edges acc hpre hn
    rw [chuLoop_one_step]
    by_cases hchk : noInEdge n root (computeInEdge edges)
    · rw [if_pos hchk]; rfl
    · rw [if_neg hchk]
      simp only []
      by_cases hcyc :
          (runDetect (selSrc edges (computeInEdge edges)) n root).cycleCount = 0
      · rw [if_pos hcyc]; rfl
      · rw [if_neg hcyc]
        obtain ⟨hpre', hlt⟩ :=
          contract_pre n root edges hpre (Bool.not_eq_true _ ▸ hchk) hcyc
        exact ih _ _ _ _ hpre' (by omega)

/-- Claim C5: a contraction strictly decreases the vertex count, and (with
fuel `n`, i.e. at most `n-1` contraction rounds) the solver terminates on
every input satisfying the preconditions. -/
theorem claim_C5 (n root : Nat) (edges : List Edge) (hpre : Pre n root edges) :
    (∀ (hchk : noInEdge n root (computeInEdge edges) = false),
      (runDetect (selSrc edges (computeInEdge edges)) n root).cycleCount ≠ 0 →
      (buildId (selSrc edges (computeInEdge edges)) n
        (runDetect (selSrc edges (computeInEdge edges)) n root).cyc).2 < n) ∧
    (chuLiuEdmonds n root edges).isSome := by
  refine ⟨fun hchk hcyc => (contract_pre n root edges hpre hchk hcyc).2, ?_⟩
  rw [chuLiuEdmonds]
  have := chuLoop_total n n root edges 0 hpre le_rfl
  cases h : chuLoop n n root edges 0 with
  | none => rw [h] at this; cases this
  | some q => rfl

/-- Witness for C5. -/
theorem claim_C5_witness :
    ((∀ (hchk : noInEdge 3 0 (computeInEdge [Edge.mk 0 1 10, Edge.mk 1 2 20,
        Edge.mk 2 1 5]) = false),
      (runDetect (selSrc [Edge.mk 0 1 10, Edge.mk 1 2 20, Edge.mk 2 1 5]
        (computeInEdge [Edge.mk 0 1 10, Edge.mk 1 2 20, Edge.mk 2 1 5])) 3 0).cycleCount ≠ 0 →
      (buildId (selSrc [Edge.mk 0 1 10, Edge.mk 1 2 20, Edge.mk 2 1 5]
        (computeInEdge [Edge.mk 0 1 10, Edge.mk 1 2 20, Edge.mk 2 1 5])) 3
        (runDetect (selSrc [Edge.mk 0 1 10, Edge.mk 1 2 20, Edge.mk 2 1 5]
          (computeInEdge [Edge.mk 0 1 10, Edge.mk 1 2 20, Edge.mk 2 1 5])) 3 0).cyc).2 < 3) ∧
    (chuLiuEdmonds 3 0 [Edge.mk 0 1 10, Edge.mk 1 2 20, Edge.mk 2 1 5]).isSome) :=
  claim_C5 3 0 [Edge.mk 0 1 10, Edge.mk 1 2 20, Edge.mk 2 1 5]
    ⟨by omega, by omega, by decide⟩

/-! ## Claims C6 and C10: the contraction step and the dereference guards -/

theorem filterMap_eq_filter_map {α β : Type} (f : α → Option β) (P : α → Bool)
    (g : α → β) (hf : ∀ a, f a = if P a then some (g a) else none) :
    ∀ l : List α, l.filterMap f = (l.filter P).map g := by
  intro l
  induction l with
  | nil => rfl
  | cons a t ih =>
    rw [List.filterMap_cons, hf a, List.filter_cons]
    by_cases hP : P a
    · simp only [if_pos hP, List.map_cons, ih]
    · simp only [if_neg hP, ih]

theorem contractEdges_eq_filter_map (edges : List Edge) (inE : Nat → Option Nat)
    (idf : Nat → Nat) :
    contractEdges edges inE idf =
      ((edges.filter fun e => decide (idf e.src - 1 ≠ idf e.dst - 1)).map
        fun e => ⟨idf e.src - 1, idf e.dst - 1, e.weight - selWeight edges inE e.dst⟩) := by
  rw [contractEdges]
  apply filterMap_eq_filter_map
  intro e
  by_cases h : idf e.src - 1 ≠ idf e.dst - 1
  · rw [if_pos h, if_pos (by simpa using h)]
  · rw [if_neg h, if_neg (by simpa using h)]

/-- Claim C6: in a contraction step, two vertices receive the same new index
exactly when they are equal or share a cycle id; the new edge list is exactly
one discounted edge per original edge whose endpoints map to different new
indices (same-index edges dropped); the root is never a cycle member; and the
loop continues on the contracted graph with the new root being the new index
of the old root. -/
theorem claim_C6 (n root : Nat) (edges : List Edge) (hpre : Pre n root edges)
    (hchk : noInEdge n root (computeInEdge edges) = false) :
    (∀ u v, u < n → v < n →
      ((buildId (selSrc edges (computeInEdge edges)) n
          (runDetect (selSrc edges (computeInEdge edges)) n root).cyc).1 u =
        (buildId (selSrc edges (computeInEdge edges)) n
          (runDetect (selSrc edges (computeInEdge edges)) n root).cyc).1 v ↔
        (u = v ∨ ∃ c, (runDetect (selSrc edges (computeInEdge edges)) n root).cyc u = some c ∧
          (runDetect (selSrc edges (computeInEdge edges)) n root).cyc v = some c))) ∧
    (∀ idf : Nat → Nat, contractEdges edges (computeInEdge edges) idf =
      ((edges.filter fun e => decide (idf e.src - 1 ≠ idf e.dst - 1)).map
        fun e => ⟨idf e.src - 1, idf e.dst - 1,
          e.weight - selWeight edges (computeInEdge edges) e.dst⟩)) ∧
    (runDetect (selSrc edges (computeInEdge edges)) n root).cyc root = none ∧
    ∀ fuel acc, (runDetect (selSrc edges (computeInEdge edges)) n root).cycleCount ≠ 0 →
      chuLoop (fuel + 1) n root edges acc =
        chuLoop fuel
          (buildId (selSrc edges (computeInEdge edges)) n
            (runDetect (selSrc edges (computeInEdge edges)) n root).cyc).2
          ((buildId (selSrc edges (computeInEdge edges)) n
            (runDetect (selSrc edges (computeInEdge edges)) n root).cyc).1 root - 1)
          (contractEdges edges (computeInEdge edges)
            (buildId (selSrc edges (computeInEdge edges)) n
              (runDetect (selSrc edges (computeInEdge edges)) n root).cyc).1)
          (acc + iterWeight n root edges (computeInEdge edges)) := by
  set p := selSrc edges (computeInEdge edges) with hp
  set cyc := (runDetect p n root).cyc with hcycdef
  have hg := iter_hg n root edges hpre hchk
  obtain ⟨hLt, hCyc, hOrb, -⟩ := runDetect_cyc_facts p n root hg
  obtain ⟨hinv, -⟩ := runDetect_inv p n root hg
  obtain ⟨-, hids, -, -⟩ := buildId_spec p root n cyc hLt hCyc hOrb
  refine ⟨?_, fun idf => contractEdges_eq_filter_map edges (computeInEdge edges) idf,
    ?_, ?_⟩
  · intro u v hu hv
    rw [hids u v hu hv]
    constructor
    · rintro (rfl | ⟨hsome, m, hm⟩)
      · exact Or.inl rfl
      · right
        obtain ⟨cu, hcu⟩ := Option.isSome_iff_exists.1 hsome
        have hvsome : (cyc v).isSome := by
          rw [← hm]
          exact hOrb u m hsome
        obtain ⟨cv, hcv⟩ := Option.isSome_iff_exists.1 hvsome
        have := (hinv.sameId u v cu cv hcu hcv).2 ⟨m, hm⟩
        exact ⟨cu, hcu, by rw [hcv, this]⟩
    · rintro (rfl | ⟨c, hcu, hcv⟩)
      · exact Or.inl rfl
      · right
        refine ⟨by rw [hcu]; rfl, ?_⟩
        exact (hinv.sameId u v c c hcu hcv).1 rfl
  · cases hcr : cyc root with
    | none => rfl
    | some c =>
      rw [hcycdef] at hcr
      have := (hCyc root (by rw [hcr]; rfl)).ne_root
      exact absurd rfl this
  · intro fuel acc hcyc
    rw [chuLoop_one_step, if_neg (by rw [hchk]; simp)]
    simp only []
    rw [if_neg hcyc]

/-- Witness for C6. -/
theorem claim_C6_witness :
    Pre 3 0 [Edge.mk 0 1 10, Edge.mk 1 2 20, Edge.mk 2 1 5] ∧
      noInEdge 3 0 (computeInEdge [Edge.mk 0 1 10, Edge.mk 1 2 20, Edge.mk 2 1 5]) = false ∧
      (runDetect (selSrc [Edge.mk 0 1 10, Edge.mk 1 2 20, Edge.mk 2 1 5]
        (computeInEdge [Edge.mk 0 1 10, Edge.mk 1 2 20, Edge.mk 2 1 5])) 3 0).cyc 0 = none :=
  ⟨⟨by omega, by omega, by decide⟩, by decide,
    (claim_C6 3 0 [Edge.mk 0 1 10, Edge.mk 1 2 20, Edge.mk 2 1 5]
      ⟨by omega, by omega, by decide⟩ (by decide)).2.2.1⟩

/-- Claim C10: every `edges[inEdge[x]]` dereference is guarded.  After the
early `NO_ARBORESCENCE` check passes, every non-root vertex stores a valid
edge index; the root is settled in the initial detection state and stays
settled through every prefix of the detection loop, so no chain walk steps
from it; and every edge kept by the contraction has a destination with a
valid stored index. -/
theorem claim_C10 (n root : Nat) (edges : List Edge) (hpre : Pre n root edges)
    (hchk : noInEdge n root (computeInEdge edges) = false) :
    (∀ v, v < n → v ≠ root →
      ∃ j, computeInEdge edges v = some j ∧ j < edges.length) ∧
    (∀ l : List Nat, (∀ x ∈ l, x < n) →
      (l.foldl (detectStep (selSrc edges (computeInEdge edges)) (n + 1))
        { visited := Function.update (fun _ => 0) root 2, cyc := fun _ => none,
          cycleCount := 0 }).visited root = 2) ∧
    ∀ idf : Nat → Nat, ∀ e ∈ edges, idf e.src - 1 ≠ idf e.dst - 1 →
      ∃ j, computeInEdge edges e.dst = some j ∧ j < edges.length := by
  refine ⟨?_, ?_, ?_⟩
  · intro v hv hne
    obtain ⟨j, h1, h2, -, -⟩ := (iter_facts n root edges hpre hchk).1 v hv hne
    exact ⟨j, h1, h2⟩
  · intro l hl
    have hg := iter_hg n root edges hpre hchk
    have h := foldl_detect (selSrc edges (computeInEdge edges)) n root hg l hl _
      (detectInit_inv (selSrc edges (computeInEdge edges)) n root)
    exact h.1.root2
  · intro idf e he hne
    have hsd : e.src ≠ e.dst := fun hc => hne (by rw [hc])
    have hsome := computeInEdge_isSome edges he rfl hsd
    obtain ⟨j, hj⟩ := Option.isSome_iff_exists.1 hsome
    exact ⟨j, hj, (computeInEdge_some edges e.dst j hj).1.1⟩

/-- Witness for C10. -/
theorem claim_C10_witness :
    (∀ v, v < 2 → v ≠ 0 →
      ∃ j, computeInEdge [Edge.mk 0 1 5] v = some j ∧ j < 1) ∧
    (∀ l : List Nat, (∀ x ∈ l, x < 2) →
      (l.foldl (detectStep (selSrc [Edge.mk 0 1 5]
          (computeInEdge [Edge.mk 0 1 5])) 3)
        { visited := Function.update (fun _ => 0) 0 2, cyc := fun _ => none,
          cycleCount := 0 }).visited 0 = 2) ∧
    ∀ idf : Nat → Nat, ∀ e ∈ [Edge.mk 0 1 5], idf e.src - 1 ≠ idf e.dst - 1 →
      ∃ j, computeInEdge [Edge.mk 0 1 5] e.dst = some j ∧ j < 1 :=
  claim_C10 2 0 [Edge.mk 0 1 5] ⟨by omega, by omega, by decide⟩ (by decide)

/-! ## Claim C8: pure in-trees -/

theorem chuLoop_mono (fuel : Nat) : ∀ (fuel' n root : Nat) (edges : List Edge)
    (acc : Int) (r : MsaResult × List Edge), fuel ≤ fuel' →
    chuLoop fuel n root edges acc = some r → chuLoop fuel' n root edges acc = some r := by
  induction fuel with
  | zero => intro fuel' n root edges acc r _ h; cases h
  | succ fuel ih =>
    intro fuel' n root edges acc r hle h
    obtain ⟨f', rfl⟩ : ∃ f', fuel' = f' + 1 := ⟨fuel' - 1, by omega⟩
    rw [chuLoop_one_step] at h ⊢
    by_cases hchk : noInEdge n root (computeInEdge edges)
    · rw [if_pos hchk] at h ⊢; exact h
    · rw [if_neg hchk] at h ⊢
      simp only [] at h ⊢
      by_cases hcyc :
          (runDetect (selSrc edges (computeInEdge edges)) n root).cycleCount = 0
      · rw [if_pos hcyc] at h ⊢; exact h
      · rw [if_neg hcyc] at h ⊢
        exact ih f' _ _ _ _ r (by omega) h

theorem sum_range_list (g : Nat → Int) (n : Nat) :
    ∑ v in Finset.range n, g v = ((List.range n).map g).sum := by
  induction n with
  | zero => simp
  | succ n ih =>
    rw [Finset.sum_range_succ, List.range_succ, List.map_append, List.sum_append, ih]
    simp

theorem filter_map_sum_ite (C : Nat → Prop) [DecidablePred C] (f : Nat → Int) :
    ∀ l : List Nat,
      ((l.filter fun i => decide (C i)).map f).sum =
        (l.map fun i => if C i then f i else 0).sum := by
  intro l
  induction l with
  | nil => rfl
  | cons a t ih =>
    rw [List.filter_cons, List.map_cons, List.sum_cons]
    by_cases h : C a
    · rw [if_pos (by simpa using h), List.map_cons, List.sum_cons, ih, if_pos h]
    · rw [if_neg (by simpa using h), ih, if_neg h]
      omega

theorem foldl_add_filter (C : Nat → Prop) [DecidablePred C] (f : Nat → Int) :
    ∀ (l : List Nat) (acc : Int),
      l.foldl (fun a i => if C i then a + f i else a) acc =
        acc + ((l.filter fun i => decide (C i)).map f).sum := by
  intro l
  induction l with
  | nil => intro acc; simp
  | cons a t ih =>
    intro acc
    rw [List.foldl_cons, List.filter_cons]
    by_cases h : C a
    · rw [if_pos h, if_pos (by simpa using h), List.map_cons, List.sum_cons, ih]
      omega
    · rw [if_neg h, if_neg (by simpa using h), ih]

theorem iterWeight_eq_sum (n root : Nat) (edges : List Edge) (inE : Nat → Option Nat) :
    iterWeight n root edges inE =
      ∑ v in (Finset.range n).filter (fun v => v ≠ root ∧ (inE v).isSome),
        selWeight edges inE v := by
  rw [iterWeight, foldl_add_filter (fun i => i ≠ root ∧ (inE i).isSome)
    (selWeight edges inE) (List.range n) 0, zero_add]
  rw [filter_map_sum_ite, Finset.sum_filter, sum_range_list]

theorem list_map_sum_eq_range_sum (l : List Edge) (f : Edge → Int) :
    (l.map f).sum = ∑ j in Finset.range l.length, f (getEdge l j) := by
  induction l with
  | nil => simp
  | cons a t ih =>
    rw [List.map_cons, List.sum_cons, List.length_cons, Finset.sum_range_succ', ih]
    have h1 : ∀ j, getEdge (a :: t) (j + 1) = getEdge t j := by
      intro j
      rw [getEdge, getEdge, List.getD_cons_succ]
    have h2 : getEdge (a :: t) 0 = a := rfl
    rw [h2]
    simp only [h1]
    omega

/-- Following the selected-incoming-edge chain backwards from the root yields
a genuine directed path in the graph: if the chain from `v` reaches the root,
then `v` is reachable from the root. -/
theorem selChain_reaches (n root : Nat) (edges : List Edge) (hpre : Pre n root edges)
    (hchk : noInEdge n root (computeInEdge edges) = false) :
    ∀ (k v : Nat), v < n → (selSrc edges (computeInEdge edges))^[k] v = root →
      Reaches edges root v := by
  intro k
  induction k with
  | zero =>
    intro v hv h
    simp only [Function.iterate_zero_apply] at h
    rw [h]
    exact Relation.ReflTransGen.refl
  | succ k ih =>
    intro v hv h
    by_cases hvr : v = root
    · rw [hvr]
      exact Relation.ReflTransGen.refl
    · rw [Function.iterate_succ_apply] at h
      have hpv : selSrc edges (computeInEdge edges) v < n :=
        iter_hg n root edges hpre hchk v hv hvr
      have hrel : edgeRel edges (selSrc edges (computeInEdge edges) v) v :=
        (iter_facts n root edges hpre hchk).2.2 v hv hvr
      exact Relation.ReflTransGen.tail (ih _ hpv h) hrel

/-- A selected-edge cycle avoiding the root is a genuine directed cycle. -/
theorem OnCyc_to_cycle (n root : Nat) (edges : List Edge) (hpre : Pre n root edges)
    (hchk : noInEdge n root (computeInEdge edges) = false) (v : Nat) (hv : v < n)
    (hcyc : OnCyc (selSrc edges (computeInEdge edges)) root v) :
    Relation.TransGen (edgeRel edges) v v := by
  set p := selSrc edges (computeInEdge edges) with hp
  have horb : ∀ m, p^[m] v < n := by
    intro m
    induction m with
    | zero => simpa using hv
    | succ m ihm =>
      rw [Function.iterate_succ_apply']
      exact iter_hg n root edges hpre hchk _ ihm (hcyc.avoid_all m)
  have hchain : ∀ m, 1 ≤ m → Relation.TransGen (edgeRel edges) (p^[m] v) v := by
    intro m
    induction m with
    | zero => intro h; exact absurd h (by omega)
    | succ m ihm =>
      intro _
      rcases Nat.eq_zero_or_pos m with rfl | hm
      · refine Relation.TransGen.single ?_
        have := (iter_facts n root edges hpre hchk).2.2 v hv (hcyc.ne_root)
        simpa using this
      · have hrel : edgeRel edges (p^[m + 1] v) (p^[m] v) := by
          rw [Function.iterate_succ_apply']
          exact (iter_facts n root edges hpre hchk).2.2 _ (horb m) (hcyc.avoid_all m)
        exact Relation.TransGen.head hrel (ihm hm)
  obtain ⟨k, hk, hper, -⟩ := hcyc
  have := hchain k hk
  rw [hper] at this
  exact this

/-- In an acyclic graph satisfying the check, no edge enters the root. -/
theorem no_edge_into_root (n root : Nat) (edges : List Edge) (hpre : Pre n root edges)
    (hchk : noInEdge n root (computeInEdge edges) = false) (hacyc : Acyclic edges) :
    ∀ e ∈ edges, e.dst ≠ root := by
  intro e he hdst
  have hsrc : e.src < n := (hpre.2.2 e he).1
  rcases chain_dichotomy (selSrc edges (computeInEdge edges)) n root e.src
      (iter_hg n root edges hpre hchk) hsrc with ⟨k, hk⟩ | ⟨m, hm, hlt⟩
  · have hr : Reaches edges root e.src := selChain_reaches n root edges hpre hchk k e.src hsrc hk
    have hstep : edgeRel edges e.src root := ⟨e, he, rfl, hdst⟩
    exact hacyc root (Relation.TransGen.tail' hr hstep)
  · exact hacyc _ (OnCyc_to_cycle n root edges hpre hchk _ hlt hm)

/-- Claim C8: on a pure in-tree (acyclic, every non-root vertex exactly one
incoming edge) the solver returns the sum of all edge weights in its very
first loop iteration, with no contraction. -/
theorem claim_C8 (n root : Nat) (edges : List Edge) (hpre : Pre n root edges)
    (huniq : ∀ v, v < n → v ≠ root →
      ∃! j, j < edges.length ∧ (getEdge edges j).dst = v)
    (hacyc : Acyclic edges) :
    chuLoop 1 n root edges 0 =
      some (MsaResult.weight (edges.map Edge.weight).sum, edges) ∧
    chuLiuEdmonds n root edges = some (MsaResult.weight (edges.map Edge.weight).sum) := by
  have hsel : ∀ v, v < n → v ≠ root → ∃ j, computeInEdge edges v = some j ∧
      j < edges.length ∧ (getEdge edges j).dst = v ∧
      ∀ j', j' < edges.length → (getEdge edges j').dst = v → j' = j := by
    intro v hv hvr
    obtain ⟨j0, ⟨hlen0, hdst0⟩, hun⟩ := huniq v hv hvr
    have hmem0 : getEdge edges j0 ∈ edges := getEdge_mem edges hlen0
    have hns0 : (getEdge edges j0).src ≠ (getEdge edges j0).dst := by
      intro hc
      refine hacyc v (Relation.TransGen.single ⟨getEdge edges j0, hmem0, ?_, hdst0⟩)
      rw [hc, hdst0]
    obtain ⟨j, hj⟩ := Option.isSome_iff_exists.1
      (computeInEdge_isSome edges hmem0 hdst0 hns0)
    obtain ⟨⟨hlen, hdst, -⟩, -⟩ := computeInEdge_some edges v j hj
    have : j = j0 := hun j ⟨hlen, hdst⟩
    subst this
    refine ⟨j, hj, hlen, hdst, fun j' h1 h2 => hun j' ⟨h1, h2⟩⟩
  have hchk : noInEdge n root (computeInEdge edges) = false := by
    rw [noInEdge_false_iff]
    intro i hi hir
    obtain ⟨j, hj, -⟩ := hsel i hi hir
    rw [hj]
    rfl
  have hnocyc :
      (runDetect (selSrc edges (computeInEdge edges)) n root).cycleCount = 0 := by
    rw [runDetect_cnt_zero_iff _ _ _ (iter_hg n root edges hpre hchk)]
    intro v hv hcyc
    exact hacyc v (OnCyc_to_cycle n root edges hpre hchk v hv hcyc)
  have hsum : iterWeight n root edges (computeInEdge edges) =
      (edges.map Edge.weight).sum := by
    rw [iterWeight_eq_sum, list_map_sum_eq_range_sum]
    have hcond : (Finset.range n).filter
        (fun v => v ≠ root ∧ ((computeInEdge edges) v).isSome) =
        (Finset.range n).filter (fun v => v ≠ root) := by
      apply Finset.filter_congr
      intro v hv
      rw [Finset.mem_range] at hv
      constructor
      · intro h
        simp [h.1]
      · intro h
        have hvr : v ≠ root := by simpa using h
        obtain ⟨j, hj, -⟩ := hsel v hv hvr
        simp [hvr, hj]
    rw [hcond]
    refine Finset.sum_nbij' (fun v => (computeInEdge edges v).getD 0)
      (fun j => (getEdge edges j).dst) ?_ ?_ ?_ ?_ ?_
    · intro v hv
      dsimp only
      rw [Finset.mem_filter, Finset.mem_range] at hv
      obtain ⟨j, hj, hlen, -⟩ := hsel v hv.1 hv.2
      rw [hj]
      exact Finset.mem_range.2 hlen
    · intro j hj
      rw [Finset.mem_range] at hj
      have hmem := getEdge_mem edges hj
      rw [Finset.mem_filter, Finset.mem_range]
      exact ⟨(hpre.2.2 _ hmem).2, no_edge_into_root n root edges hpre hchk hacyc _ hmem⟩
    · intro v hv
      dsimp only
      rw [Finset.mem_filter, Finset.mem_range] at hv
      obtain ⟨j, hj, -, hdst, -⟩ := hsel v hv.1 hv.2
      rw [hj]
      exact hdst
    · intro j hj
      dsimp only
      rw [Finset.mem_range] at hj
      have hmem := getEdge_mem edges hj
      have hdn : (getEdge edges j).dst < n := (hpre.2.2 _ hmem).2
      have hdr : (getEdge edges j).dst ≠ root :=
        no_edge_into_root n root edges hpre hchk hacyc _ hmem
      obtain ⟨j0, hj0, hlen0, hdst0, hun⟩ := hsel _ hdn hdr
      rw [hj0]
      simp only [Option.getD_some]
      exact (hun j hj rfl).symm
    · intro v hv
      dsimp only
      rw [Finset.mem_filter, Finset.mem_range] at hv
      obtain ⟨j, hj, -, -, -⟩ := hsel v hv.1 hv.2
      rw [selWeight, hj]
  have hone : chuLoop 1 n root edges 0 =
      some (MsaResult.weight (edges.map Edge.weight).sum, edges) := by
    rw [chuLoop_one_step, if_neg (by rw [hchk]; simp)]
    simp only [hnocyc, if_true]
    rw [zero_add, hsum]
  refine ⟨hone, ?_⟩
  rw [chuLiuEdmonds]
  have := chuLoop_mono 1 n n root edges 0 _ hpre.1 hone
  rw [this]
  rfl

/-- A rank function increasing along every edge certifies acyclicity. -/
theorem acyclic_of_rank (edges : List Edge) (f : Nat → Nat)
    (h : ∀ e ∈ edges, f e.src < f e.dst) : Acyclic edges := by
  intro v hv
  have mono : ∀ a b, Relation.TransGen (edgeRel edges) a b → f a < f b := by
    intro a b hab
    induction hab with
    | single h1 =>
      obtain ⟨e, he, h2, h3⟩ := h1
      rw [← h2, ← h3]
      exact h e he
    | tail h1 h2 ih =>
      obtain ⟨e, he, h3, h4⟩ := h2
      rw [← h4]
      calc f a < f e.src := h3 ▸ ih
        _ < f e.dst := h e he
  exact absurd (mono v v hv) (lt_irrefl _)

/-- Witness for C8 (the in-tree of test case 1). -/
theorem claim_C8_witness :
    chuLiuEdmonds 3 0 [Edge.mk 0 1 10, Edge.mk 0 2 5] = some (MsaResult.weight 15) := by
  refine (claim_C8 3 0 [Edge.mk 0 1 10, Edge.mk 0 2 5]
    ⟨by omega, by omega, by decide⟩ ?_ ?_).2
  · intro v hv hvr
    interval_cases v
    · exact absurd rfl hvr
    · refine ⟨0, ⟨by decide, by decide⟩, ?_⟩
      rintro j' ⟨h1, h2⟩
      have h1' : j' < 2 := by simpa using h1
      interval_cases j'
      · rfl
      · exact absurd h2 (by decide)
    · refine ⟨1, ⟨by decide, by decide⟩, ?_⟩
      rintro j' ⟨h1, h2⟩
      have h1' : j' < 2 := by simpa using h1
      interval_cases j'
      · exact absurd h2 (by decide)
      · rfl
  · exact acyclic_of_rank _ (fun v => v) (by decide)

/-! ## Claim C2: NO_ARBORESCENCE exactly on unreachable inputs -/

theorem reaches_last (edges : List Edge) (root : Nat) :
    ∀ v, Reaches edges root v → v = root ∨ ∃ u, u ≠ v ∧ edgeRel edges u v := by
  intro v h
  induction h with
  | refl => exact Or.inl rfl
  | tail h1 h2 ih =>
    rename_i b c
    by_cases hbc : b = c
    · subst hbc
      exact ih
    · exact Or.inr ⟨b, hbc, h2⟩

/-- If the early check fires, the vertex without an incoming edge is
unreachable from the root. -/
theorem check_unreachable (n root : Nat) (edges : List Edge)
    (hchk : noInEdge n root (computeInEdge edges) = true) :
    ∃ v, v < n ∧ v ≠ root ∧ ¬ Reaches edges root v := by
  rw [noInEdge, List.any_eq_true] at hchk
  obtain ⟨i, hi, hcond⟩ := hchk
  rw [List.mem_range] at hi
  simp only [Bool.and_eq_true, bne_iff_ne] at hcond
  obtain ⟨hir, hnone⟩ := hcond
  rw [Option.isNone_iff_eq_none] at hnone
  refine ⟨i, hi, hir, fun hr => ?_⟩
  rcases reaches_last edges root i hr with heq | ⟨u, hne, e, he, hsrc, hdst⟩
  · exact hir heq
  · have := computeInEdge_none edges i hnone e he hdst
    rw [hsrc, hdst] at this
    exact hne this

/-- The members of a selected-edge cycle are mutually reachable by genuine
edges: any iterate ancestor of `v` reaches `v`. -/
theorem orbit_path (n root : Nat) (edges : List Edge) (hpre : Pre n root edges)
    (hchk : noInEdge n root (computeInEdge edges) = false) (v : Nat) (hv : v < n)
    (hcyc : OnCyc (selSrc edges (computeInEdge edges)) root v) :
    ∀ m, Reaches edges ((selSrc edges (computeInEdge edges))^[m] v) v := by
  set p := selSrc edges (computeInEdge edges) with hp
  have horb : ∀ m, p^[m] v < n := by
    intro m
    induction m with
    | zero => simpa using hv
    | succ m ihm =>
      rw [Function.iterate_succ_apply']
      exact iter_hg n root edges hpre hchk _ ihm (hcyc.avoid_all m)
  intro m
  induction m with
  | zero => exact Relation.ReflTransGen.refl
  | succ m ihm =>
    rw [Function.iterate_succ_apply']
    refine Relation.ReflTransGen.head ?_ ihm
    exact (iter_facts n root edges hpre hchk).2.2 _ (horb m) (hcyc.avoid_all m)

/-- Reachability of every vertex transfers across one contraction, in both
directions. -/
theorem contract_allreach_iff (n root : Nat) (edges : List Edge)
    (hpre : Pre n root edges)
    (hchk : noInEdge n root (computeInEdge edges) = false) :
    AllReach n root edges ↔
      AllReach (buildId (selSrc edges (computeInEdge edges)) n
          (runDetect (selSrc edges (computeInEdge edges)) n root).cyc).2
        ((buildId (selSrc edges (computeInEdge edges)) n
          (runDetect (selSrc edges (computeInEdge edges)) n root).cyc).1 root - 1)
        (contractEdges edges (computeInEdge edges)
          (buildId (selSrc edges (computeInEdge edges)) n
            (runDetect (selSrc edges (computeInEdge edges)) n root).cyc).1) := by
  set p := selSrc edges (computeInEdge edges) with hp
  set cyc := (runDetect p n root).cyc with hcycdef
  set bi := buildId p n cyc with hbi
  set edges' := contractEdges edges (computeInEdge edges) bi.1 with hedges'
  have hg := iter_hg n root edges hpre hchk
  obtain ⟨hLt, hCyc, hOrb, -⟩ := runDetect_cyc_facts p n root hg
  rw [← hcycdef] at hLt hCyc hOrb
  obtain ⟨hassigned, hids, hbounds, hsurj⟩ := buildId_spec p root n cyc hLt hCyc hOrb
  rw [← hbi] at hassigned hids hbounds hsurj
  obtain ⟨hn, hroot, hedge⟩ := hpre
  have hcycroot : cyc root = none := by
    cases hcr : cyc root with
    | none => rfl
    | some c => exact absurd rfl (hCyc root (by rw [hcr]; rfl)).ne_root
  have hidf_ge : ∀ v, v < n → 1 ≤ bi.1 v := by
    intro v hv
    have := (hassigned v).2 hv
    omega
  -- forward: project a path vertex by vertex
  have claimA : ∀ v, Reaches edges root v → v < n →
      Reaches edges' (bi.1 root - 1) (bi.1 v - 1) := by
    intro v hr
    induction hr with
    | refl => intro _; exact Relation.ReflTransGen.refl
    | tail h1 h2 ih =>
      rename_i b c
      intro hc
      obtain ⟨e, he, hsrc, hdst⟩ := h2
      have hb : b < n := by rw [← hsrc]; exact (hedge e he).1
      by_cases hsame : bi.1 e.src - 1 = bi.1 e.dst - 1
      · rw [← hdst, ← hsame, hsrc]
        exact ih hb
      · refine Relation.ReflTransGen.tail (ih hb) ?_
        refine ⟨⟨bi.1 e.src - 1, bi.1 e.dst - 1,
          e.weight - selWeight edges (computeInEdge edges) e.dst⟩, ?_, ?_, ?_⟩
        · exact mem_contractEdges.2 ⟨e, he, hsame, rfl⟩
        · rw [hsrc]
        · rw [hdst]
  -- backward: expand a contracted path class by class
  have claimB : ∀ s, Reaches edges' (bi.1 root - 1) s →
      ∀ v, v < n → bi.1 v - 1 = s → Reaches edges root v := by
    intro s hr
    induction hr with
    | refl =>
      intro v hv hclass
      have heq : bi.1 v = bi.1 root := by
        have h1 := hidf_ge v hv
        have h2 := hidf_ge root hroot
        omega
      rcases (hids v root hv hroot).1 heq with rfl | ⟨hsome, m, hm⟩
      · exact Relation.ReflTransGen.refl
      · exfalso
        have := hOrb v m hsome
        rw [hm, hcycroot] at this
        cases this
    | tail h1 h2 ih =>
      rename_i s1 s2
      obtain ⟨e', he', hsrc', hdst'⟩ := h2
      obtain ⟨e, he, hne, heq⟩ := mem_contractEdges.1 he'
      have hsn : e.src < n := (hedge e he).1
      have hdn : e.dst < n := (hedge e he).2
      have hsrcclass : bi.1 e.src - 1 = s1 := by
        rw [← hsrc', heq]
      have hreach_dst : Reaches edges root e.dst :=
        Relation.ReflTransGen.tail (ih e.src hsn hsrcclass) ⟨e, he, rfl, rfl⟩
      intro v hv hclass
      have hdclass : bi.1 e.dst - 1 = s2 := by
        rw [← hdst', heq]
      have heqid : bi.1 e.dst = bi.1 v := by
        have h1 := hidf_ge v hv
        have h2 := hidf_ge e.dst hdn
        omega
      rcases (hids e.dst v hdn hv).1 heqid with rfl | ⟨hsome, m, hm⟩
      · exact hreach_dst
      · have hvcyc : OnCyc p root e.dst := hCyc e.dst hsome
        obtain ⟨m', hm'⟩ := hvcyc.symm_reach hm
        have hpath : Reaches edges (p^[m'] v) v := by
          refine orbit_path n root edges ⟨hn, hroot, hedge⟩ hchk v hv ?_ m'
          rw [← hm]
          exact hvcyc.iterate m
        rw [hm'] at hpath
        exact Relation.ReflTransGen.trans hreach_dst hpath
  constructor
  · intro hall s hs
    obtain ⟨v, hv, hidv⟩ := hsurj (s + 1) (by omega) (by omega)
    have : bi.1 v - 1 = s := by omega
    rw [← this]
    exact claimA v (hall v hv) hv
  · intro hall v hv
    have hclass : bi.1 v - 1 < bi.2 := by
      have h1 := hidf_ge v hv
      have h2 := hbounds v hv
      omega
    exact claimB (bi.1 v - 1) (hall _ hclass) v hv rfl

theorem cnt0_allreach (n root : Nat) (edges : List Edge) (hpre : Pre n root edges)
    (hchk : noInEdge n root (computeInEdge edges) = false)
    (hcnt : (runDetect (selSrc edges (computeInEdge edges)) n root).cycleCount = 0) :
    AllReach n root edges := by
  intro v hv
  have hg := iter_hg n root edges hpre hchk
  rcases chain_dichotomy (selSrc edges (computeInEdge edges)) n root v hg hv with
    ⟨k, hk⟩ | ⟨m, hm, hlt⟩
  · exact selChain_reaches n root edges hpre hchk k v hv hk
  · exact absurd hm
      ((runDetect_cnt_zero_iff (selSrc edges (computeInEdge edges)) n root hg).1
        hcnt _ hlt)

theorem chuLoop_reach (fuel : Nat) : ∀ (n root : Nat) (edges : List Edge) (acc : Int),
    Pre n root edges → n ≤ fuel →
    (AllReach n root edges →
      ∃ w l, chuLoop fuel n root edges acc = some (MsaResult.weight w, l)) ∧
    (¬ AllReach n root edges →
      ∃ l, chuLoop fuel n root edges acc = some (MsaResult.noArb, l)) := by
  induction fuel with
  | zero =>
    intro n root edges acc hpre hn
    have := hpre.1
    omega
  | succ fuel ih =>
    intro n root edges acc hpre hn
    rw [chuLoop_one_step]
    by_cases hchk : noInEdge n root (computeInEdge edges)
    · rw [if_pos hchk]
      obtain ⟨v, hv, -, hnr⟩ := check_unreachable n root edges hchk
      constructor
      · intro hall
        exact absurd (hall v hv) hnr
      · intro _
        exact ⟨edges, rfl⟩
    · rw [if_neg hchk]
      simp only []
      have hchk' : noInEdge n root (computeInEdge edges) = false :=
        Bool.not_eq_true _ ▸ hchk
      by_cases hcnt :
          (runDetect (selSrc edges (computeInEdge edges)) n root).cycleCount = 0
      · rw [if_pos hcnt]
        constructor
        · intro _
          exact ⟨acc + iterWeight n root edges (computeInEdge edges), edges, rfl⟩
        · intro hnall
          exact absurd (cnt0_allreach n root edges hpre hchk' hcnt) hnall
      · rw [if_neg hcnt]
        obtain ⟨hpre', hlt⟩ := contract_pre n root edges hpre hchk' hcnt
        have ih' := ih _ _ _ (acc + iterWeight n root edges (computeInEdge edges))
          hpre' (by omega)
        have hiff := contract_allreach_iff n root edges hpre hchk'
        constructor
        · intro hall
          exact ih'.1 (hiff.1 hall)
        · intro hnall
          exact ih'.2 fun hall' => hnall (hiff.2 hall')

/-- Claim C2: the solver returns `NO_ARBORESCENCE` exactly when some
non-root vertex is unreachable from the root in the input graph. -/
theorem claim_C2 (n root : Nat) (edges : List Edge) (hpre : Pre n root edges) :
    chuLiuEdmonds n root edges = some MsaResult.noArb ↔
      ∃ v, v < n ∧ v ≠ root ∧ ¬ Reaches edges root v := by
  have h := chuLoop_reach n n root edges 0 hpre le_rfl
  constructor
  · intro hres
    by_contra hc
    push_neg at hc
    have hall : AllReach n root edges := by
      intro v hv
      by_cases hvr : v = root
      · rw [hvr]
        exact Relation.ReflTransGen.refl
      · exact hc v hv hvr
    obtain ⟨w, l, hw⟩ := h.1 hall
    rw [chuLiuEdmonds, hw] at hres
    simp at hres
  · rintro ⟨v, hv, hvr, hnr⟩
    have hnall : ¬ AllReach n root edges := fun hall => hnr (hall v hv)
    obtain ⟨l, hl⟩ := h.2 hnall
    rw [chuLiuEdmonds, hl]
    rfl

/-- Witness for C2: the input of test case 3 (vertex 2 unreachable). -/
theorem claim_C2_witness :
    Pre 3 0 [Edge.mk 0 1 10] ∧
      (chuLiuEdmonds 3 0 [Edge.mk 0 1 10] = some MsaResult.noArb ↔
        ∃ v, v < 3 ∧ v ≠ 0 ∧ ¬ Reaches [Edge.mk 0 1 10] 0 v) :=
  ⟨⟨by omega, by omega, by decide⟩,
    claim_C2 3 0 [Edge.mk 0 1 10] ⟨by omega, by omega, by decide⟩⟩

/-! ## Claim C1: the returned weight is the minimum arborescence weight -/

theorem arb_chain_lt (n root : Nat) (edges : List Edge) (hpre : Pre n root edges)
    (c : Nat → Nat)
    (hc1 : ∀ v, v < n → v ≠ root → c v < edges.length ∧ (getEdge edges (c v)).dst = v) :
    ∀ (k v : Nat), v < n → (∀ m, m < k → (arbParent edges c)^[m] v ≠ root) →
      (arbParent edges c)^[k] v < n := by
  intro k
  induction k with
  | zero => intro v hv _; simpa using hv
  | succ k ih =>
    intro v hv hne
    rw [Function.iterate_succ_apply']
    have hw : (arbParent edges c)^[k] v < n := ih v hv fun m hm => hne m (by omega)
    have hwr : (arbParent edges c)^[k] v ≠ root := hne k (by omega)
    obtain ⟨hlen, -⟩ := hc1 _ hw hwr
    rw [arbParent]
    exact (hpre.2.2 _ (getEdge_mem edges hlen)).1

theorem arb_nonself (n root : Nat) (edges : List Edge) (c : Nat → Nat)
    (hreach : ∀ v, v < n → ∃ k, (arbParent edges c)^[k] v = root) :
    ∀ v, v < n → v ≠ root → arbParent edges c v ≠ v := by
  intro v hv hvr hself
  obtain ⟨k, hk⟩ := hreach v hv
  have : ∀ m, (arbParent edges c)^[m] v = v := by
    intro m
    induction m with
    | zero => rfl
    | succ m ihm => rw [Function.iterate_succ_apply', ihm, hself]
  rw [this k] at hk
  exact hvr hk

theorem arb_y_le (n root : Nat) (edges : List Edge) (c : Nat → Nat)
    (hc1 : ∀ v, v < n → v ≠ root → c v < edges.length ∧ (getEdge edges (c v)).dst = v)
    (hreach : ∀ v, v < n → ∃ k, (arbParent edges c)^[k] v = root) :
    ∀ v, v < n → v ≠ root →
      selWeight edges (computeInEdge edges) v ≤ (getEdge edges (c v)).weight := by
  intro v hv hvr
  obtain ⟨hlen, hdst⟩ := hc1 v hv hvr
  have hns : (getEdge edges (c v)).src ≠ (getEdge edges (c v)).dst := by
    rw [hdst]
    exact arb_nonself n root edges c hreach v hv hvr
  have hmem := getEdge_mem edges hlen
  obtain ⟨j, hj⟩ := Option.isSome_iff_exists.1 (computeInEdge_isSome edges hmem hdst hns)
  rw [selWeight_eq edges _ hj]
  exact (computeInEdge_some edges v j hj).2 _ hmem hdst hns

theorem arbChain_reaches (n root : Nat) (edges : List Edge) (hpre : Pre n root edges)
    (c : Nat → Nat)
    (hc1 : ∀ v, v < n → v ≠ root → c v < edges.length ∧ (getEdge edges (c v)).dst = v) :
    ∀ (k v : Nat), v < n → (arbParent edges c)^[k] v = root → Reaches edges root v := by
  intro k
  induction k with
  | zero =>
    intro v hv h
    simp only [Function.iterate_zero_apply] at h
    rw [h]
    exact Relation.ReflTransGen.refl
  | succ k ih =>
    intro v hv h
    by_cases hvr : v = root
    · rw [hvr]
      exact Relation.ReflTransGen.refl
    · rw [Function.iterate_succ_apply] at h
      obtain ⟨hlen, hdst⟩ := hc1 v hv hvr
      have hpv : arbParent edges c v < n := by
        rw [arbParent]
        exact (hpre.2.2 _ (getEdge_mem edges hlen)).1
      refine Relation.ReflTransGen.tail (ih _ hpv h) ?_
      exact ⟨getEdge edges (c v), getEdge_mem edges hlen, rfl, hdst⟩

theorem hit_dec (root : Nat) (edges : List Edge) (c : Nat → Nat) (v k : Nat)
    (hvr : v ≠ root)
    (hk : (arbParent edges c)^[k] v = root)
    (hmin : ∀ m, m < k → (arbParent edges c)^[m] v ≠ root) :
    ∃ k2, k2 < k ∧ (arbParent edges c)^[k2] (arbParent edges c v) = root ∧
      ∀ m, m < k2 → (arbParent edges c)^[m] (arbParent edges c v) ≠ root := by
  have hk1 : 1 ≤ k := by
    rcases Nat.eq_zero_or_pos k with rfl | h
    · exact absurd (by simpa using hk) hvr
    · exact h
  have hkm1 : (arbParent edges c)^[k - 1] (arbParent edges c v) = root := by
    rw [← Function.iterate_succ_apply, Nat.succ_eq_add_one]
    have he : k - 1 + 1 = k := by omega
    rw [he]
    exact hk
  obtain ⟨k2, hk2, hk2min⟩ :=
    exists_min_of_exists (P := fun m => (arbParent edges c)^[m] (arbParent edges c v) = root)
      ⟨k - 1, hkm1⟩
  refine ⟨k2, ?_, hk2, hk2min⟩
  by_contra hc
  push_neg at hc
  exact hk2min (k - 1) (by omega) hkm1

/-- Basic facts about the relabeling classes of one contraction: ids are
positive, class indices are in range, the root's class holds only the root,
two distinct vertices share a class exactly when they lie on one selected
cycle, following the selected parent stays inside a cycle class, and every
class index is hit. -/
theorem class_facts (n root : Nat) (edges : List Edge) (hpre : Pre n root edges)
    (hchk : noInEdge n root (computeInEdge edges) = false) :
    (∀ v, v < n → 1 ≤ (iterBi n root edges).1 v) ∧
    (∀ v, v < n → (iterBi n root edges).1 v - 1 < (iterBi n root edges).2) ∧
    (∀ v, v < n → (iterBi n root edges).1 v - 1 = (iterBi n root edges).1 root - 1 →
      v = root) ∧
    (∀ u v, u < n → v < n → (iterBi n root edges).1 u - 1 = (iterBi n root edges).1 v - 1 →
      u ≠ v → (iterCyc n root edges u).isSome ∧ ∃ m, (iterP edges)^[m] u = v) ∧
    (∀ u, u < n → (iterCyc n root edges u).isSome → iterP edges u < n →
      (iterBi n root edges).1 (iterP edges u) - 1 = (iterBi n root edges).1 u - 1) ∧
    (∀ s, s < (iterBi n root edges).2 → ∃ v, v < n ∧ (iterBi n root edges).1 v - 1 = s) := by
  rw [iterBi, iterCyc, iterP]
  set p := selSrc edges (computeInEdge edges) with hp
  set cyc := (runDetect p n root).cyc with hcycdef
  set bi := buildId p n cyc with hbi
  have hg := iter_hg n root edges hpre hchk
  obtain ⟨hLt, hCyc, hOrb, -⟩ := runDetect_cyc_facts p n root hg
  rw [← hcycdef] at hLt hCyc hOrb
  obtain ⟨hassigned, hids, hbounds, hsurj⟩ := buildId_spec p root n cyc hLt hCyc hOrb
  rw [← hbi] at hassigned hids hbounds hsurj
  obtain ⟨hn, hroot, hedge⟩ := hpre
  have hcycroot : cyc root = none := by
    cases hcr : cyc root with
    | none => rfl
    | some c => exact absurd rfl (hCyc root (by rw [hcr]; rfl)).ne_root
  have hge : ∀ v, v < n → 1 ≤ bi.1 v := by
    intro v hv
    have := (hassigned v).2 hv
    omega
  refine ⟨hge, ?_, ?_, ?_, ?_, ?_⟩
  · intro v hv
    have h1 := hge v hv
    have h2 := hbounds v hv
    omega
  · intro v hv hclass
    have heq : bi.1 v = bi.1 root := by
      have h1 := hge v hv
      have h2 := hge root hroot
      omega
    rcases (hids v root hv hroot).1 heq with rfl | ⟨hsome, m, hm⟩
    · rfl
    · exfalso
      have := hOrb v m hsome
      rw [hm, hcycroot] at this
      cases this
  · intro u v hu hv hclass hne
    have heq : bi.1 u = bi.1 v := by
      have h1 := hge u hu
      have h2 := hge v hv
      omega
    rcases (hids u v hu hv).1 heq with rfl | h
    · exact absurd rfl hne
    · exact h
  · intro u hu hsome hpu
    have heq : bi.1 u = bi.1 (p u) := by
      refine (hids u (p u) hu hpu).2 (Or.inr ⟨hsome, 1, ?_⟩)
      simp
    have h1 := hge u hu
    have h2 := hge (p u) hpu
    omega
  · intro s hs
    obtain ⟨v, hv, hval⟩ := hsurj (s + 1) (by omega) (by omega)
    exact ⟨v, hv, by omega⟩

/-- Expansion: any arborescence of the contracted graph lifts to one of the
original graph whose weight exceeds it by exactly the iteration's accumulated
selection weight.  The lift keeps the chosen contracted edge at each class's
entry vertex and the selected in-edge everywhere else. -/
theorem contract_expand (n root : Nat) (edges : List Edge) (hpre : Pre n root edges)
    (hchk : noInEdge n root (computeInEdge edges) = false)
    (c' : Nat → Nat)
    (harb' : IsArb (iterBi n root edges).2 ((iterBi n root edges).1 root - 1)
      (contractEdges edges (computeInEdge edges) (iterBi n root edges).1) c') :
    ∃ c, IsArb n root edges c ∧
      arbWeight n root edges c =
        arbWeight (iterBi n root edges).2 ((iterBi n root edges).1 root - 1)
          (contractEdges edges (computeInEdge edges) (iterBi n root edges).1) c' +
        iterWeight n root edges (computeInEdge edges) := by
  classical
  obtain ⟨hge, hltN, hrooteq, hsame, hstep, hsurj⟩ := class_facts n root edges hpre hchk
  obtain ⟨harb1', harb2'⟩ := harb'
  set idf := (iterBi n root edges).1 with hidf
  set N := (iterBi n root edges).2 with hN
  set root' := idf root - 1 with hroot'
  set edges' := contractEdges edges (computeInEdge edges) idf with hedges'
  have hg : ∀ u, u < n → u ≠ root → iterP edges u < n := iter_hg n root edges hpre hchk
  have hkey := (iter_facts n root edges hpre hchk).1
  have hJex : ∀ s, ∃ j, s < N → s ≠ root' →
      (j < edges.length ∧
       idf (getEdge edges j).src - 1 ≠ idf (getEdge edges j).dst - 1 ∧
       idf (getEdge edges j).src - 1 = (getEdge edges' (c' s)).src ∧
       idf (getEdge edges j).dst - 1 = s ∧
       (getEdge edges j).weight = (getEdge edges' (c' s)).weight +
         selWeight edges (computeInEdge edges) (getEdge edges j).dst) := by
    intro s
    by_cases hs : s < N ∧ s ≠ root'
    · obtain ⟨hlen', hdst'⟩ := harb1' s hs.1 hs.2
      have hmem' : getEdge edges' (c' s) ∈ edges' := getEdge_mem edges' hlen'
      rw [hedges'] at hmem'
      obtain ⟨e, he, hne, heq⟩ := mem_contractEdges.1 hmem'
      obtain ⟨j, hj, hjval⟩ := List.mem_iff_getElem.1 he
      have hgj : getEdge edges j = e := by
        rw [getEdge, List.getD_eq_getElem _ _ hj, hjval]
      refine ⟨j, fun _ _ => ⟨hj, ?_, ?_, ?_, ?_⟩⟩
      · rw [hgj]
        exact hne
      · rw [hgj, heq]
      · rw [hgj]
        rw [heq] at hdst'
        dsimp only at hdst'
        exact hdst'
      · rw [hgj]
        have hw : (getEdge edges' (c' s)).weight =
            e.weight - selWeight edges (computeInEdge edges) e.dst := by
          rw [heq]
        rw [hw]
        ring
    · exact ⟨0, fun h1 h2 => absurd ⟨h1, h2⟩ hs⟩
  choose J hJ using hJex
  set rep : Nat → Nat := fun s => (getEdge edges (J s)).dst with hrep
  set c : Nat → Nat := fun v =>
    if v = rep (idf v - 1) then J (idf v - 1) else (computeInEdge edges v).getD 0
    with hcdef
  have hvalid : ∀ v, v < n → v ≠ root → idf v - 1 < N ∧ idf v - 1 ≠ root' := by
    intro v hv hvr
    exact ⟨hltN v hv, fun h => hvr (hrooteq v hv h)⟩
  have hrep_class : ∀ s, s < N → s ≠ root' → idf (rep s) - 1 = s := by
    intro s hs hsr
    have := (hJ s hs hsr).2.2.2.1
    simp only [hrep]
    exact this
  have hrep_lt : ∀ s, s < N → s ≠ root' → rep s < n := by
    intro s hs hsr
    simp only [hrep]
    exact (hpre.2.2 _ (getEdge_mem edges (hJ s hs hsr).1)).2
  have hcrep : ∀ s, s < N → s ≠ root' → c (rep s) = J s := by
    intro s hs hsr
    simp only [hcdef]
    rw [hrep_class s hs hsr, if_pos rfl]
  have hcother : ∀ v, v ≠ rep (idf v - 1) → c v = (computeInEdge edges v).getD 0 := by
    intro v h
    simp only [hcdef]
    rw [if_neg h]
  have hcspec : ∀ v, v < n → v ≠ root →
      c v < edges.length ∧ (getEdge edges (c v)).dst = v := by
    intro v hv hvr
    obtain ⟨hs, hsr⟩ := hvalid v hv hvr
    by_cases hvrep : v = rep (idf v - 1)
    · have hcv : c v = J (idf v - 1) := by
        simp only [hcdef]
        rw [if_pos hvrep]
      refine ⟨hcv ▸ (hJ _ hs hsr).1, ?_⟩
      rw [hcv]
      have hd : rep (idf v - 1) = (getEdge edges (J (idf v - 1))).dst := by
        simp only [hrep]
      rw [← hd]
      exact hvrep.symm
    · have hcv := hcother v hvrep
      obtain ⟨j, hjsome, hjlen, hjdst, -⟩ := hkey v hv hvr
      rw [hcv, hjsome]
      simp only [Option.getD_some]
      exact ⟨hjlen, hjdst⟩
  have hpar_other : ∀ v, v ≠ rep (idf v - 1) → arbParent edges c v = iterP edges v := by
    intro v h
    rw [arbParent, hcother v h]
    rfl
  have hpar_rep : ∀ s, s < N → s ≠ root' →
      idf (arbParent edges c (rep s)) - 1 = (getEdge edges' (c' s)).src := by
    intro s hs hsr
    rw [arbParent, hcrep s hs hsr]
    exact (hJ s hs hsr).2.2.1
  have hpar_rep_lt : ∀ s, s < N → s ≠ root' → arbParent edges c (rep s) < n := by
    intro s hs hsr
    rw [arbParent, hcrep s hs hsr]
    exact (hpre.2.2 _ (getEdge_mem edges (hJ s hs hsr).1)).1
  have hreach : ∀ k' s, (arbParent edges' c')^[k'] s = root' →
      ∀ v, v < n → idf v - 1 = s → ∃ k, (arbParent edges c)^[k] v = root := by
    intro k'
    induction k' with
    | zero =>
      intro s hs v hv hclass
      rw [Function.iterate_zero_apply] at hs
      exact ⟨0, by rw [Function.iterate_zero_apply]; exact hrooteq v hv (by rw [hclass, hs])⟩
    | succ k' ih =>
      intro s hs v hv hclass
      by_cases hsr : s = root'
      · exact ⟨0, by rw [Function.iterate_zero_apply]; exact hrooteq v hv (by rw [hclass, hsr])⟩
      · have hsN : s < N := by rw [← hclass]; exact hltN v hv
        have hs' : (arbParent edges' c')^[k'] (arbParent edges' c' s) = root' := by
          rw [← Function.iterate_succ_apply]
          exact hs
        have hbreach : ∃ k, (arbParent edges c)^[k] (rep s) = root := by
          have hu0 := hpar_rep_lt s hsN hsr
          have hu0c : idf (arbParent edges c (rep s)) - 1 = arbParent edges' c' s := by
            rw [hpar_rep s hsN hsr]
            rfl
          obtain ⟨k, hk⟩ := ih (arbParent edges' c' s) hs' (arbParent edges c (rep s)) hu0 hu0c
          exact ⟨k + 1, by rw [Function.iterate_succ_apply]; exact hk⟩
        have haux : ∀ d u, u < n → idf u - 1 = s → (iterP edges)^[d] u = rep s →
            ∃ k, (arbParent edges c)^[k] u = root := by
          intro d
          induction d with
          | zero =>
            intro u hu huc hub
            rw [Function.iterate_zero_apply] at hub
            rw [hub]
            exact hbreach
          | succ d ihd =>
            intro u hu huc hub
            by_cases hub' : u = rep s
            · rw [hub']
              exact hbreach
            · have hnotrep : u ≠ rep (idf u - 1) := by rw [huc]; exact hub'
              have hur : u ≠ root := by
                intro h
                exact hsr (by rw [← huc, h])
              have hpu : iterP edges u < n := hg u hu hur
              have hcycu : (iterCyc n root edges u).isSome := by
                have hclasseq : idf u - 1 = idf (rep s) - 1 := by
                  rw [huc, hrep_class s hsN hsr]
                exact (hsame u (rep s) hu (hrep_lt s hsN hsr) hclasseq hub').1
              have hpuclass : idf (iterP edges u) - 1 = s := by
                rw [hstep u hu hcycu hpu, huc]
              have hub2 : (iterP edges)^[d] (iterP edges u) = rep s := by
                rw [← Function.iterate_succ_apply]
                exact hub
              obtain ⟨k, hk⟩ := ihd (iterP edges u) hpu hpuclass hub2
              refine ⟨k + 1, ?_⟩
              rw [Function.iterate_succ_apply, hpar_other u hnotrep]
              exact hk
        by_cases hvb : v = rep s
        · rw [hvb]
          exact hbreach
        · have hclasseq : idf v - 1 = idf (rep s) - 1 := by
            rw [hclass, hrep_class s hsN hsr]
          obtain ⟨-, m, hm⟩ := hsame v (rep s) hv (hrep_lt s hsN hsr) hclasseq hvb
          exact haux m v hv hclass hm
  have hreach_all : ∀ v, v < n → ∃ k, (arbParent edges c)^[k] v = root := by
    intro v hv
    obtain ⟨k', hk'⟩ := harb2' (idf v - 1) (hltN v hv)
    exact hreach k' (idf v - 1) hk' v hv rfl
  refine ⟨c, ⟨hcspec, hreach_all⟩, ?_⟩
  rw [arbWeight, arbWeight]
  have hpt : ∀ v ∈ (Finset.range n).filter (fun v => v ≠ root),
      (getEdge edges (c v)).weight =
        selWeight edges (computeInEdge edges) v +
        (if v = rep (idf v - 1) then (getEdge edges' (c' (idf v - 1))).weight else 0) := by
    intro v hv
    rw [Finset.mem_filter, Finset.mem_range] at hv
    obtain ⟨hvn, hvr⟩ := hv
    obtain ⟨hs, hsr⟩ := hvalid v hvn hvr
    by_cases hvrep : v = rep (idf v - 1)
    · rw [if_pos hvrep]
      have hcv : c v = J (idf v - 1) := by
        simp only [hcdef]
        rw [if_pos hvrep]
      rw [hcv]
      have hw := (hJ (idf v - 1) hs hsr).2.2.2.2
      rw [hw]
      have hd : (getEdge edges (J (idf v - 1))).dst = v := by
        have : rep (idf v - 1) = (getEdge edges (J (idf v - 1))).dst := by
          simp only [hrep]
        rw [← this]
        exact hvrep.symm
      rw [hd]
      ring
    · rw [if_neg hvrep, hcother v hvrep, selWeight]
      ring
  rw [Finset.sum_congr rfl hpt, Finset.sum_add_distrib]
  have hiw : ∑ v in (Finset.range n).filter (fun v => v ≠ root),
      selWeight edges (computeInEdge edges) v =
      iterWeight n root edges (computeInEdge edges) := by
    rw [iterWeight_eq_sum]
    have hcond : (Finset.range n).filter
        (fun v => v ≠ root ∧ ((computeInEdge edges) v).isSome) =
        (Finset.range n).filter (fun v => v ≠ root) := by
      apply Finset.filter_congr
      intro v hv
      rw [Finset.mem_range] at hv
      constructor
      · intro h
        simp [h.1]
      · intro h
        have hvr : v ≠ root := by simpa using h
        obtain ⟨j, hj, -, -, -⟩ := hkey v hv hvr
        simp [hvr, hj]
    rw [hcond]
  rw [hiw]
  have hδ : ∑ v in (Finset.range n).filter (fun v => v ≠ root),
      (if v = rep (idf v - 1) then (getEdge edges' (c' (idf v - 1))).weight else 0) =
      ∑ s in (Finset.range N).filter (fun s => s ≠ root'),
        (getEdge edges' (c' s)).weight := by
    rw [← Finset.sum_filter]
    refine Finset.sum_nbij' (fun v => idf v - 1) (fun s => rep s) ?_ ?_ ?_ ?_ ?_
    · intro v hv
      rw [Finset.mem_filter] at hv
      obtain ⟨hv1, hv2⟩ := hv
      rw [Finset.mem_filter, Finset.mem_range] at hv1
      rw [Finset.mem_filter, Finset.mem_range]
      exact ⟨(hvalid v hv1.1 hv1.2).1, (hvalid v hv1.1 hv1.2).2⟩
    · intro s hs2
      rw [Finset.mem_filter, Finset.mem_range] at hs2
      obtain ⟨hsN2, hsr2⟩ := hs2
      rw [Finset.mem_filter, Finset.mem_filter, Finset.mem_range]
      refine ⟨⟨hrep_lt s hsN2 hsr2, ?_⟩, ?_⟩
      · intro h
        have hb : rep s = root := h
        have hcl := hrep_class s hsN2 hsr2
        rw [hb] at hcl
        exact hsr2 (by rw [← hcl])
      · dsimp only
        rw [hrep_class s hsN2 hsr2]
    · intro v hv
      rw [Finset.mem_filter] at hv
      exact hv.2.symm
    · intro s hs2
      rw [Finset.mem_filter, Finset.mem_range] at hs2
      exact hrep_class s hs2.1 hs2.2
    · intro v _
      rfl
  rw [hδ]
  ring

/-- Projection: any arborescence of the original graph induces one of the
contracted graph whose weight is at most the original weight minus the
iteration's accumulated selection weight.  Per class, keep the image of the
chosen in-edge of the member whose chain reaches the root fastest. -/
theorem contract_project (n root : Nat) (edges : List Edge) (hpre : Pre n root edges)
    (hchk : noInEdge n root (computeInEdge edges) = false)
    (c : Nat → Nat) (harb : IsArb n root edges c) :
    ∃ c2, IsArb (iterBi n root edges).2 ((iterBi n root edges).1 root - 1)
        (contractEdges edges (computeInEdge edges) (iterBi n root edges).1) c2 ∧
      arbWeight (iterBi n root edges).2 ((iterBi n root edges).1 root - 1)
          (contractEdges edges (computeInEdge edges) (iterBi n root edges).1) c2 ≤
        arbWeight n root edges c - iterWeight n root edges (computeInEdge edges) := by
  classical
  obtain ⟨hge, hltN, hrooteq, hsame, hstep, hsurj⟩ := class_facts n root edges hpre hchk
  obtain ⟨hc1, hc2⟩ := harb
  set idf := (iterBi n root edges).1 with hidf
  set N := (iterBi n root edges).2 with hN
  set root' := idf root - 1 with hroot'
  set edges' := contractEdges edges (computeInEdge edges) idf with hedges'
  set q := arbParent edges c with hq
  have hkey := (iter_facts n root edges hpre hchk).1
  have hhit' : ∀ v, ∃ k, v < n → (q^[k] v = root ∧ ∀ m, m < k → q^[m] v ≠ root) := by
    intro v
    by_cases hv : v < n
    · obtain ⟨k, h1, h2⟩ := exists_min_of_exists (hc2 v hv)
      exact ⟨k, fun _ => ⟨h1, h2⟩⟩
    · exact ⟨0, fun h => absurd h hv⟩
  choose hit hhit using hhit'
  have hqlt : ∀ v, v < n → v ≠ root → q v < n := by
    intro v hv hvr
    rw [hq, arbParent]
    exact (hpre.2.2 _ (getEdge_mem edges (hc1 v hv hvr).1)).1
  have hdec : ∀ v, v < n → v ≠ root → hit (q v) < hit v := by
    intro v hv hvr
    obtain ⟨h1, h2⟩ := hhit v hv
    obtain ⟨k2, hk2lt, hk2, -⟩ := hit_dec root edges c v (hit v) hvr h1 h2
    obtain ⟨-, h2'⟩ := hhit (q v) (hqlt v hv hvr)
    by_contra hcon
    push_neg at hcon
    exact h2' k2 (by omega) hk2
  have humex : ∀ s, ∃ u, s < N → (u < n ∧ idf u - 1 = s ∧
      ∀ w2, w2 < n → idf w2 - 1 = s → hit u ≤ hit w2) := by
    intro s
    by_cases hs : s < N
    · obtain ⟨v0, hv0, hv0c⟩ := hsurj s hs
      have hne : ((Finset.range n).filter (fun w2 => idf w2 - 1 = s)).Nonempty :=
        ⟨v0, Finset.mem_filter.2 ⟨Finset.mem_range.2 hv0, hv0c⟩⟩
      obtain ⟨u, hu, humin⟩ := Finset.exists_min_image _ hit hne
      rw [Finset.mem_filter, Finset.mem_range] at hu
      refine ⟨u, fun _ => ⟨hu.1, hu.2, fun w2 hw2 hw2c => ?_⟩⟩
      exact humin w2 (Finset.mem_filter.2 ⟨Finset.mem_range.2 hw2, hw2c⟩)
    · exact ⟨0, fun h => absurd h hs⟩
  choose um hum using humex
  have humlt : ∀ s, s < N → um s < n := fun s hs => (hum s hs).1
  have humcl : ∀ s, s < N → idf (um s) - 1 = s := fun s hs => (hum s hs).2.1
  have humroot : ∀ s, s < N → s ≠ root' → um s ≠ root := by
    intro s hs hsr h
    exact hsr (by rw [← humcl s hs, h])
  have hcross : ∀ s, s < N → s ≠ root' → idf (q (um s)) - 1 ≠ s := by
    intro s hs hsr heq
    have h1 := hdec (um s) (humlt s hs) (humroot s hs hsr)
    have h2 := (hum s hs).2.2 (q (um s)) (hqlt _ (humlt s hs) (humroot s hs hsr)) heq
    omega
  have hc2ex : ∀ s, ∃ j2, s < N → s ≠ root' →
      (j2 < edges'.length ∧
       (getEdge edges' j2).src = idf ((getEdge edges (c (um s))).src) - 1 ∧
       (getEdge edges' j2).dst = s ∧
       (getEdge edges' j2).weight = (getEdge edges (c (um s))).weight -
         selWeight edges (computeInEdge edges) (um s)) := by
    intro s
    by_cases hs : s < N ∧ s ≠ root'
    · obtain ⟨hlen, hdst⟩ := hc1 (um s) (humlt s hs.1) (humroot s hs.1 hs.2)
      have hmem : getEdge edges (c (um s)) ∈ edges := getEdge_mem edges hlen
      have hqs : q (um s) = (getEdge edges (c (um s))).src := rfl
      have hcrossing : idf (getEdge edges (c (um s))).src - 1 ≠
          idf (getEdge edges (c (um s))).dst - 1 := by
        rw [hdst, humcl s hs.1, ← hqs]
        exact hcross s hs.1 hs.2
      have hmem' : (⟨idf (getEdge edges (c (um s))).src - 1,
          idf (getEdge edges (c (um s))).dst - 1,
          (getEdge edges (c (um s))).weight -
            selWeight edges (computeInEdge edges) (getEdge edges (c (um s))).dst⟩ : Edge) ∈
          contractEdges edges (computeInEdge edges) idf :=
        mem_contractEdges.2 ⟨_, hmem, hcrossing, rfl⟩
      rw [← hedges'] at hmem'
      obtain ⟨j2, hj2, hval⟩ := List.mem_iff_getElem.1 hmem'
      have hgj : getEdge edges' j2 = ⟨idf (getEdge edges (c (um s))).src - 1,
          idf (getEdge edges (c (um s))).dst - 1,
          (getEdge edges (c (um s))).weight -
            selWeight edges (computeInEdge edges) (getEdge edges (c (um s))).dst⟩ := by
        rw [getEdge, List.getD_eq_getElem _ _ hj2, hval]
      refine ⟨j2, fun _ _ => ⟨hj2, ?_, ?_, ?_⟩⟩
      · rw [hgj]
      · rw [hgj]
        dsimp only
        rw [hdst]
        exact humcl s hs.1
      · rw [hgj]
        dsimp only
        rw [hdst]
    · exact ⟨0, fun h1 h2 => absurd ⟨h1, h2⟩ hs⟩
  choose c2 hc2' using hc2ex
  have harb1n : ∀ s, s < N → s ≠ root' →
      c2 s < edges'.length ∧ (getEdge edges' (c2 s)).dst = s := by
    intro s hs hsr
    obtain ⟨h1, -, h3, -⟩ := hc2' s hs hsr
    exact ⟨h1, h3⟩
  have hreachn : ∀ m s, s < N → hit (um s) ≤ m →
      ∃ k2, (arbParent edges' c2)^[k2] s = root' := by
    intro m
    induction m with
    | zero =>
      intro s hs hm
      have h1 := (hhit (um s) (humlt s hs)).1
      have hz : hit (um s) = 0 := by omega
      rw [hz, Function.iterate_zero_apply] at h1
      refine ⟨0, ?_⟩
      rw [Function.iterate_zero_apply, ← humcl s hs, h1]
    | succ m ihm =>
      intro s hs hm
      by_cases hsr : s = root'
      · exact ⟨0, by rw [Function.iterate_zero_apply, hsr]⟩
      · obtain ⟨-, hsrc, -, -⟩ := hc2' s hs hsr
        have hqs : q (um s) = (getEdge edges (c (um s))).src := rfl
        have hw2lt : q (um s) < n := hqlt _ (humlt s hs) (humroot s hs hsr)
        have hs1 : idf (q (um s)) - 1 < N := hltN _ hw2lt
        have hparval : arbParent edges' c2 s = idf (q (um s)) - 1 := by
          rw [arbParent, hsrc, hqs]
        have hstep2 : hit (um (idf (q (um s)) - 1)) ≤ m := by
          have ha := (hum (idf (q (um s)) - 1) hs1).2.2 (q (um s)) hw2lt rfl
          have hb := hdec (um s) (humlt s hs) (humroot s hs hsr)
          omega
        obtain ⟨k2, hk2⟩ := ihm (idf (q (um s)) - 1) hs1 hstep2
        refine ⟨k2 + 1, ?_⟩
        rw [Function.iterate_succ_apply, hparval]
        exact hk2
  have harb2n : ∀ s, s < N → ∃ k2, (arbParent edges' c2)^[k2] s = root' := by
    intro s hs
    exact hreachn (hit (um s)) s hs le_rfl
  have hywle : ∀ v, v < n → v ≠ root →
      0 ≤ (getEdge edges (c v)).weight - selWeight edges (computeInEdge edges) v := by
    intro v hv hvr
    have := arb_y_le n root edges c hc1 hc2 v hv hvr
    omega
  have hlhs : arbWeight N root' edges' c2 =
      ∑ s in (Finset.range N).filter (fun s => s ≠ root'),
        ((getEdge edges (c (um s))).weight -
          selWeight edges (computeInEdge edges) (um s)) := by
    rw [arbWeight]
    apply Finset.sum_congr rfl
    intro s hs2
    rw [Finset.mem_filter, Finset.mem_range] at hs2
    exact (hc2' s hs2.1 hs2.2).2.2.2
  have hrhs : arbWeight n root edges c - iterWeight n root edges (computeInEdge edges) =
      ∑ v in (Finset.range n).filter (fun v => v ≠ root),
        ((getEdge edges (c v)).weight - selWeight edges (computeInEdge edges) v) := by
    rw [arbWeight, iterWeight_eq_sum]
    have hcond : (Finset.range n).filter
        (fun v => v ≠ root ∧ ((computeInEdge edges) v).isSome) =
        (Finset.range n).filter (fun v => v ≠ root) := by
      apply Finset.filter_congr
      intro v hv
      rw [Finset.mem_range] at hv
      constructor
      · intro h
        simp [h.1]
      · intro h
        have hvr : v ≠ root := by simpa using h
        obtain ⟨j, hj, -, -, -⟩ := hkey v hv hvr
        simp [hvr, hj]
    rw [hcond, ← Finset.sum_sub_distrib]
  have him : ∑ v in ((Finset.range N).filter (fun s => s ≠ root')).image um,
      ((getEdge edges (c v)).weight - selWeight edges (computeInEdge edges) v) =
      ∑ s in (Finset.range N).filter (fun s => s ≠ root'),
        ((getEdge edges (c (um s))).weight -
          selWeight edges (computeInEdge edges) (um s)) := by
    apply Finset.sum_image
    intro x hx y hy hxy
    rw [Finset.mem_filter, Finset.mem_range] at hx hy
    rw [← humcl x hx.1, ← humcl y hy.1, hxy]
  have hinj : ∑ s in (Finset.range N).filter (fun s => s ≠ root'),
      ((getEdge edges (c (um s))).weight -
        selWeight edges (computeInEdge edges) (um s)) ≤
      ∑ v in (Finset.range n).filter (fun v => v ≠ root),
        ((getEdge edges (c v)).weight - selWeight edges (computeInEdge edges) v) := by
    rw [← him]
    refine Finset.sum_le_sum_of_subset_of_nonneg ?_ ?_
    · intro v hv
      rw [Finset.mem_image] at hv
      obtain ⟨s, hsG, rfl⟩ := hv
      rw [Finset.mem_filter, Finset.mem_range] at hsG
      rw [Finset.mem_filter, Finset.mem_range]
      exact ⟨humlt s hsG.1, humroot s hsG.1 hsG.2⟩
    · intro v hvF hvnot
      rw [Finset.mem_filter, Finset.mem_range] at hvF
      exact hywle v hvF.1 hvF.2
  refine ⟨c2, ⟨harb1n, harb2n⟩, ?_⟩
  rw [hlhs, hrhs]
  exact hinj

/-- One contraction preserves minimality: if `W2` is the minimum arborescence
weight of the contracted snapshot, then the iteration's accumulated selection
weight plus `W2` is the minimum arborescence weight of the current snapshot. -/
theorem contract_minarb (n root : Nat) (edges : List Edge) (hpre : Pre n root edges)
    (hchk : noInEdge n root (computeInEdge edges) = false) (W2 : Int)
    (h2 : MinArbW (iterBi n root edges).2 ((iterBi n root edges).1 root - 1)
      (contractEdges edges (computeInEdge edges) (iterBi n root edges).1) W2) :
    MinArbW n root edges (iterWeight n root edges (computeInEdge edges) + W2) := by
  obtain ⟨⟨c', harb', hw'⟩, hmin'⟩ := h2
  constructor
  · obtain ⟨c, harb, hw⟩ := contract_expand n root edges hpre hchk c' harb'
    refine ⟨c, harb, ?_⟩
    rw [hw, hw']
    ring
  · intro c harb
    obtain ⟨c2, harb2, hle⟩ := contract_project n root edges hpre hchk c harb
    have := hmin' c2 harb2
    omega

/-- With no cycle detected, the selected edges themselves form a minimum
arborescence, of weight exactly the accumulated selection weight. -/
theorem cnt0_minarb (n root : Nat) (edges : List Edge) (hpre : Pre n root edges)
    (hchk : noInEdge n root (computeInEdge edges) = false)
    (hcnt : (runDetect (selSrc edges (computeInEdge edges)) n root).cycleCount = 0) :
    MinArbW n root edges (iterWeight n root edges (computeInEdge edges)) := by
  have hg := iter_hg n root edges hpre hchk
  have hkey := (iter_facts n root edges hpre hchk).1
  have hnocyc := (runDetect_cnt_zero_iff _ n root hg).1 hcnt
  set c0 : Nat → Nat := fun v => (computeInEdge edges v).getD 0 with hc0
  have hc01 : ∀ v, v < n → v ≠ root →
      c0 v < edges.length ∧ (getEdge edges (c0 v)).dst = v := by
    intro v hv hvr
    obtain ⟨j, hj, hjlen, hjdst, -⟩ := hkey v hv hvr
    simp only [hc0]
    rw [hj]
    simp only [Option.getD_some]
    exact ⟨hjlen, hjdst⟩
  have hpar : arbParent edges c0 = selSrc edges (computeInEdge edges) := rfl
  have hc02 : ∀ v, v < n → ∃ k, (arbParent edges c0)^[k] v = root := by
    intro v hv
    rcases chain_dichotomy (selSrc edges (computeInEdge edges)) n root v hg hv with
      ⟨k, hk⟩ | ⟨m, hm, hlt⟩
    · exact ⟨k, by rw [hpar]; exact hk⟩
    · exact absurd hm (hnocyc _ hlt)
  have hcond : (Finset.range n).filter
      (fun v => v ≠ root ∧ ((computeInEdge edges) v).isSome) =
      (Finset.range n).filter (fun v => v ≠ root) := by
    apply Finset.filter_congr
    intro v hv
    rw [Finset.mem_range] at hv
    constructor
    · intro h
      simp [h.1]
    · intro h
      have hvr : v ≠ root := by simpa using h
      obtain ⟨j, hj, -, -, -⟩ := hkey v hv hvr
      simp [hvr, hj]
  constructor
  · refine ⟨c0, ⟨hc01, hc02⟩, ?_⟩
    rw [arbWeight, iterWeight_eq_sum, hcond]
    apply Finset.sum_congr rfl
    intro v hv
    rw [selWeight]
  · intro c harb
    rw [iterWeight_eq_sum, arbWeight, hcond]
    apply Finset.sum_le_sum
    intro v hv
    rw [Finset.mem_filter, Finset.mem_range] at hv
    exact arb_y_le n root edges c harb.1 harb.2 v hv.1 hv.2

/-- Master weight lemma: with fuel at least `n`, on an input where every
vertex is reachable, the loop returns the accumulator plus the minimum
arborescence weight of its input snapshot. -/
theorem chuLoop_minarb (fuel : Nat) : ∀ (n root : Nat) (edges : List Edge) (acc : Int),
    Pre n root edges → n ≤ fuel → AllReach n root edges →
    ∃ W l, chuLoop fuel n root edges acc = some (MsaResult.weight (acc + W), l) ∧
      MinArbW n root edges W := by
  induction fuel with
  | zero =>
    intro n root edges acc hpre hn _
    have := hpre.1
    omega
  | succ fuel ih =>
    intro n root edges acc hpre hn hall
    rw [chuLoop_one_step]
    by_cases hchk : noInEdge n root (computeInEdge edges)
    · obtain ⟨v, hv, -, hnr⟩ := check_unreachable n root edges hchk
      exact absurd (hall v hv) hnr
    · rw [if_neg hchk]
      simp only []
      have hchk' : noInEdge n root (computeInEdge edges) = false :=
        Bool.not_eq_true _ ▸ hchk
      by_cases hcnt :
          (runDetect (selSrc edges (computeInEdge edges)) n root).cycleCount = 0
      · rw [if_pos hcnt]
        exact ⟨iterWeight n root edges (computeInEdge edges), edges, rfl,
          cnt0_minarb n root edges hpre hchk' hcnt⟩
      · rw [if_neg hcnt]
        obtain ⟨hpre', hlt⟩ := contract_pre n root edges hpre hchk' hcnt
        have hall' := (contract_allreach_iff n root edges hpre hchk').1 hall
        obtain ⟨W2, l, heq, hmin2⟩ :=
          ih _ _ _ (acc + iterWeight n root edges (computeInEdge edges)) hpre'
            (by omega) hall'
        refine ⟨iterWeight n root edges (computeInEdge edges) + W2, l, ?_, ?_⟩
        · rw [heq, add_assoc]
        · exact contract_minarb n root edges hpre hchk' W2 hmin2

/-- Claim C1: under the preconditions, whenever the graph has at least one
spanning arborescence rooted at `root`, the solver returns the minimum total
weight over all such arborescences. -/
theorem claim_C1 (n root : Nat) (edges : List Edge) (hpre : Pre n root edges)
    (hex : ∃ c, IsArb n root edges c) :
    ∃ W, chuLiuEdmonds n root edges = some (MsaResult.weight W) ∧
      MinArbW n root edges W := by
  obtain ⟨c, hc1, hc2⟩ := hex
  have hall : AllReach n root edges := by
    intro v hv
    obtain ⟨k, hk⟩ := hc2 v hv
    exact arbChain_reaches n root edges hpre c hc1 k v hv hk
  obtain ⟨W, l, heq, hmin⟩ := chuLoop_minarb n n root edges 0 hpre le_rfl hall
  refine ⟨W, ?_, hmin⟩
  rw [chuLiuEdmonds, heq]
  simp

/-- Witness for C1: the in-tree of test case 1 (expected weight 15). -/
theorem claim_C1_witness :
    Pre 3 0 [Edge.mk 0 1 10, Edge.mk 0 2 5] ∧
    (∃ c, IsArb 3 0 [Edge.mk 0 1 10, Edge.mk 0 2 5] c) ∧
    ∃ W, chuLiuEdmonds 3 0 [Edge.mk 0 1 10, Edge.mk 0 2 5] =
        some (MsaResult.weight W) ∧
      MinArbW 3 0 [Edge.mk 0 1 10, Edge.mk 0 2 5] W := by
  have hpre : Pre 3 0 [Edge.mk 0 1 10, Edge.mk 0 2 5] := ⟨by omega, by omega, by decide⟩
  have hex : ∃ c, IsArb 3 0 [Edge.mk 0 1 10, Edge.mk 0 2 5] c := by
    refine ⟨fun v => v - 1, ⟨by decide, ?_⟩⟩
    intro v hv
    interval_cases v
    · exact ⟨0, rfl⟩
    · exact ⟨1, rfl⟩
    · exact ⟨1, rfl⟩
  exact ⟨hpre, hex, claim_C1 3 0 [Edge.mk 0 1 10, Edge.mk 0 2 5] hpre hex⟩

/-- An arborescence transfers across a permutation of the edge list, with the
same weight: each chosen index is re-pointed at the same edge value. -/
theorem arb_transfer (n root : Nat) (edges edges2 : List Edge) (hpre : Pre n root edges)
    (hperm : edges.Perm edges2) (c : Nat → Nat) (harb : IsArb n root edges c) :
    ∃ c2, IsArb n root edges2 c2 ∧
      arbWeight n root edges2 c2 = arbWeight n root edges c := by
  classical
  obtain ⟨hc1, hc2⟩ := harb
  have hex : ∀ v, ∃ j, v < n → v ≠ root →
      (j < edges2.length ∧ getEdge edges2 j = getEdge edges (c v)) := by
    intro v
    by_cases hv : v < n ∧ v ≠ root
    · obtain ⟨hlen, -⟩ := hc1 v hv.1 hv.2
      have hmem : getEdge edges (c v) ∈ edges2 :=
        hperm.mem_iff.1 (getEdge_mem edges hlen)
      obtain ⟨j, hj, hval⟩ := List.mem_iff_getElem.1 hmem
      refine ⟨j, fun _ _ => ⟨hj, ?_⟩⟩
      rw [getEdge, List.getD_eq_getElem _ _ hj, hval]
    · exact ⟨0, fun h1 h2 => absurd ⟨h1, h2⟩ hv⟩
  choose c2 hc2' using hex
  have hc21 : ∀ v, v < n → v ≠ root →
      c2 v < edges2.length ∧ (getEdge edges2 (c2 v)).dst = v := by
    intro v hv hvr
    obtain ⟨h1, h2⟩ := hc2' v hv hvr
    exact ⟨h1, by rw [h2]; exact (hc1 v hv hvr).2⟩
  have hparagree : ∀ v, v < n → v ≠ root →
      arbParent edges2 c2 v = arbParent edges c v := by
    intro v hv hvr
    rw [arbParent, arbParent, (hc2' v hv hvr).2]
  have hreach2 : ∀ k v, v < n → (arbParent edges c)^[k] v = root →
      ∃ k2, (arbParent edges2 c2)^[k2] v = root := by
    intro k
    induction k with
    | zero =>
      intro v hv h
      exact ⟨0, h⟩
    | succ k ihk =>
      intro v hv h
      by_cases hvr : v = root
      · exact ⟨0, by rw [Function.iterate_zero_apply]; exact hvr⟩
      · rw [Function.iterate_succ_apply] at h
        have hqv : arbParent edges c v < n := by
          rw [arbParent]
          exact (hpre.2.2 _ (getEdge_mem edges (hc1 v hv hvr).1)).1
        obtain ⟨k2, hk2⟩ := ihk (arbParent edges c v) hqv h
        refine ⟨k2 + 1, ?_⟩
        rw [Function.iterate_succ_apply, hparagree v hv hvr]
        exact hk2
  refine ⟨c2, ⟨hc21, fun v hv => ?_⟩, ?_⟩
  · obtain ⟨k, hk⟩ := hc2 v hv
    exact hreach2 k v hv hk
  · rw [arbWeight, arbWeight]
    apply Finset.sum_congr rfl
    intro v hv
    rw [Finset.mem_filter, Finset.mem_range] at hv
    rw [(hc2' v hv.1 hv.2).2]

/-- The minimum arborescence weight is the same for permuted edge lists. -/
theorem minarb_perm (n root : Nat) (edges edges2 : List Edge) (hpre : Pre n root edges)
    (hpre2 : Pre n root edges2) (hperm : edges.Perm edges2) (W W2 : Int)
    (h1 : MinArbW n root edges W) (h2 : MinArbW n root edges2 W2) : W = W2 := by
  obtain ⟨⟨c1, harb1, hw1⟩, hmin1⟩ := h1
  obtain ⟨⟨c2, harb2, hw2⟩, hmin2⟩ := h2
  obtain ⟨c1', harb1', hw1'⟩ := arb_transfer n root edges edges2 hpre hperm c1 harb1
  obtain ⟨c2', harb2', hw2'⟩ := arb_transfer n root edges2 edges hpre2 hperm.symm c2 harb2
  have ha := hmin1 c2' harb2'
  have hb := hmin2 c1' harb1'
  omega

/-- Claim C7: the returned value is invariant under permutation of the input
edge list. -/
theorem claim_C7 (n root : Nat) (edges edges2 : List Edge) (hpre : Pre n root edges)
    (hperm : edges.Perm edges2) :
    chuLiuEdmonds n root edges = chuLiuEdmonds n root edges2 := by
  have hpre2 : Pre n root edges2 :=
    ⟨hpre.1, hpre.2.1, fun e he => hpre.2.2 e (hperm.mem_iff.2 he)⟩
  have hrel : ∀ u v, edgeRel edges u v ↔ edgeRel edges2 u v := by
    intro u v
    constructor
    · rintro ⟨e, he, h1, h2⟩
      exact ⟨e, hperm.mem_iff.1 he, h1, h2⟩
    · rintro ⟨e, he, h1, h2⟩
      exact ⟨e, hperm.mem_iff.2 he, h1, h2⟩
  by_cases hall : AllReach n root edges
  · have hall2 : AllReach n root edges2 := fun v hv =>
      Relation.ReflTransGen.mono (fun a b hab => (hrel a b).1 hab) (hall v hv)
    obtain ⟨W, l, heq, hmin⟩ := chuLoop_minarb n n root edges 0 hpre le_rfl hall
    obtain ⟨W2, l2, heq2, hmin2⟩ := chuLoop_minarb n n root edges2 0 hpre2 le_rfl hall2
    have hW : W = W2 := minarb_perm n root edges edges2 hpre hpre2 hperm W W2 hmin hmin2
    rw [chuLiuEdmonds, chuLiuEdmonds, heq, heq2, hW]
    rfl
  · have hall2 : ¬ AllReach n root edges2 := by
      intro h2
      apply hall
      intro v hv
      exact Relation.ReflTransGen.mono (fun a b hab => (hrel a b).2 hab) (h2 v hv)
    obtain ⟨l, hl⟩ := (chuLoop_reach n n root edges 0 hpre le_rfl).2 hall
    obtain ⟨l2, hl2⟩ := (chuLoop_reach n n root edges2 0 hpre2 le_rfl).2 hall2
    rw [chuLiuEdmonds, chuLiuEdmonds, hl, hl2]
    rfl

/-- Witness for C7: the input of test case 1 and its reversal. -/
theorem claim_C7_witness :
    Pre 3 0 [Edge.mk 0 1 10, Edge.mk 0 2 5] ∧
    List.Perm [Edge.mk 0 1 10, Edge.mk 0 2 5] [Edge.mk 0 2 5, Edge.mk 0 1 10] ∧
    chuLiuEdmonds 3 0 [Edge.mk 0 1 10, Edge.mk 0 2 5] =
      chuLiuEdmonds 3 0 [Edge.mk 0 2 5, Edge.mk 0 1 10] := by
  have hpre : Pre 3 0 [Edge.mk 0 1 10, Edge.mk 0 2 5] := ⟨by omega, by omega, by decide⟩
  have hperm : List.Perm [Edge.mk 0 1 10, Edge.mk 0 2 5]
      [Edge.mk 0 2 5, Edge.mk 0 1 10] :=
    List.Perm.swap (Edge.mk 0 2 5) (Edge.mk 0 1 10) []
  exact ⟨hpre, hperm, claim_C7 3 0 _ _ hpre hperm⟩
